import Mathlib

/-!
A verification development for `torch/distributed/state_dict.py`: the
canonical-FQN state-dict normalization layer for models wrapped by DDP
(replica), FSDP (shard) and tensor-parallel (DTensor) parallelisms.

The Python source is shallowly embedded:
* Python dicts become association lists (`SDict.Dict`) with Python insert
  semantics (an insert of an existing key updates it in place, a new key is
  appended at the end; `pop` removes an entry and raises `KeyError` when the
  key is absent).
* Python sets of FQN strings become `List String` (a determinization of the
  unordered Python set; the source only builds such sets from already
  distinct names).
* Raised exceptions become `Except PyErr`.
* Tensors are opaque values (`Val := Nat`); parameter objects are `Param`
  records compared structurally, with a numeric identity `pid` standing in
  for Python object identity.
* External collaborators (the native `state_dict`/`load_state_dict` of
  modules and optimizers, `optim.step`, and FSDP's optimizer state dict
  canonicalization) are not part of the source file; they are modelled from
  the spec where a claim needs them, and each such definition is marked
  `Modelled from the spec:`.
-/

namespace TorchSD

/-- Python exceptions raised by the embedded code. -/
inductive PyErr where
  | runtimeError (msg : String)
  | keyError
  | attributeError
  | assertionError
  | indexError
  | typeError (msg : String)
deriving DecidableEq, Repr

/-- Opaque tensor payload. -/
abbrev Val := Nat

instance {ε α : Type} [DecidableEq ε] [DecidableEq α] : DecidableEq (Except ε α) :=
  fun a b =>
    match a, b with
    | .ok x, .ok y =>
      if h : x = y then isTrue (by rw [h]) else isFalse (fun hc => h (Except.ok.inj hc))
    | .ok _, .error _ => isFalse (fun hc => Except.noConfusion hc)
    | .error _, .ok _ => isFalse (fun hc => Except.noConfusion hc)
    | .error x, .error y =>
      if h : x = y then isTrue (by rw [h]) else isFalse (fun hc => h (Except.error.inj hc))

namespace SDict

/-- A Python dict, as an insertion-ordered association list. The source
only ever builds dicts with distinct keys. -/
abbrev Dict (κ α : Type) := List (κ × α)

variable {κ : Type} [DecidableEq κ]

/-- First-match lookup (keys are kept distinct, so this is dict lookup). -/
def lookup {α : Type} (d : Dict κ α) (k : κ) : Option α :=
  match d with
  | [] => none
  | (k2, v) :: rest => if k2 = k then some v else lookup rest k

/-- Python `d[k] = v`: update in place when the key exists, append otherwise. -/
def insertD {α : Type} (d : Dict κ α) (k : κ) (v : α) : Dict κ α :=
  match d with
  | [] => [(k, v)]
  | (k2, v2) :: rest => if k2 = k then (k2, v) :: rest else (k2, v2) :: insertD rest k v

/-- Python `d.pop(k)`: remove the entry, yielding its value and the rest;
`none` corresponds to a raised `KeyError`. -/
def pop {α : Type} (d : Dict κ α) (k : κ) : Option (α × Dict κ α) :=
  match d with
  | [] => none
  | (k2, v) :: rest =>
    if k2 = k then some (v, rest)
    else match pop rest k with
      | some (v2, rest2) => some (v2, (k2, v) :: rest2)
      | none => none

def keys {α : Type} (d : Dict κ α) : List κ := d.map (·.1)

/-- Python dict equality: same keys and equal values, order ignored. -/
def equivb {α : Type} [DecidableEq α] (d1 d2 : Dict κ α) : Bool :=
  (keys d1 ++ keys d2).all (fun k => lookup d1 k = lookup d2 k)

@[simp] theorem lookup_nil {α : Type} (k : κ) : lookup ([] : Dict κ α) k = none := rfl

@[simp] theorem lookup_cons {α : Type} (k2 k : κ) (v : α) (rest : Dict κ α) :
    lookup ((k2, v) :: rest) k = if k2 = k then some v else lookup rest k := rfl

omit [DecidableEq κ] in
@[simp] theorem keys_nil {α : Type} : keys ([] : Dict κ α) = [] := rfl

omit [DecidableEq κ] in
@[simp] theorem keys_cons {α : Type} (p : κ × α) (rest : Dict κ α) :
    keys (p :: rest) = p.1 :: keys rest := rfl

theorem lookup_isSome_iff_mem_keys {α : Type} (d : Dict κ α) (k : κ) :
    (lookup d k).isSome ↔ k ∈ keys d := by
  induction d with
  | nil => simp [lookup, keys]
  | cons p rest ih =>
    obtain ⟨k2, v⟩ := p
    by_cases h : k2 = k
    · subst h
      simp [lookup, keys]
    · have hne : ¬ k = k2 := fun hk => h hk.symm
      rw [keys_cons]
      simp only [lookup, h, if_false, List.mem_cons]
      rw [ih]
      exact ⟨Or.inr, fun hc => hc.elim (fun hk => absurd hk hne) id⟩

theorem lookup_eq_none_of_not_mem {α : Type} {d : Dict κ α} {k : κ}
    (h : k ∉ keys d) : lookup d k = none := by
  by_contra hne
  exact h ((lookup_isSome_iff_mem_keys d k).1 (Option.isSome_iff_ne_none.2 hne))

theorem mem_keys_of_lookup_isSome {α : Type} {d : Dict κ α} {k : κ}
    (h : (lookup d k).isSome) : k ∈ keys d :=
  (lookup_isSome_iff_mem_keys d k).1 h

theorem keys_insertD {α : Type} (d : Dict κ α) (k : κ) (v : α) :
    keys (insertD d k v) = if k ∈ keys d then keys d else keys d ++ [k] := by
  induction d with
  | nil => simp [insertD, keys]
  | cons p rest ih =>
    obtain ⟨k2, v2⟩ := p
    by_cases h : k2 = k
    · subst h
      simp [insertD, keys]
    · have hne : ¬ k = k2 := fun hk => h hk.symm
      simp only [insertD, h, if_false, keys_cons, ih, List.mem_cons]
      by_cases hm : k ∈ keys rest
      · simp [hm, hne]
      · simp [hm, hne]

theorem lookup_insertD_self {α : Type} (d : Dict κ α) (k : κ) (v : α) :
    lookup (insertD d k v) k = some v := by
  induction d with
  | nil => simp [insertD, lookup]
  | cons p rest ih =>
    obtain ⟨k2, v2⟩ := p
    by_cases h : k2 = k <;> simp [insertD, h, lookup, ih]

theorem lookup_insertD_ne {α : Type} (d : Dict κ α) (k q : κ) (v : α) (h : q ≠ k) :
    lookup (insertD d k v) q = lookup d q := by
  induction d with
  | nil =>
    have : ¬ k = q := fun hk => h hk.symm
    simp [insertD, lookup, this]
  | cons p rest ih =>
    obtain ⟨k2, v2⟩ := p
    by_cases h2 : k2 = k
    · subst h2
      have : ¬ k2 = q := fun hk => h hk.symm
      simp [insertD, lookup, this]
    · simp [insertD, h2, lookup, ih]

theorem pop_eq_none_iff {α : Type} (d : Dict κ α) (k : κ) :
    pop d k = none ↔ k ∉ keys d := by
  induction d with
  | nil => simp [pop, keys]
  | cons p rest ih =>
    obtain ⟨k2, v⟩ := p
    by_cases h : k2 = k
    · subst h
      simp [pop, keys]
    · have hne : ¬ k = k2 := fun hk => h hk.symm
      simp only [pop, h, if_false, keys_cons, List.mem_cons]
      cases hp : pop rest k with
      | none =>
        have := ih.1 hp
        simp [hne, this]
      | some pr =>
        simp only [reduceCtorEq, false_iff, not_not]
        right
        by_contra hmem
        rw [ih.2 hmem] at hp
        exact absurd hp (by simp)

theorem pop_lookup {α : Type} {d : Dict κ α} {k : κ} {v : α} {rest : Dict κ α}
    (h : pop d k = some (v, rest)) : lookup d k = some v := by
  induction d generalizing rest with
  | nil => simp [pop] at h
  | cons p tail ih =>
    obtain ⟨k2, v2⟩ := p
    by_cases h2 : k2 = k
    · simp only [pop, h2, if_true, Option.some.injEq, Prod.mk.injEq] at h
      simp [lookup, h2, h.1]
    · simp only [pop, h2, if_false] at h
      cases hp : pop tail k with
      | none => rw [hp] at h; exact absurd h (by simp)
      | some pr =>
        rw [hp] at h
        obtain ⟨v3, rest3⟩ := pr
        simp only [Option.some.injEq, Prod.mk.injEq, List.cons.injEq] at h
        obtain ⟨hv, _⟩ := h
        subst hv
        simp [lookup, h2, ih hp]

theorem pop_lookup_rest {α : Type} {d : Dict κ α} {k : κ} {v : α} {rest : Dict κ α}
    (h : pop d k = some (v, rest)) (q : κ) (hq : q ≠ k) :
    lookup rest q = lookup d q := by
  induction d generalizing rest with
  | nil => simp [pop] at h
  | cons p tail ih =>
    obtain ⟨k2, v2⟩ := p
    by_cases h2 : k2 = k
    · subst h2
      simp only [pop, if_true, Option.some.injEq, Prod.mk.injEq] at h
      obtain ⟨_, hrest⟩ := h
      subst hrest
      have : ¬ k2 = q := fun hk => hq hk.symm
      simp [lookup, this]
    · simp only [pop, h2, if_false] at h
      cases hp : pop tail k with
      | none => rw [hp] at h; exact absurd h (by simp)
      | some pr =>
        rw [hp] at h
        obtain ⟨v3, rest3⟩ := pr
        simp only [Option.some.injEq, Prod.mk.injEq] at h
        obtain ⟨hv, hrest⟩ := h
        subst hv
        subst hrest
        by_cases h3 : k2 = q <;> simp [lookup, h3, ih hp]

theorem pop_keys_subset {α : Type} {d : Dict κ α} {k : κ} {v : α} {rest : Dict κ α}
    (h : pop d k = some (v, rest)) (q : κ) (hq : q ∈ keys rest) : q ∈ keys d := by
  induction d generalizing rest with
  | nil => simp [pop] at h
  | cons p tail ih =>
    obtain ⟨k2, v2⟩ := p
    by_cases h2 : k2 = k
    · simp only [pop, h2, if_true, Option.some.injEq, Prod.mk.injEq] at h
      rw [keys_cons]
      exact List.mem_cons.2 (Or.inr (h.2 ▸ hq))
    · simp only [pop, h2, if_false] at h
      cases hp : pop tail k with
      | none => rw [hp] at h; exact absurd h (by simp)
      | some pr =>
        rw [hp] at h
        obtain ⟨v3, rest3⟩ := pr
        simp only [Option.some.injEq, Prod.mk.injEq] at h
        obtain ⟨hv, hrest⟩ := h
        subst hv
        subst hrest
        rw [keys_cons] at hq
        rcases List.mem_cons.1 hq with h4 | h4
        · rw [keys_cons, h4]; exact List.mem_cons_self _ _
        · exact List.mem_cons.2 (Or.inr (ih hp h4))

end SDict

/-! ### Dotted paths

Python's `name.split(".")` and `".".join(parts)`, implemented on the
character list of the string so that their interaction is provable. -/

/-- `name.split(".")` on the character level. -/
def splitDotsCh : List Char → List Char → List String
  | acc, [] => [String.mk acc.reverse]
  | acc, c :: cs =>
    if c = '.' then String.mk acc.reverse :: splitDotsCh [] cs
    else splitDotsCh (c :: acc) cs

/-- Python `name.split(".")`. -/
def splitDots (s : String) : List String := splitDotsCh [] s.data

/-- Python `".".join(parts)`. -/
def joinDots : List String → String
  | [] => ""
  | [s] => s
  | s :: rest => s ++ "." ++ joinDots rest

/-- Python `"." in name`. -/
def hasDot (s : String) : Bool := decide ('.' ∈ s.data)

theorem splitDotsCh_no_dot (acc : List Char) (cs : List Char) (h : '.' ∉ cs) :
    splitDotsCh acc cs = [String.mk (acc.reverse ++ cs)] := by
  induction cs generalizing acc with
  | nil => simp [splitDotsCh]
  | cons c rest ih =>
    have hc : ¬ c = '.' := fun hc => h (hc ▸ List.mem_cons_self c rest)
    have hr : '.' ∉ rest := fun hm => h (List.mem_cons.2 (Or.inr hm))
    simp [splitDotsCh, hc, ih _ hr]

theorem splitDotsCh_append_dot (acc : List Char) (xs ys : List Char) (h : '.' ∉ xs) :
    splitDotsCh acc (xs ++ '.' :: ys) =
      String.mk (acc.reverse ++ xs) :: splitDotsCh [] ys := by
  induction xs generalizing acc with
  | nil => simp [splitDotsCh]
  | cons c rest ih =>
    have hc : ¬ c = '.' := fun hc => h (hc ▸ List.mem_cons_self c rest)
    have hr : '.' ∉ rest := fun hm => h (List.mem_cons.2 (Or.inr hm))
    simp [splitDotsCh, hc, ih _ hr]

/-- A well-formed path segment: nonempty and dot-free. -/
def goodSeg (s : String) : Bool := s ≠ "" && '.' ∉ s.data

theorem data_joinDots_cons (s : String) (rest : List String) (h : rest ≠ []) :
    (joinDots (s :: rest)).data = s.data ++ '.' :: (joinDots rest).data := by
  match rest with
  | [] => exact absurd rfl h
  | r :: rs =>
    show (s ++ "." ++ joinDots (r :: rs)).data = _
    rw [String.data_append, String.data_append]
    rw [show ".".data = ['.'] from rfl, List.append_assoc]
    rfl

theorem splitDots_joinDots (segs : List String) (h : ∀ s ∈ segs, '.' ∉ s.data)
    (hne : segs ≠ []) : splitDots (joinDots segs) = segs := by
  induction segs with
  | nil => exact absurd rfl hne
  | cons s rest ih =>
    have hsm : '.' ∉ s.data := h s (List.mem_cons_self s rest)
    match rest with
    | [] =>
      show splitDotsCh [] (joinDots [s]).data = [s]
      show splitDotsCh [] s.data = [s]
      rw [splitDotsCh_no_dot [] s.data hsm]
      simp
    | r :: rs =>
      have hrest : ∀ t ∈ r :: rs, '.' ∉ t.data :=
        fun t ht => h t (List.mem_cons.2 (Or.inr ht))
      have ihr := ih hrest (by simp)
      show splitDotsCh [] (joinDots (s :: r :: rs)).data = s :: r :: rs
      rw [data_joinDots_cons s (r :: rs) (by simp)]
      rw [splitDotsCh_append_dot [] s.data (joinDots (r :: rs)).data hsm]
      simp only [List.reverse_nil, List.nil_append]
      rw [show String.mk s.data = s from rfl]
      exact congrArg (s :: ·) ihr

theorem hasDot_joinDots_single (s : String) (h : '.' ∉ s.data) :
    hasDot (joinDots [s]) = false := by
  show hasDot s = false
  simp [hasDot, h]

theorem hasDot_joinDots_cons (s : String) (rest : List String) (h : rest ≠ []) :
    hasDot (joinDots (s :: rest)) = true := by
  simp only [hasDot, decide_eq_true_eq]
  rw [data_joinDots_cons s rest h]
  exact List.mem_append.2 (Or.inr (List.mem_cons_self _ _))

/-! ### Data model: parameters and module trees -/

/-- A parameter object. `pid` stands in for Python object identity;
`isDTensor` marks tensor-parallel DTensor parameters; `flatFqns` is the
`_fqns` attribute recorded on an FSDP `FlatParameter` (empty for ordinary
parameters). -/
structure Param where
  pid : Nat
  requiresGrad : Bool := true
  isDTensor : Bool := false
  flatFqns : List String := []
deriving DecidableEq, Repr

/-- The module tree. `plain` is an ordinary `nn.Module` with named children
and named parameters; `ddp` is a `DistributedDataParallel` wrapper (its
single child lives under the attribute `module`); `fsdp` is a
`FullyShardedDataParallel` wrapper (child under `_fsdp_wrapped_module`,
optionally holding a flattened `_flat_param`, and carrying its
`_is_root` flag). -/
inductive Module where
  | plain (children : List (String × Module)) (params : List (String × Param))
  | ddp (child : Module)
  | fsdp (isRoot : Bool) (flatParam : Option Param) (child : Module)

/-- The constant `FLAT_PARAM` from the source. -/
def FLAT_PARAM : String := "_flat_param"

/-- The constant `FSDP_WRAPPED_MODULE` from torch FSDP common utils. -/
def FSDP_WRAPPED_MODULE : String := "_fsdp_wrapped_module"

/-- `getattr(module, name)` restricted to child submodules. -/
def Module.findChild : Module → String → Option Module
  | .plain cs _, n => cs.lookup n
  | .ddp c, n => if n = "module" then some c else none
  | .fsdp _ _ c, n => if n = FSDP_WRAPPED_MODULE then some c else none

/-- `getattr(module, name)` restricted to direct parameters. -/
def Module.findParam : Module → String → Option Param
  | .plain _ ps, n => ps.lookup n
  | .ddp _, _ => none
  | .fsdp _ fp _, n => if n = FLAT_PARAM then fp else none

mutual

/-- `model.named_parameters()`: the torch depth-first named traversal. A
flattened FSDP wrapper exposes the single synthetic
`_fsdp_wrapped_module._flat_param` entry in place of the originals. -/
def Module.namedParameters : Module → List (String × Param)
  | .plain cs ps => ps ++ namedParametersList cs
  | .ddp c => (Module.namedParameters c).map (fun sp => ("module." ++ sp.1, sp.2))
  | .fsdp _ (some fp) _ => [(FSDP_WRAPPED_MODULE ++ "." ++ FLAT_PARAM, fp)]
  | .fsdp _ none c =>
    (Module.namedParameters c).map (fun sp => (FSDP_WRAPPED_MODULE ++ "." ++ sp.1, sp.2))

def namedParametersList : List (String × Module) → List (String × Param)
  | [] => []
  | (n, m) :: rest =>
    (Module.namedParameters m).map (fun sp => (n ++ "." ++ sp.1, sp.2)) ++
      namedParametersList rest

end

mutual

/-- `FSDP.fsdp_modules(model)`: every FSDP instance in the tree, in
traversal order. -/
def Module.fsdpModules : Module → List Module
  | .plain cs _ => fsdpModulesList cs
  | .ddp c => Module.fsdpModules c
  | .fsdp r fp c => .fsdp r fp c :: Module.fsdpModules c

def fsdpModulesList : List (String × Module) → List Module
  | [] => []
  | (_, m) :: rest => Module.fsdpModules m ++ fsdpModulesList rest

end

/-- The `_is_root` flag of an FSDP instance
(`_get_module_fsdp_state_if_fully_sharded_module(module)._is_root`). -/
def Module.isRootFsdp : Module → Bool
  | .fsdp r _ _ => r
  | _ => false

mutual

/-- Whether the tree contains a DDP wrapper anywhere. -/
def Module.hasDdp : Module → Bool
  | .plain cs _ => hasDdpList cs
  | .ddp _ => true
  | .fsdp _ _ c => Module.hasDdp c

def hasDdpList : List (String × Module) → Bool
  | [] => false
  | (_, m) :: rest => Module.hasDdp m || hasDdpList rest

end

/-! ### `_get_fqns` -/

/-- The segment-consuming loop of `_get_fqns`. In the source this is a
`for i, curr_obj_name in enumerate(obj_names)` loop over the split name;
`acc` is `fqn_obj_names`. At a DDP node the segment must be `module`
(`assert`), and is kept only when `skip_ddp_prefix` is false. At an FSDP
node the *next* segment (`obj_names[i + 1]`, an `IndexError` when absent)
is compared against `FLAT_PARAM`; on a match the accumulated prefix is
fanned out over the flat parameter's recorded `_fqns`. -/
def getFqnsLoop (skipDdp : Bool) : List String → Module → List String →
    Except PyErr (List String)
  | [], _, acc => .ok [joinDots acc]
  | seg :: rest, curr, acc =>
    match curr with
    | .ddp child =>
      if seg = "module" then
        getFqnsLoop skipDdp rest child (if skipDdp then acc else acc ++ [seg])
      else .error .assertionError
    | .fsdp _ fpOpt child =>
      match rest with
      | [] => .error .indexError
      | next :: _ =>
        if next = FLAT_PARAM then
          match fpOpt with
          | some fp => .ok (fp.flatFqns.map (fun f => joinDots (acc ++ [f])))
          | none => .error .attributeError
        else if seg = FSDP_WRAPPED_MODULE then
          getFqnsLoop skipDdp rest child acc
        else
          match child.findChild seg with
          | some m => getFqnsLoop skipDdp rest m (acc ++ [seg])
          | none =>
            match child.findParam seg with
            | some _ =>
              if rest.isEmpty then .ok [joinDots (acc ++ [seg])]
              else .error .attributeError
            | none => .error .attributeError
    | .plain cs ps =>
      match cs.lookup seg with
      | some m => getFqnsLoop skipDdp rest m (acc ++ [seg])
      | none =>
        match ps.lookup seg with
        | some _ =>
          if rest.isEmpty then .ok [joinDots (acc ++ [seg])]
          else .error .attributeError
        | none => .error .attributeError

/-- `_get_fqns(model, name, skip_ddp_prefix)`: convert a dotted name into
its set of canonical FQNs. A name without a dot resolves to itself. -/
def getFqns (model : Module) (name : String) (skipDdp : Bool := true) :
    Except PyErr (List String) :=
  if hasDot name then getFqnsLoop skipDdp (splitDots name) model []
  else .ok [name]

/-! ### Optimizers

The optimizer collaborator (`torch.optim.Optimizer`). Its internal
per-parameter state is keyed here directly by the positional parameter id
(the 0-based position obtained by chaining all groups' parameter lists),
which is the key format its native `state_dict()` exposes. `lr` stands for
the opaque scalar hyperparameters of a group. -/

/-- One entry of `optim.param_groups`. -/
structure ParamGroup where
  params : List Param
  lr : Nat := 0
deriving DecidableEq, Repr

/-- An optimizer instance. -/
structure Optim where
  paramGroups : List ParamGroup
  state : List (Nat × Val) := []
deriving DecidableEq, Repr

/-- All parameters of the optimizer, chained across groups
(`chain.from_iterable(g["params"] for g in optim.param_groups)`). -/
def Optim.allParams (o : Optim) : List Param := (o.paramGroups.map (·.params)).flatten

/-! ### Options and `_verify_options` -/

/-- `StateDictType`: `local` is any unsupported member
(`LOCAL_STATE_DICT`). -/
inductive SDType where
  | fullStateDict
  | shardedStateDict
  | localStateDict
deriving DecidableEq, Repr

/-- `DistributedStateDictOptions`. -/
structure DistributedStateDictOptions where
  use_dtensor : Bool := true
  fsdp_state_dict_type : SDType := .shardedStateDict
  save_to_cpu : Bool := true
  save_frozen_params : Bool := true
deriving DecidableEq, Repr

/-- `_StateDictInfo`. The single Python dict `fqn_param_mapping` keyed by
both parameter objects and FQN strings is rendered as its two directions
`paramFqns` (parameter identity to canonical FQN set) and `fqnParam` (the
reverse mapping); both use cons-on-insert so a later insert shadows an
earlier one, as a Python dict overwrite does. The opaque
`fsdp_context` callable is not represented; it is consulted only through
`fsdpModules` being empty or not. -/
structure StateDictInfo extends DistributedStateDictOptions where
  paramFqns : List (Param × List String) := []
  fqnParam : List (String × Param) := []
  handle_model : Bool := true
  handle_optim : Bool := true
  fsdpModules : List Module := []

/-- `info.fqn_param_mapping[param]` (the parameter-to-FQNs direction). -/
def StateDictInfo.lookupParamFqns (info : StateDictInfo) (p : Param) :
    Option (List String) :=
  (info.paramFqns.find? (fun e => e.1 = p)).map (·.2)

/-- `info.fqn_param_mapping[fqn]` (the FQN-to-parameter direction). -/
def StateDictInfo.lookupFqnParam (info : StateDictInfo) (f : String) : Option Param :=
  (info.fqnParam.find? (fun e => e.1 = f)).map (·.2)

/-- The `for name, param in model.named_parameters()` loop of
`_verify_options`: resolve every named parameter, record both directions of
the mapping, and reject DTensor parameters when `use_dtensor` is off. -/
def buildMapping (t : Module) (useDt : Bool) :
    List (String × Param) → List (Param × List String) → List (String × Param) →
    Except PyErr (List (Param × List String) × List (String × Param))
  | [], pf, fp => .ok (pf, fp)
  | (name, p) :: rest, pf, fp =>
    match getFqns t name with
    | .error e => .error e
    | .ok fqns =>
      let pf2 := (p, fqns) :: pf
      let fp2 := fqns.foldl (fun acc f => (f, p) :: acc) fp
      if p.isDTensor && !useDt then
        .error (.runtimeError "TP is used by but use_dtensor is set to False")
      else buildMapping t useDt rest pf2 fp2

/-- `_verify_options(model, optims, model_only, optim_only, options)`.
The FSDP `state_dict_config` objects and the `functools.partial` context
manager are opaque collaborators and are not represented beyond the
validation of `fsdp_state_dict_type`; `handle_optim`'s Python truthiness
of the optimizer tuple becomes an emptiness test. -/
def verifyOptions (t : Module) (optims : List Optim) (model_only optim_only : Bool)
    (options : DistributedStateDictOptions := {}) : Except PyErr StateDictInfo :=
  match buildMapping t options.use_dtensor t.namedParameters [] [] with
  | .error e => .error e
  | .ok (pf, fp) =>
    let fsdpMs := t.fsdpModules
    if fsdpMs.isEmpty = false ∧ options.fsdp_state_dict_type = .localStateDict then
      .error (.runtimeError
        "distributed_state_dict currently support only FSDP FULL_STATE_DICT and SHARDED_STATE_DICT")
    else if model_only ∧ optim_only then
      .error (.runtimeError "Both model_only and optim_only are set, which one do you need?")
    else if model_only ∧ optims ≠ [] then
      .error (.runtimeError "If model_only is True optims must be an empty iterable object.")
    else if optim_only ∧ optims = [] then
      .error (.runtimeError "Optimizers are not passed in but optim_only is set to True.")
    else
      .ok { toDistributedStateDictOptions := options
            paramFqns := pf
            fqnParam := fp
            handle_model := model_only || !optim_only
            handle_optim := optim_only || (!model_only && optims ≠ [])
            fsdpModules := fsdpMs }

/-! ### Optimizer state dicts and `_verify_state_dict` -/

/-- One entry of an optimizer state dict's `param_groups` list, keyed by
`κ` (positional parameter ids in the native format, canonical FQN strings
in the canonical format). -/
structure OsdGroup (κ : Type) where
  params : List κ
  lr : Nat := 0
deriving DecidableEq, Repr

/-- An optimizer state dict `{"state": ..., "param_groups": ...}`. -/
structure OSD (κ : Type) where
  state : List (κ × Val) := []
  pg : List (OsdGroup κ) := []
deriving DecidableEq, Repr

/-- Python `FLAT_PARAM in key` (substring containment). -/
def containsFlat (k : String) : Bool := decide (FLAT_PARAM.data <:+: k.data)

/-- The `for key, param in model_state_dict.items()` scan of
`_verify_state_dict` rejecting keys that contain the flattening marker. -/
def findFlatKey (msd : SDict.Dict String Val) : Except PyErr Unit :=
  match msd with
  | [] => .ok ()
  | (k, _) :: rest =>
    if containsFlat k then
      .error (.runtimeError "key contains _flat_param. This can happen if the model is not the root module.")
    else findFlatKey rest

/-- `_verify_state_dict(model_state_dict, optim_state_dict, info)`. The
Python `not optim_state_dict or not optim_state_dict["state"]` test reduces
to emptiness of `state`: the embedded optimizer state dict always carries
both sections. -/
def verifyStateDict (msd : SDict.Dict String Val) (osd : OSD String) (info : StateDictInfo) :
    Except PyErr Unit :=
  if info.fsdpModules.isEmpty = false ∧ info.fsdpModules.any Module.isRootFsdp = false then
    .error (.runtimeError "The model has FSDP modules but no FSDP root module exists.")
  else if info.handle_model = true ∧ msd.isEmpty = true then
    .error (.runtimeError
      "The option indicates that model state_dict is required to save or load, but model state_dict is empty.")
  else if info.handle_optim = true ∧ osd.state.isEmpty = true then
    .error (.runtimeError
      "The option indicates that model state_dict is required to save, or load but optim state_dict is empty.")
  else findFlatKey msd

/-! ### The model and its native collaborators

A distributed model is its wrapper tree plus a store of tensor values keyed
by the native keys its in-context `state_dict()` produces. `_state_dict_fn`
resolves to the native (unpatched) entry points here; the patched variants
are modelled separately for `patch_model_state_dict`. -/

structure DistModel where
  tree : Module
  store : SDict.Dict String Val

mutual

/-- Modelled from the spec: the keys the tree's native `state_dict()`
produces inside the resolved wrapper context manager. A plain module
contributes its parameters and prefixed children; DDP prefixes `module.`;
FSDP (inside `FSDP.state_dict_type`) produces unflattened entries under
the original parameter names with the wrapper's own marker segment
cleaned away. -/
def Module.nativeKeys : Module → List String
  | .plain cs ps => ps.map (·.1) ++ nativeKeysList cs
  | .ddp c => (Module.nativeKeys c).map (fun k => "module." ++ k)
  | .fsdp _ (some fp) _ => fp.flatFqns
  | .fsdp _ none c => Module.nativeKeys c

def nativeKeysList : List (String × Module) → List String
  | [] => []
  | (n, m) :: rest =>
    (Module.nativeKeys m).map (fun k => n ++ "." ++ k) ++ nativeKeysList rest

end

/-- Modelled from the spec: the native in-context `model.state_dict()`,
returning the current values under the wrapper's save-format keys. -/
def DistModel.nativeStateDict (m : DistModel) : SDict.Dict String Val := m.store

/-- Modelled from the spec: the native `model.load_state_dict(sd)` primitive
(strict mode): every model key must be supplied and no unexpected key is
tolerated; values of matching keys are replaced. -/
def DistModel.nativeLoadStateDict (m : DistModel) (sd : SDict.Dict String Val) :
    Except PyErr DistModel :=
  if (SDict.keys m.store).all (fun k => (SDict.lookup sd k).isSome) &&
      (SDict.keys sd).all (fun k => (SDict.lookup m.store k).isSome) then
    .ok { m with store := m.store.map (fun kv => (kv.1, (SDict.lookup sd kv.1).getD kv.2)) }
  else .error (.runtimeError "Error in loading state_dict for model: missing or unexpected keys")

/-! ### `_get_model_state_dict` and `_load_model_state_dict` -/

/-- The inner `verify(key, fqn)` loop of `_get_model_state_dict`: walk the
key's segments, matching fqn segments in order and skipping literal
`module` segments; when the fqn is exhausted the current key segment must
be the last. The `[]` fqn case is unreachable from the source (a split
never yields an empty list). -/
def verifyLoop : List String → List String → Bool
  | [], _ => true
  | kn :: krest, fqns =>
    match fqns with
    | [] => true
    | f :: frest =>
      if kn = f then
        if frest.isEmpty then krest.isEmpty
        else verifyLoop krest frest
      else if kn = "module" then verifyLoop krest (f :: frest)
      else false

/-- `verify(key, fqn)` of `_get_model_state_dict`: accepts only a
native key that differs from the canonical fqn by interleaved `module`
segments. -/
def verifyKeyFqn (key fqn : String) : Bool :=
  if fqn.length ≥ key.length then false
  else verifyLoop (splitDots key) (splitDots fqn)

/-- The `for key in list(state_dict.keys())` rekey loop of
`_get_model_state_dict`: resolve each native key (asserting a single FQN),
and when it differs from the canonical FQN, check the DDP divergence
pattern and move the entry (`state_dict[fqn] = state_dict.pop(key)`). -/
def rekeyModelKeys (model : Module) :
    List String → SDict.Dict String Val → Except PyErr (SDict.Dict String Val)
  | [], sd => .ok sd
  | key :: ks, sd =>
    match getFqns model key with
    | .error e => .error e
    | .ok fqns =>
      match fqns with
      | [fqn] =>
        if fqn = key then rekeyModelKeys model ks sd
        else if verifyKeyFqn key fqn then
          match SDict.pop sd key with
          | some (v, sd2) => rekeyModelKeys model ks (SDict.insertD sd2 fqn v)
          | none => .error .keyError
        else .error (.runtimeError "An unexpected key exists")
      | _ => .error .assertionError

/-- `state_dict.pop(fqn)` over a set of FQNs (raises `KeyError` when one is
absent). -/
def popAll : List String → SDict.Dict String Val → Except PyErr (SDict.Dict String Val)
  | [], sd => .ok sd
  | f :: fs, sd =>
    match SDict.pop sd f with
    | some (_, sd2) => popAll fs sd2
    | none => .error .keyError

/-- The frozen-parameter filter of `_get_model_state_dict` (runs only when
`save_frozen_params` is false). -/
def dropFrozen (model : Module) :
    List (String × Param) → SDict.Dict String Val → Except PyErr (SDict.Dict String Val)
  | [], sd => .ok sd
  | (key, p) :: rest, sd =>
    if p.requiresGrad then dropFrozen model rest sd
    else
      match getFqns model key with
      | .error e => .error e
      | .ok fqns =>
        match popAll fqns sd with
        | .error e => .error e
        | .ok sd2 => dropFrozen model rest sd2

/-- `_get_model_state_dict(model, info)`. -/
def getModelStateDict (m : DistModel) (info : StateDictInfo) :
    Except PyErr (SDict.Dict String Val) :=
  let sd := m.nativeStateDict
  match rekeyModelKeys m.tree (SDict.keys sd) sd with
  | .error e => .error e
  | .ok sd2 =>
    if info.save_frozen_params then .ok sd2
    else dropFrozen m.tree m.tree.namedParameters sd2

/-- One `state_dict[fqn_with_ddp_prefix] = state_dict.pop(fqn)` pass over
the zipped FQN pairs of a named parameter in `_load_model_state_dict`. -/
def movePairs : List (String × String) → SDict.Dict String Val → Except PyErr (SDict.Dict String Val)
  | [], sd => .ok sd
  | (f, fd) :: rest, sd =>
    if f = fd then movePairs rest sd
    else
      match SDict.pop sd f with
      | some (v, sd2) => movePairs rest (SDict.insertD sd2 fd v)
      | none => .error .keyError

/-- The `for key, _ in model.named_parameters()` loop of
`_load_model_state_dict`: rekey every entry whose DDP-prefix-preserving FQN
differs from the canonical one. -/
def loadRekeyFold (model : Module) :
    List (String × Param) → SDict.Dict String Val → Except PyErr (SDict.Dict String Val)
  | [], sd => .ok sd
  | (key, _) :: rest, sd =>
    match getFqns model key with
    | .error e => .error e
    | .ok fqns =>
      match getFqns model key false with
      | .error e => .error e
      | .ok fqnsD =>
        match movePairs (fqns.zip fqnsD) sd with
        | .error e => .error e
        | .ok sd2 => loadRekeyFold model rest sd2

/-- `_load_model_state_dict(model, state_dict, info)`: the caller's dict is
mutated in place in Python; here both the mutated dict and the updated
model are returned. -/
def loadModelStateDict (m : DistModel) (sd : SDict.Dict String Val) (_info : StateDictInfo) :
    Except PyErr (SDict.Dict String Val × DistModel) :=
  match loadRekeyFold m.tree m.tree.namedParameters sd with
  | .error e => .error e
  | .ok sd2 =>
    match m.nativeLoadStateDict sd2 with
    | .error e => .error e
    | .ok m2 => .ok (sd2, m2)

/-! ### `_init_optim_state` -/

/-- The gradients currently attached to parameters, keyed by parameter id;
an absent key is `param.grad is None`. -/
abbrev Grads := SDict.Dict Nat Val

/-- Observable actions of `_init_optim_state`: synthesizing a zero gradient
for a trainable parameter, the single `optim.step(closure=None)`, and the
final `optim.zero_grad(set_to_none=True)`. -/
inductive Action where
  | setZeroGrad (pid : Nat)
  | stepAction
  | clearGrads
deriving DecidableEq, Repr

/-- The `for param_group in optim.param_groups: for param in ...` loop of
`_init_optim_state`: any already-present gradient is fatal; trainable
parameters receive a synthesized zero gradient. -/
def checkAndZeroGrads : List Param → Grads → Except PyErr (Grads × List Action)
  | [], g => .ok (g, [])
  | p :: rest, g =>
    if (SDict.lookup g p.pid).isSome then
      .error (.runtimeError
        "distributed_state_dict can only be used if the optimizer states are initialized or gradients are None.")
    else if p.requiresGrad then
      match checkAndZeroGrads rest (SDict.insertD g p.pid 0) with
      | .error e => .error e
      | .ok (g2, as) => .ok (g2, .setZeroGrad p.pid :: as)
    else checkAndZeroGrads rest g

/-- The opaque per-position payload a lazy-initializing step allocates. -/
def stepInitVal (pos : Nat) : Val := pos + 1

/-- Modelled from the spec: `optim.step(closure=None)` run while the
optimizer state is empty: lazily allocates per-parameter state (moment
buffers, step counts) for every parameter currently carrying a gradient,
keyed by positional id. -/
def Optim.fakeStep (o : Optim) (g : Grads) : Optim :=
  { o with state := o.allParams.enum.filterMap (fun ip =>
      if (SDict.lookup g ip.2.pid).isSome then some (ip.1, stepInitVal ip.1) else none) }

/-- Modelled from the spec: `optim.zero_grad(set_to_none=True)` detaches
the gradients of every parameter of this optimizer. -/
def Optim.zeroGrad (o : Optim) (g : Grads) : Grads :=
  g.filter (fun kv => !(o.allParams.any (fun p => p.pid == kv.1)))

/-- `_init_optim_state(optim)`: a no-op when the optimizer state is already
non-empty; otherwise synthesize zero gradients (fatal if any real gradient
exists), step once, and clear all gradients. Returns the updated optimizer
and gradient map plus the trace of performed actions. -/
def initOptimState (o : Optim) (g : Grads) : Except PyErr (Optim × Grads × List Action) :=
  if o.state.isEmpty = false then .ok (o, g, [])
  else
    match checkAndZeroGrads o.allParams g with
    | .error e => .error e
    | .ok (g2, as) =>
      let o2 := o.fakeStep g2
      let g3 := o2.zeroGrad g2
      .ok (o2, g3, as ++ [.stepAction, .clearGrads])

/-! ### Native optimizer collaborators -/

/-- The positional ids of each group, chained across groups (the torch
`state_dict()` convention, mirrored by the source's own
`param_pid_mapping` built with `chain.from_iterable`). -/
def assignPos (start : Nat) : List ParamGroup → List (OsdGroup Nat)
  | [] => []
  | gr :: rest =>
    ⟨List.range' start gr.params.length, gr.lr⟩ :: assignPos (start + gr.params.length) rest

/-- Modelled from the spec: the optimizer's native `state_dict()`: state
keyed by positional ids (the embedded optimizer already holds it that way)
and groups carrying positional id lists. -/
def Optim.nativeStateDict (o : Optim) : OSD Nat :=
  { state := o.state, pg := assignPos 0 o.paramGroups }

/-- Rekey loaded state entries to positional ids; a key that no group
mentions is fatal. -/
def mapStateKeys {κ : Type} [DecidableEq κ] (k2p : SDict.Dict κ Nat) :
    List (κ × Val) → Except PyErr (List (Nat × Val))
  | [] => .ok []
  | (k, v) :: rest =>
    match SDict.lookup k2p k with
    | some pid =>
      match mapStateKeys k2p rest with
      | .error e => .error e
      | .ok r => .ok ((pid, v) :: r)
    | none => .error .keyError

/-- Modelled from the spec: the optimizer's native `load_state_dict`. It
pairs loaded groups with the optimizer's own groups positionally (a
group-count or group-size mismatch is fatal), maps each loaded state key to
a positional id via its position in the loaded group parameter lists (this
is how torch maps canonical FQN keys back to ids by the order saved in the
param group), replaces the optimizer state wholesale, and adopts the loaded
hyperparameters. -/
def nativeOptimLoad {κ : Type} [DecidableEq κ] (o : Optim) (osd : OSD κ) :
    Except PyErr Optim :=
  if osd.pg.length = o.paramGroups.length then
    if (osd.pg.zip (assignPos 0 o.paramGroups)).all
        (fun gc => gc.1.params.length == gc.2.params.length) then
      let k2p : SDict.Dict κ Nat :=
        ((osd.pg.zip (assignPos 0 o.paramGroups)).map
          (fun gc => gc.1.params.zip gc.2.params)).flatten
      match mapStateKeys k2p osd.state with
      | .error e => .error e
      | .ok st =>
        .ok { paramGroups := (o.paramGroups.zip osd.pg).map
                (fun cg => { cg.1 with lr := cg.2.lr }),
              state := st }
    else .error (.runtimeError
      "loaded state dict contains a parameter group that does not match the size of optimizer group")
  else .error (.runtimeError "loaded state dict has a different number of parameter groups")

/-! ### `_get_optim_state_dict` -/

/-- `dict(zip(params, range(len(params))))` looked up at `param`: the
positional id of a parameter (a duplicated parameter keeps its last
position, as the Python dict overwrite would). -/
def paramPid (params : List Param) (p : Param) : Option Nat :=
  ((params.enum.filter (fun ip => ip.2 == p)).map (·.1)).getLast?

/-- The `for key, param in model.named_parameters()` loop of the no-FSDP
branch of `_get_optim_state_dict`, accumulating the two directions of
`fqn_pid_mapping` (a single Python dict whose int and string keys never
collide). -/
def buildFqnPid (t : Module) (params : List Param) :
    List (String × Param) → SDict.Dict Nat String → SDict.Dict String Nat →
    Except PyErr (SDict.Dict Nat String × SDict.Dict String Nat)
  | [], p2f, f2p => .ok (p2f, f2p)
  | (key, p) :: rest, p2f, f2p =>
    match getFqns t key with
    | .error e => .error e
    | .ok fqns =>
      match fqns with
      | [fqn] =>
        match paramPid params p with
        | none => buildFqnPid t params rest p2f f2p
        | some pid =>
          buildFqnPid t params rest (SDict.insertD p2f pid fqn) (SDict.insertD f2p fqn pid)
      | _ => .error .assertionError

/-- The state-key conversion loop
`osd["state"][fqn] = osd["state"].pop(key)` over the snapshot of keys.
The Python loop rewrites a single dict whose keys migrate from positional
ids to FQN strings; the two key kinds never collide, so processing the
snapshot in order builds the string-keyed dict directly, with dict-insert
semantics. A missing id raises `KeyError`. -/
def convertStateKeys (p2f : SDict.Dict Nat String) :
    List (Nat × Val) → SDict.Dict String Val → Except PyErr (SDict.Dict String Val)
  | [], acc => .ok acc
  | (pid, v) :: rest, acc =>
    match SDict.lookup p2f pid with
    | some fqn => convertStateKeys p2f rest (SDict.insertD acc fqn v)
    | none => .error .keyError

/-- `[fqn_pid_mapping[pid] for pid in group["params"]]`. -/
def mapLookupAll (p2f : SDict.Dict Nat String) : List Nat → Except PyErr (List String)
  | [] => .ok []
  | pid :: rest =>
    match SDict.lookup p2f pid with
    | some fqn =>
      match mapLookupAll p2f rest with
      | .error e => .error e
      | .ok r => .ok (fqn :: r)
    | none => .error .keyError

/-- Rewrite one optimizer param group's positional ids to FQNs. -/
def convertGroup (p2f : SDict.Dict Nat String) (g : OsdGroup Nat) :
    Except PyErr (OsdGroup String) :=
  match mapLookupAll p2f g.params with
  | .error e => .error e
  | .ok fs => .ok ⟨fs, g.lr⟩

/-- The no-FSDP branch of `_get_optim_state_dict`: build the local
positional-id to FQN mapping and rekey state keys and group parameter
lists. -/
def noFsdpConvert (t : Module) (o : Optim) (osd : OSD Nat) : Except PyErr (OSD String) :=
  match buildFqnPid t o.allParams t.namedParameters [] [] with
  | .error e => .error e
  | .ok (p2f, _f2p) =>
    match convertStateKeys p2f osd.state [] with
    | .error e => .error e
    | .ok st =>
      match osd.pg.mapM (convertGroup p2f) with
      | .error e => .error e
      | .ok pgs => .ok { state := st, pg := pgs }

/-- The traversal name of a parameter
(`model.named_parameters()` searched by identity). -/
def paramNameIn (t : Module) (p : Param) : Option String :=
  (t.namedParameters.find? (fun sp => sp.2 == p)).map (·.1)

/-- The canonical FQN set of the parameter at positional id `pid` of the
optimizer, resolved through the model tree. -/
def posFqns (t : Module) (o : Optim) (pid : Nat) : Except PyErr (List String) :=
  match o.allParams.get? pid with
  | none => .error .keyError
  | some p =>
    match paramNameIn t p with
    | none => .error .keyError
    | some n => getFqns t n

/-- Modelled from the spec: `FSDP.optim_state_dict(model, optim, osd)`, the
wrapper's optimizer-state canonicalization primitive: every positional
state key fans out over the canonical FQN set of its parameter (a flat
parameter's entry is duplicated under each of its original FQNs, carrying
the same opaque payload), and group parameter lists fan out likewise. -/
def fsdpOptimStateDict (t : Module) (o : Optim) (osd : OSD Nat) :
    Except PyErr (OSD String) := do
  let stLists ← osd.state.mapM (fun kv => do
    let fqns ← posFqns t o kv.1
    pure (fqns.map (fun f => (f, kv.2))))
  let pgs ← osd.pg.mapM (fun g => do
    let fqnss ← g.params.mapM (posFqns t o)
    pure ({ params := fqnss.flatten, lr := g.lr } : OsdGroup String))
  pure { state := stLists.flatten, pg := pgs }

/-- Modelled from the spec:
`FSDP.optim_state_dict_to_load(model, optim, osd)`, the inverse primitive.
Each positional parameter pulls the state entry of its first canonical FQN
(the fan-out stored the same opaque payload under every FQN of a flat
parameter); parameters without an entry are skipped; groups are paired
positionally and rewritten back to positional ids. -/
def fsdpOptimStateDictToLoad (t : Module) (o : Optim) (osd : OSD String) :
    Except PyErr (OSD Nat) := do
  let entries ← o.allParams.enum.mapM (fun ip => do
    let fqns ← posFqns t o ip.1
    match fqns.head? with
    | none => pure (none : Option (Nat × Val))
    | some f => pure ((SDict.lookup osd.state f).map (fun v => (ip.1, v))))
  if osd.pg.length = o.paramGroups.length then
    pure { state := entries.reduceOption,
           pg := ((assignPos 0 o.paramGroups).zip osd.pg).map
             (fun gg => { gg.1 with lr := gg.2.lr }) }
  else throw (.runtimeError "optim state dict to load: group count mismatch")

/-- The `for optim in optims` loop of `_get_optim_state_dict`, merging each
canonicalized state dict into the accumulator
(`optim_state_dict["state"].update(...)` and `[PG].extend(...)`). -/
def getOptimFold (m : DistModel) (info : StateDictInfo) :
    List Optim → Grads → OSD String → List Optim →
    Except PyErr (OSD String × List Optim × Grads)
  | [], g, acc, doneOs => .ok (acc, doneOs.reverse, g)
  | o :: rest, g, acc, doneOs =>
    match initOptimState o g with
    | .error e => .error e
    | .ok (o2, g2, _trace) =>
      let osdN := o2.nativeStateDict
      match (if info.fsdpModules.isEmpty = false then fsdpOptimStateDict m.tree o2 osdN
             else noFsdpConvert m.tree o2 osdN) with
      | .error e => .error e
      | .ok osdC =>
        getOptimFold m info rest g2
          { state := osdC.state.foldl (fun a kv => SDict.insertD a kv.1 kv.2) acc.state,
            pg := acc.pg ++ osdC.pg }
          (o2 :: doneOs)

/-- `_get_optim_state_dict(model, optims, info)`: initialize each
optimizer, take its native state dict, canonicalize it (via FSDP's
primitive when FSDP modules exist, else via the local positional-id to FQN
remapping), and merge. Returns the merged dict plus the updated optimizers
and gradient map. -/
def getOptimStateDict (m : DistModel) (optims : List Optim) (g : Grads)
    (info : StateDictInfo) : Except PyErr (OSD String × List Optim × Grads) :=
  getOptimFold m info optims g { state := [], pg := [] } []

/-! ### `_split_optim_state_dict` and `_load_optim_state_dict` -/

/-- `param_group_ids.add(i)`: merged-group indices stand in for Python
`id(param_group)` identities. -/
def insertId (ids : List Nat) (i : Nat) : List Nat := if i ∈ ids then ids else ids ++ [i]

/-- The per-FQN pull of `_split_optim_state_dict`: copy the state entry
(`KeyError` when the merged dict lacks it) and record every merged group
that mentions the FQN. -/
def pullFqns (osd : OSD String) :
    List String → SDict.Dict String Val → List Nat →
    Except PyErr (SDict.Dict String Val × List Nat)
  | [], st, ids => .ok (st, ids)
  | f :: fs, st, ids =>
    match SDict.lookup osd.state f with
    | none => .error .keyError
    | some v =>
      let ids2 := (osd.pg.enum.filter (fun ig => f ∈ ig.2.params)).foldl
        (fun a ig => insertId a ig.1) ids
      pullFqns osd fs (SDict.insertD st f v) ids2

/-- The nested `for param_group ... for param ...` loop of
`_split_optim_state_dict`, skipping parameters with gradients disabled;
`info.fqn_param_mapping[param]` raises `KeyError` when the parameter was
never indexed. -/
def splitFold (info : StateDictInfo) (osd : OSD String) :
    List Param → SDict.Dict String Val → List Nat →
    Except PyErr (SDict.Dict String Val × List Nat)
  | [], st, ids => .ok (st, ids)
  | p :: rest, st, ids =>
    if p.requiresGrad = false then splitFold info osd rest st ids
    else
      match info.lookupParamFqns p with
      | none => .error .keyError
      | some fqns =>
        match pullFqns osd fqns st ids with
        | .error e => .error e
        | .ok (st2, ids2) => splitFold info osd rest st2 ids2

/-- `_split_optim_state_dict(model, optim, optim_state_dict, info)`. -/
def splitOptimStateDict (o : Optim) (osd : OSD String) (info : StateDictInfo) :
    Except PyErr (OSD String) :=
  match splitFold info osd o.allParams [] [] with
  | .error e => .error e
  | .ok (st, ids) =>
    .ok { state := st, pg := (osd.pg.enum.filter (fun ig => ig.1 ∈ ids)).map (·.2) }

/-- The `for optim in optims` loop of `_load_optim_state_dict`: split the
merged dict, decanonicalize it through FSDP's primitive when FSDP modules
exist, re-run `_init_optim_state`, and hand the subset to the native
optimizer load. -/
def loadOptimFold (m : DistModel) (info : StateDictInfo) (osd : OSD String) :
    List Optim → Grads → List Optim → Except PyErr (List Optim × Grads)
  | [], g, doneOs => .ok (doneOs.reverse, g)
  | o :: rest, g, doneOs =>
    match splitOptimStateDict o osd info with
    | .error e => .error e
    | .ok osdSub =>
      if info.fsdpModules.isEmpty = false then
        match fsdpOptimStateDictToLoad m.tree o osdSub with
        | .error e => .error e
        | .ok osdN =>
          match initOptimState o g with
          | .error e => .error e
          | .ok (o2, g2, _) =>
            match nativeOptimLoad o2 osdN with
            | .error e => .error e
            | .ok o3 => loadOptimFold m info osd rest g2 (o3 :: doneOs)
      else
        match initOptimState o g with
        | .error e => .error e
        | .ok (o2, g2, _) =>
          match nativeOptimLoad o2 osdSub with
          | .error e => .error e
          | .ok o3 => loadOptimFold m info osd rest g2 (o3 :: doneOs)

/-- `_load_optim_state_dict(model, optims, state_dict, info)`. -/
def loadOptimStateDict (m : DistModel) (optims : List Optim) (osd : OSD String)
    (g : Grads) (info : StateDictInfo) : Except PyErr (List Optim × Grads) :=
  loadOptimFold m info osd optims g []

/-! ### The facades -/

/-- The result of `distributed_state_dict`: the returned pair of state
dicts, plus the caller-owned optimizers and gradient map it mutated
(`_init_optim_state` side effects). -/
structure SDResult where
  msd : SDict.Dict String Val
  osd : OSD String
  optims : List Optim
  grads : Grads
deriving DecidableEq, Repr

/-- `distributed_state_dict(model, optims, model_only, optim_only,
options)`. -/
def distributedStateDict (m : DistModel) (optims : List Optim) (g : Grads)
    (model_only : Bool := false) (optim_only : Bool := false)
    (options : DistributedStateDictOptions := {}) : Except PyErr SDResult :=
  match verifyOptions m.tree optims model_only optim_only options with
  | .error e => .error e
  | .ok info =>
    match getModelStateDict m info with
    | .error e => .error e
    | .ok msd =>
      match getOptimStateDict m optims g info with
      | .error e => .error e
      | .ok (osd, optims2, g2) =>
        match verifyStateDict msd osd info with
        | .error e => .error e
        | .ok _ => .ok { msd := msd, osd := osd, optims := optims2, grads := g2 }

/-- The result of `distributed_load_state_dict`: the mutated model,
optimizers and gradient map, plus the caller's model state dict, which the
load mutates in place. -/
structure LoadResult where
  model : DistModel
  optims : List Optim
  grads : Grads
  msd : SDict.Dict String Val

/-- `distributed_load_state_dict(model, optims, model_state_dict,
optim_state_dict, model_only, optim_only, options)`. -/
def distributedLoadStateDict (m : DistModel) (optims : List Optim) (g : Grads)
    (msd : SDict.Dict String Val := []) (osd : OSD String := {})
    (model_only : Bool := false) (optim_only : Bool := false)
    (options : DistributedStateDictOptions := {}) : Except PyErr LoadResult :=
  match verifyOptions m.tree optims model_only optim_only options with
  | .error e => .error e
  | .ok info =>
    match verifyStateDict msd osd info with
    | .error e => .error e
    | .ok _ =>
      match loadModelStateDict m msd info with
      | .error e => .error e
      | .ok (msd2, m2) =>
        match loadOptimStateDict m2 optims osd g info with
        | .error e => .error e
        | .ok (optims2, g2) =>
          .ok { model := m2, optims := optims2, grads := g2, msd := msd2 }

/-! ### `patch_model_state_dict`

`patch_model_state_dict(model)` installs two closures on the model. The
`state_dict` replacement calls `distributed_state_dict(model=model,
optims=(), model_only=True, options=options)` and projects component `[0]`.
The `load_state_dict` replacement calls the partial application of
`distributed_load_state_dict` with the keyword argument `state_dict=...`
and subscripts the result with `[1]`; keyword binding of a Python call is
made explicit here, because `distributed_load_state_dict` accepts no
keyword named `state_dict`. -/

/-- The keyword parameter names `distributed_load_state_dict` accepts. -/
def distributedLoadStateDictKeywords : List String :=
  ["model", "optims", "model_state_dict", "optim_state_dict", "model_only",
   "optim_only", "options"]

/-- The patched `model.state_dict()` closure installed by
`patch_model_state_dict`. -/
def patchedModelStateDictCall (m : DistModel) (g : Grads)
    (options : DistributedStateDictOptions := {}) :
    Except PyErr (SDict.Dict String Val) :=
  match distributedStateDict m [] g true false options with
  | .error e => .error e
  | .ok r => .ok r.msd

/-- The patched `model.load_state_dict(state_dict)` closure installed by
`patch_model_state_dict`: `lambda state_dict: _load_state_dict_call(
state_dict=state_dict)[1]`. Binding the keyword `state_dict` fails
(`distributed_load_state_dict` has no such parameter), raising `TypeError`
before any work is done; were the binding to succeed, subscripting the
`None` return with `[1]` would raise `TypeError` as well. -/
def patchedModelLoadStateDictCall (m : DistModel) (g : Grads)
    (sd : SDict.Dict String Val) (options : DistributedStateDictOptions := {}) :
    Except PyErr (SDict.Dict String Val) :=
  if "state_dict" ∈ distributedLoadStateDictKeywords then
    match distributedLoadStateDict m [] g sd {} true false options with
    | .error e => .error e
    | .ok _ => .error (.typeError "NoneType object is not subscriptable")
  else .error (.typeError "distributed_load_state_dict got an unexpected keyword argument state_dict")

/-! ## Claim theorems -/

/-- Whether an `Except` computation succeeded. -/
def isOkB {ε α : Type} : Except ε α → Bool
  | .ok _ => true
  | .error _ => false

theorem isOkB_ok {ε α : Type} {c : Except ε α} (h : isOkB c = true) :
    ∃ a, c = .ok a := by
  cases c with
  | ok a => exact ⟨a, rfl⟩
  | error e => simp [isOkB] at h

/-- The phases of `_verify_options` that run before the three intent
checks: the parameter-index build (including its DTensor rejection) and the
FSDP state-dict-type validation. -/
def verifyOptionsPreOk (t : Module) (opts : DistributedStateDictOptions) : Bool :=
  isOkB (buildMapping t opts.use_dtensor t.namedParameters [] []) &&
  (t.fsdpModules.isEmpty || !(opts.fsdp_state_dict_type == .localStateDict))

/-- C2: `_verify_options` rejects exactly the three contradictory intents.
For every call whose earlier phases (parameter indexing, DTensor check,
FSDP state-dict-type check) pass: if `model_only` and `optim_only` are both
true, or `model_only` is true with a non-empty optimizers tuple, or
`optim_only` is true with an empty optimizers tuple, a `RuntimeError` is
raised; for every other combination of these three inputs, no error is
raised. -/
theorem verifyOptions_rejects_exactly_contradictory_intents
    (t : Module) (optims : List Optim) (mo oo : Bool)
    (opts : DistributedStateDictOptions)
    (hpre : verifyOptionsPreOk t opts = true) :
    (((mo = true ∧ oo = true) ∨ (mo = true ∧ optims ≠ []) ∨ (oo = true ∧ optims = [])) →
      ∃ msg, verifyOptions t optims mo oo opts = .error (.runtimeError msg)) ∧
    (¬((mo = true ∧ oo = true) ∨ (mo = true ∧ optims ≠ []) ∨ (oo = true ∧ optims = [])) →
      ∃ info, verifyOptions t optims mo oo opts = .ok info) := by
  simp only [verifyOptionsPreOk, Bool.and_eq_true, Bool.or_eq_true] at hpre
  obtain ⟨hb, hty⟩ := hpre
  obtain ⟨pr, hbm⟩ := isOkB_ok hb
  obtain ⟨pf, fp⟩ := pr
  have hty2 : ¬ (t.fsdpModules.isEmpty = false ∧
      opts.fsdp_state_dict_type = .localStateDict) := by
    rintro ⟨h1, h2⟩
    rcases hty with h3 | h3
    · rw [h1] at h3; exact Bool.false_ne_true h3
    · rw [h2] at h3; simp at h3
  constructor
  · intro hbad
    simp only [verifyOptions, hbm]
    rw [if_neg hty2]
    by_cases hc1 : mo = true ∧ oo = true
    · rw [if_pos hc1]
      exact ⟨"Both model_only and optim_only are set, which one do you need?", rfl⟩
    · rw [if_neg hc1]
      by_cases hc2 : mo = true ∧ optims ≠ []
      · rw [if_pos hc2]
        exact ⟨"If model_only is True optims must be an empty iterable object.", rfl⟩
      · rw [if_neg hc2]
        have hc3 : oo = true ∧ optims = [] := by
          rcases hbad with h | h | h
          · exact absurd h hc1
          · exact absurd h hc2
          · exact h
        rw [if_pos hc3]
        exact ⟨"Optimizers are not passed in but optim_only is set to True.", rfl⟩
  · intro hgood
    have c1 : ¬ (mo = true ∧ oo = true) := fun hc => hgood (Or.inl hc)
    have c2 : ¬ (mo = true ∧ optims ≠ []) := fun hc => hgood (Or.inr (Or.inl hc))
    have c3 : ¬ (oo = true ∧ optims = []) := fun hc => hgood (Or.inr (Or.inr hc))
    simp only [verifyOptions, hbm]
    rw [if_neg hty2, if_neg c1, if_neg c2, if_neg c3]
    exact ⟨_, rfl⟩

/-- Witness for C2: a concrete model where `optim_only` with no optimizers
is rejected while the default flags are accepted. -/
theorem verifyOptions_rejects_witness :
    verifyOptionsPreOk (.plain [] [("w", { pid := 0 })]) {} = true ∧
      (∃ msg, verifyOptions (.plain [] [("w", { pid := 0 })]) [] false true {} =
        .error (.runtimeError msg)) ∧
      (∃ info, verifyOptions (.plain [] [("w", { pid := 0 })]) [] false false {} =
        .ok info) := by
  refine ⟨by decide, ?_, ?_⟩
  · exact (verifyOptions_rejects_exactly_contradictory_intents
      (.plain [] [("w", { pid := 0 })]) [] false true {} (by decide)).1
      (Or.inr (Or.inr ⟨rfl, rfl⟩))
  · exact (verifyOptions_rejects_exactly_contradictory_intents
      (.plain [] [("w", { pid := 0 })]) [] false false {} (by decide)).2
      (by rintro (⟨h, _⟩ | ⟨h, _⟩ | ⟨_, h⟩) <;> simp_all)

/-- The message of the missing-FSDP-root error. -/
def noRootMsg : String := "The model has FSDP modules but no FSDP root module exists."

theorem findFlatKey_ne_noRoot (msd : SDict.Dict String Val) :
    findFlatKey msd ≠ .error (.runtimeError noRootMsg) := by
  induction msd with
  | nil => simp [findFlatKey]
  | cons kv rest ih =>
    obtain ⟨k, v⟩ := kv
    simp only [findFlatKey]
    by_cases hf : containsFlat k = true
    · rw [if_pos hf]
      intro hc
      have := PyErr.runtimeError.inj (Except.error.inj hc)
      exact absurd this (by decide)
    · rw [if_neg hf]
      exact ih

/-- C4: on a tree with FSDP modules, `_verify_state_dict` raises the fatal
missing-root error exactly when none of the discovered FSDP instances is
the root of its shard group. -/
theorem verifyStateDict_noRoot (msd : SDict.Dict String Val) (osd : OSD String)
    (info : StateDictInfo) (h : info.fsdpModules.isEmpty = false) :
    verifyStateDict msd osd info = .error (.runtimeError noRootMsg) ↔
      (∀ mod ∈ info.fsdpModules, mod.isRootFsdp = false) := by
  by_cases hroot : info.fsdpModules.any Module.isRootFsdp = false
  · have hcond : info.fsdpModules.isEmpty = false ∧
        info.fsdpModules.any Module.isRootFsdp = false := ⟨h, hroot⟩
    constructor
    · intro _
      intro mod hmod
      by_contra hcontra
      have : info.fsdpModules.any Module.isRootFsdp = true :=
        List.any_eq_true.2 ⟨mod, hmod, by
          cases hr : mod.isRootFsdp with
          | true => rfl
          | false => exact absurd hr hcontra⟩
      rw [this] at hroot
      exact absurd hroot (by decide)
    · intro _
      simp only [verifyStateDict]
      rw [if_pos hcond]
      rfl
  · have hr2 : ∃ mod ∈ info.fsdpModules, mod.isRootFsdp = true := by
      have : info.fsdpModules.any Module.isRootFsdp = true := by
        cases ha : info.fsdpModules.any Module.isRootFsdp with
        | true => rfl
        | false => exact absurd ha hroot
      obtain ⟨mod, hmem, hp⟩ := List.any_eq_true.1 this
      exact ⟨mod, hmem, hp⟩
    constructor
    · intro herr
      exfalso
      have hcond : ¬ (info.fsdpModules.isEmpty = false ∧
          info.fsdpModules.any Module.isRootFsdp = false) := fun hc => hroot hc.2
      simp only [verifyStateDict] at herr
      rw [if_neg hcond] at herr
      by_cases h2 : info.handle_model = true ∧ msd.isEmpty = true
      · rw [if_pos h2] at herr
        have := PyErr.runtimeError.inj (Except.error.inj herr)
        exact absurd this (by decide)
      · rw [if_neg h2] at herr
        by_cases h3 : info.handle_optim = true ∧ osd.state.isEmpty = true
        · rw [if_pos h3] at herr
          have := PyErr.runtimeError.inj (Except.error.inj herr)
          exact absurd this (by decide)
        · rw [if_neg h3] at herr
          exact findFlatKey_ne_noRoot msd herr
    · intro hall
      obtain ⟨mod, hmem, hp⟩ := hr2
      rw [hall mod hmem] at hp
      exact absurd hp (by decide)

/-- Witness for C4: a concrete tree with one non-root FSDP instance is
rejected with the missing-root error. -/
theorem verifyStateDict_noRoot_witness :
    (StateDictInfo.fsdpModules
        { fsdpModules := [.fsdp false none (.plain [] [])] }).isEmpty = false ∧
      verifyStateDict [("w", 1)] { state := [("w", 2)] }
        { fsdpModules := [.fsdp false none (.plain [] [])] } =
        .error (.runtimeError noRootMsg) := by
  refine ⟨rfl, ?_⟩
  exact (verifyStateDict_noRoot [("w", 1)] { state := [("w", 2)] }
    { fsdpModules := [.fsdp false none (.plain [] [])] } rfl).2
    (by
      intro mod hmod
      have : mod = .fsdp false none (.plain [] []) := by
        simpa using hmod
      rw [this]
      rfl)

/-! ### C6: `_init_optim_state` -/

theorem lookup_insertD_isSome_mono {κ α : Type} [DecidableEq κ]
    {g : SDict.Dict κ α} {q : κ} (k : κ) (v : α)
    (h : (SDict.lookup g q).isSome) : (SDict.lookup (SDict.insertD g k v) q).isSome := by
  by_cases hk : q = k
  · subst hk
    rw [SDict.lookup_insertD_self]
    rfl
  · rw [SDict.lookup_insertD_ne _ _ _ _ hk]
    exact h

theorem checkAndZeroGrads_err (l : List Param) (g : Grads)
    (h : ∃ p ∈ l, (SDict.lookup g p.pid).isSome) :
    ∃ msg, checkAndZeroGrads l g = .error (.runtimeError msg) := by
  induction l generalizing g with
  | nil => obtain ⟨p, hp, _⟩ := h; exact absurd hp (List.not_mem_nil p)
  | cons p rest ih =>
    by_cases hg : (SDict.lookup g p.pid).isSome
    · refine ⟨"distributed_state_dict can only be used if the optimizer states are initialized or gradients are None.", ?_⟩
      simp only [checkAndZeroGrads]
      rw [if_pos hg]
    · obtain ⟨q, hq, hqs⟩ := h
      have hq2 : q ∈ rest := by
        rcases List.mem_cons.1 hq with h1 | h1
        · subst h1; exact absurd hqs hg
        · exact h1
      simp only [checkAndZeroGrads]
      rw [if_neg hg]
      by_cases hr : p.requiresGrad = true
      · rw [if_pos hr]
        obtain ⟨msg, hm⟩ := ih (SDict.insertD g p.pid 0)
          ⟨q, hq2, lookup_insertD_isSome_mono p.pid 0 hqs⟩
        rw [hm]
        exact ⟨msg, rfl⟩
      · rw [if_neg hr]
        exact ih g ⟨q, hq2, hqs⟩

theorem mem_insertD {κ α : Type} [DecidableEq κ] {d : SDict.Dict κ α} {k : κ} {v : α}
    {kv : κ × α} (h : kv ∈ SDict.insertD d k v) : kv ∈ d ∨ kv.1 = k := by
  induction d with
  | nil =>
    simp only [SDict.insertD] at h
    rcases List.mem_cons.1 h with h1 | h1
    · right; rw [h1]
    · exact absurd h1 (List.not_mem_nil kv)
  | cons p rest ih =>
    obtain ⟨k2, v2⟩ := p
    simp only [SDict.insertD] at h
    by_cases hk : k2 = k
    · rw [if_pos hk] at h
      rcases List.mem_cons.1 h with h1 | h1
      · right; rw [h1]; exact hk
      · left; exact List.mem_cons.2 (Or.inr h1)
    · rw [if_neg hk] at h
      rcases List.mem_cons.1 h with h1 | h1
      · left; rw [h1]; exact List.mem_cons_self _ _
      · rcases ih h1 with h2 | h2
        · left; exact List.mem_cons.2 (Or.inr h2)
        · right; exact h2

theorem checkAndZeroGrads_ok (l : List Param) (g : Grads)
    (hnone : ∀ p ∈ l, SDict.lookup g p.pid = none)
    (hnodup : (l.map (·.pid)).Nodup) :
    ∃ g2, checkAndZeroGrads l g = .ok (g2,
      (l.filter (·.requiresGrad)).map (fun p => Action.setZeroGrad p.pid)) ∧
      (∀ q, (∀ p ∈ l, q ≠ p.pid) → SDict.lookup g2 q = SDict.lookup g q) ∧
      (∀ p ∈ l, SDict.lookup g2 p.pid =
        if p.requiresGrad then some 0 else SDict.lookup g p.pid) ∧
      (∀ kv ∈ g2, kv.1 ∈ l.map (·.pid) ∨ kv ∈ g) := by
  induction l generalizing g with
  | nil => exact ⟨g, rfl, fun q _ => rfl, fun p hp => absurd hp (List.not_mem_nil p),
      fun kv hkv => Or.inr hkv⟩
  | cons p rest ih =>
    have hg : ¬ (SDict.lookup g p.pid).isSome := by
      rw [hnone p (List.mem_cons_self p rest)]
      simp
    have hrestnone : ∀ q ∈ rest, SDict.lookup g q.pid = none :=
      fun q hq => hnone q (List.mem_cons.2 (Or.inr hq))
    have hnodup2 : (rest.map (·.pid)).Nodup := (List.nodup_cons.1 hnodup).2
    have hpid : p.pid ∉ rest.map (·.pid) := (List.nodup_cons.1 hnodup).1
    by_cases hr : p.requiresGrad = true
    · have hrestnone2 : ∀ q ∈ rest, SDict.lookup (SDict.insertD g p.pid 0) q.pid = none := by
        intro q hq
        have hne : q.pid ≠ p.pid := by
          intro hc
          exact hpid (hc ▸ List.mem_map.2 ⟨q, hq, rfl⟩)
        rw [SDict.lookup_insertD_ne _ _ _ _ hne]
        exact hrestnone q hq
      obtain ⟨g2, hok, hout, hin, hmem⟩ := ih (SDict.insertD g p.pid 0) hrestnone2 hnodup2
      refine ⟨g2, ?_, ?_, ?_, ?_⟩
      · simp only [checkAndZeroGrads]
        rw [if_neg hg, if_pos hr, hok]
        have : (p :: rest).filter (·.requiresGrad) = p :: rest.filter (·.requiresGrad) := by
          simp [List.filter_cons, hr]
        rw [this]
        rfl
      · intro q hq
        have h1 := hout q (fun r hrm => hq r (List.mem_cons.2 (Or.inr hrm)))
        rw [h1, SDict.lookup_insertD_ne _ _ _ _ (hq p (List.mem_cons_self p rest))]
      · intro p2 hp2
        rcases List.mem_cons.1 hp2 with h1 | h1
        · subst h1
          have hq : ∀ r ∈ rest, p2.pid ≠ r.pid := by
            intro r hrm hc
            exact hpid (hc ▸ List.mem_map.2 ⟨r, hrm, rfl⟩)
          rw [hout p2.pid hq, SDict.lookup_insertD_self, if_pos hr]
        · have := hin p2 h1
          rw [this]
          by_cases hr2 : p2.requiresGrad = true
          · rw [if_pos hr2, if_pos hr2]
          · have hne : p2.pid ≠ p.pid := by
              intro hc
              exact hpid (hc ▸ List.mem_map.2 ⟨p2, h1, rfl⟩)
            rw [if_neg hr2, if_neg hr2, SDict.lookup_insertD_ne _ _ _ _ hne]
      · intro kv hkv
        rcases hmem kv hkv with h1 | h1
        · left
          rw [List.map_cons]
          exact List.mem_cons.2 (Or.inr h1)
        · rcases mem_insertD h1 with h2 | h2
          · right; exact h2
          · left
            rw [List.map_cons, h2]
            exact List.mem_cons_self _ _
    · have hrf : p.requiresGrad = false := by
        cases hx : p.requiresGrad with
        | true => exact absurd hx hr
        | false => rfl
      obtain ⟨g2, hok, hout, hin, hmem⟩ := ih g hrestnone hnodup2
      refine ⟨g2, ?_, ?_, ?_, ?_⟩
      · simp only [checkAndZeroGrads]
        rw [if_neg hg, if_neg hr, hok]
        have : (p :: rest).filter (·.requiresGrad) = rest.filter (·.requiresGrad) := by
          simp [List.filter_cons, hrf]
        rw [this]
      · intro q hq
        exact hout q (fun r hrm => hq r (List.mem_cons.2 (Or.inr hrm)))
      · intro p2 hp2
        rcases List.mem_cons.1 hp2 with h1 | h1
        · subst h1
          have hq : ∀ r ∈ rest, p2.pid ≠ r.pid := by
            intro r hrm hc
            exact hpid (hc ▸ List.mem_map.2 ⟨r, hrm, rfl⟩)
          rw [hout p2.pid hq, if_neg (by rw [hrf]; simp)]
        · exact hin p2 h1
      · intro kv hkv
        rcases hmem kv hkv with h1 | h1
        · left
          rw [List.map_cons]
          exact List.mem_cons.2 (Or.inr h1)
        · right; exact h1

theorem lookup_filter_out {α : Type} (g : SDict.Dict Nat α) (P : Nat × α → Bool) (k : Nat)
    (h : ∀ v, P (k, v) = false) : SDict.lookup (g.filter P) k = none := by
  induction g with
  | nil => rfl
  | cons kv rest ih =>
    obtain ⟨k2, v⟩ := kv
    by_cases hk : k2 = k
    · subst hk
      rw [List.filter_cons, h v]
      exact ih
    · rw [List.filter_cons]
      by_cases hp : P (k2, v) = true
      · rw [hp]
        simp only [if_true, SDict.lookup_cons, hk, if_false]
        exact ih
      · have : P (k2, v) = false := by
          cases hx : P (k2, v) with
          | true => exact absurd hx hp
          | false => rfl
        rw [this]
        simp only [Bool.false_eq_true, if_false]
        exact ih

theorem zeroGrad_clears (o : Optim) (g : Grads) (p : Param) (hp : p ∈ o.allParams) :
    SDict.lookup (o.zeroGrad g) p.pid = none := by
  apply lookup_filter_out
  intro v
  have : o.allParams.any (fun q => q.pid == p.pid) = true :=
    List.any_eq_true.2 ⟨p, hp, by simp⟩
  simp [this]

/-- C6: `_init_optim_state`. With a non-empty optimizer state nothing runs.
With empty state: if any group parameter carries a gradient the call fails
fatally (a `RuntimeError`, hence before any step); otherwise (for an
optimizer whose group parameters have distinct identities) a zero gradient
is synthesized for exactly the trainable parameters, exactly one step is
performed, and afterwards every group parameter's gradient is cleared. -/
theorem initOptimState_spec (o : Optim) (g : Grads)
    (hnodup : (o.allParams.map (·.pid)).Nodup) :
    (o.state ≠ [] → initOptimState o g = .ok (o, g, [])) ∧
    (o.state = [] → (∃ p ∈ o.allParams, (SDict.lookup g p.pid).isSome) →
      ∃ msg, initOptimState o g = .error (.runtimeError msg)) ∧
    (o.state = [] → (∀ p ∈ o.allParams, SDict.lookup g p.pid = none) →
      ∃ o2 g2, initOptimState o g = .ok (o2, g2,
          (o.allParams.filter (·.requiresGrad)).map (fun p => Action.setZeroGrad p.pid)
            ++ [.stepAction, .clearGrads]) ∧
        (∀ p ∈ o.allParams, SDict.lookup g2 p.pid = none)) := by
  refine ⟨?_, ?_, ?_⟩
  · intro hne
    have : o.state.isEmpty = false := by
      cases hs : o.state with
      | nil => exact absurd hs hne
      | cons a l => rfl
    simp only [initOptimState, this]
    rfl
  · intro hs hex
    have hempty : o.state.isEmpty = true := by rw [hs]; rfl
    obtain ⟨msg, hm⟩ := checkAndZeroGrads_err o.allParams g hex
    simp only [initOptimState, hempty]
    rw [hm]
    exact ⟨msg, rfl⟩
  · intro hs hnone
    have hempty : o.state.isEmpty = true := by rw [hs]; rfl
    obtain ⟨g2, hok, _, _, _⟩ := checkAndZeroGrads_ok o.allParams g hnone hnodup
    simp only [initOptimState, hempty]
    rw [hok]
    refine ⟨o.fakeStep g2, (o.fakeStep g2).zeroGrad g2, rfl, ?_⟩
    intro p hp
    have : (o.fakeStep g2).allParams = o.allParams := rfl
    exact zeroGrad_clears (o.fakeStep g2) g2 p (this ▸ hp)

/-- Witness for C6: a concrete two-parameter optimizer (one frozen) with
empty state and no gradients runs the synthesize-step-clear sequence. -/
theorem initOptimState_spec_witness :
    ∃ o2 g2, initOptimState
        { paramGroups := [{ params := [{ pid := 1 }, { pid := 2, requiresGrad := false }],
                            lr := 5 }] } [] =
        .ok (o2, g2, [.setZeroGrad 1, .stepAction, .clearGrads]) ∧
      (∀ p ∈ (Optim.allParams
          { paramGroups := [{ params := [{ pid := 1 }, { pid := 2, requiresGrad := false }],
                              lr := 5 }] }), SDict.lookup g2 p.pid = none) := by
  obtain ⟨o2, g2, hok, hcl⟩ := (initOptimState_spec
    { paramGroups := [{ params := [{ pid := 1 }, { pid := 2, requiresGrad := false }],
                        lr := 5 }] } [] (by decide)).2.2 rfl (by decide)
  exact ⟨o2, g2, hok, hcl⟩

/-! ### C8: `patch_model_state_dict` -/

/-- C8 (code bug): after `patch_model_state_dict`, the replaced
`load_state_dict` raises `TypeError` on every call — the installed closure
passes the keyword `state_dict`, which `distributed_load_state_dict` does
not accept, and would subscript its `None` return with `[1]` even if it
did. The replaced `state_dict` half does behave as claimed, returning the
model component of `distributed_state_dict` restricted to model-only. -/
theorem patchModelStateDict_load_always_raises (m : DistModel) (g : Grads)
    (sd : SDict.Dict String Val) (options : DistributedStateDictOptions) :
    (∃ msg, patchedModelLoadStateDictCall m g sd options = .error (.typeError msg)) ∧
    patchedModelStateDictCall m g options =
      (distributedStateDict m [] g true false options).map (·.msd) := by
  constructor
  · refine ⟨"distributed_load_state_dict got an unexpected keyword argument state_dict", ?_⟩
    simp only [patchedModelLoadStateDictCall]
    rw [if_neg (by decide)]
  · simp only [patchedModelStateDictCall]
    cases h : distributedStateDict m [] g true false options with
    | ok r => rfl
    | error e => rfl

/-! ### The parameter-index recording lemmas -/

theorem find_fold_cons (fs : List String) (q : Param) (fp0 : List (String × Param))
    (f : String) :
    (((fs.foldl (fun acc x => (x, q) :: acc) fp0).find? (fun e => e.1 = f)).map (·.2)) =
      if f ∈ fs then some q else ((fp0.find? (fun e => e.1 = f)).map (·.2)) := by
  induction fs generalizing fp0 with
  | nil => simp
  | cons x rest ih =>
    show (((rest.foldl (fun acc y => (y, q) :: acc) ((x, q) :: fp0)).find?
      (fun e => e.1 = f)).map (·.2)) = _
    rw [ih ((x, q) :: fp0)]
    by_cases hr : f ∈ rest
    · simp [hr]
    · by_cases hx : x = f
      · subst hx
        simp [hr, List.find?_cons]
      · have hfx : ¬ f = x := fun hc => hx hc.symm
        have : ¬ f ∈ x :: rest := by
          intro hc
          rcases List.mem_cons.1 hc with h1 | h1
          · exact hx h1.symm
          · exact hr h1
        simp only [hr, if_false, this, if_false]
        rw [List.find?_cons]
        simp [hx]

theorem buildMapping_pf_stable (t : Module) (ud : Bool) (l : List (String × Param))
    (pf0 : List (Param × List String)) (fp0 : List (String × Param))
    (pf : List (Param × List String)) (fp : List (String × Param))
    (hok : buildMapping t ud l pf0 fp0 = .ok (pf, fp)) (p : Param)
    (habs : ∀ sp ∈ l, sp.2 ≠ p) :
    pf.find? (fun e => e.1 = p) = pf0.find? (fun e => e.1 = p) := by
  induction l generalizing pf0 fp0 with
  | nil =>
    simp only [buildMapping, Except.ok.injEq, Prod.mk.injEq] at hok
    rw [← hok.1]
  | cons sp rest ih =>
    obtain ⟨n2, q⟩ := sp
    simp only [buildMapping] at hok
    split at hok
    · exact absurd hok (by simp)
    · split at hok
      · exact absurd hok (by simp)
      · rename_i fs2 hres hdt
        have hq : q ≠ p := habs (n2, q) (List.mem_cons_self _ _)
        have := ih ((q, fs2) :: pf0) (fs2.foldl (fun acc f => (f, q) :: acc) fp0) hok
          (fun sp2 hsp2 => habs sp2 (List.mem_cons.2 (Or.inr hsp2)))
        rw [this, List.find?_cons]
        simp [hq]

theorem buildMapping_pf_lookup (t : Module) (ud : Bool) (l : List (String × Param))
    (pf0 : List (Param × List String)) (fp0 : List (String × Param))
    (pf : List (Param × List String)) (fp : List (String × Param))
    (hok : buildMapping t ud l pf0 fp0 = .ok (pf, fp))
    (name : String) (p : Param) (fqns : List String)
    (huniq : l.filter (fun sp => sp.2 == p) = [(name, p)])
    (hres : getFqns t name = .ok fqns) :
    (pf.find? (fun e => e.1 = p)).map (·.2) = some fqns := by
  induction l generalizing pf0 fp0 with
  | nil => simp at huniq
  | cons sp rest ih =>
    obtain ⟨n2, q⟩ := sp
    simp only [buildMapping] at hok
    split at hok
    · exact absurd hok (by simp)
    · split at hok
      · exact absurd hok (by simp)
      · rename_i fs2 hres2 hdt
        by_cases hq : q = p
        · subst hq
          rw [List.filter_cons] at huniq
          have hbeq : ((n2, q).2 == q) = true := by simp
          rw [hbeq] at huniq
          simp only [if_true, List.cons.injEq, Prod.mk.injEq] at huniq
          obtain ⟨⟨hn, _⟩, hrest⟩ := huniq
          subst hn
          have hfs2 : fs2 = fqns := by
            rw [hres2] at hres
            exact Except.ok.inj hres
          subst hfs2
          have habs : ∀ sp2 ∈ rest, sp2.2 ≠ q := by
            intro sp2 hsp2 hc
            have : sp2 ∈ rest.filter (fun sp => sp.2 == q) :=
              List.mem_filter.2 ⟨hsp2, by simp [hc]⟩
            rw [hrest] at this
            exact absurd this (List.not_mem_nil sp2)
          have := buildMapping_pf_stable t ud rest _ _ _ _ hok q habs
          rw [this, List.find?_cons]
          simp
        · rw [List.filter_cons] at huniq
          have hbeq : ((n2, q).2 == p) = false := by simp [hq]
          rw [hbeq] at huniq
          simp only [Bool.false_eq_true, if_false] at huniq
          exact ih _ _ hok huniq

theorem buildMapping_fp_invariant (t : Module) (ud : Bool) (l : List (String × Param))
    (pf0 : List (Param × List String)) (fp0 : List (String × Param))
    (pf : List (Param × List String)) (fp : List (String × Param))
    (hok : buildMapping t ud l pf0 fp0 = .ok (pf, fp))
    (f : String) (p : Param)
    (huniq : ∀ sp ∈ l, ∀ fs, getFqns t sp.1 = .ok fs → f ∈ fs → sp.2 = p)
    (hpre : ((fp0.find? (fun e => e.1 = f)).map (·.2) = some p) ∨
      (∃ sp ∈ l, ∃ fs, getFqns t sp.1 = .ok fs ∧ f ∈ fs)) :
    (fp.find? (fun e => e.1 = f)).map (·.2) = some p := by
  induction l generalizing pf0 fp0 with
  | nil =>
    simp only [buildMapping, Except.ok.injEq, Prod.mk.injEq] at hok
    rcases hpre with h | h
    · rw [← hok.2]; exact h
    · obtain ⟨sp, hsp, _⟩ := h
      exact absurd hsp (List.not_mem_nil sp)
  | cons sp rest ih =>
    obtain ⟨n2, q⟩ := sp
    simp only [buildMapping] at hok
    split at hok
    · exact absurd hok (by simp)
    · split at hok
      · exact absurd hok (by simp)
      · rename_i fs2 hres2 hdt
        have huniq2 : ∀ sp2 ∈ rest, ∀ fs, getFqns t sp2.1 = .ok fs → f ∈ fs → sp2.2 = p :=
          fun sp2 hsp2 => huniq sp2 (List.mem_cons.2 (Or.inr hsp2))
        apply ih _ _ hok huniq2
        by_cases hf2 : f ∈ fs2
        · left
          have hq : q = p := huniq (n2, q) (List.mem_cons_self _ _) fs2 hres2 hf2
          rw [find_fold_cons, if_pos hf2, hq]
        · rcases hpre with h | h
          · left
            rw [find_fold_cons, if_neg hf2]
            exact h
          · obtain ⟨sp2, hsp2, fs3, hres3, hf3⟩ := h
            rcases List.mem_cons.1 hsp2 with h1 | h1
            · exfalso
              rw [h1] at hres3
              have hres3b : getFqns t n2 = Except.ok fs3 := hres3
              rw [hres3b] at hres2
              have : fs3 = fs2 := Except.ok.inj hres2
              rw [this] at hf3
              exact hf2 hf3
            · right
              exact ⟨sp2, h1, fs3, hres3, hf3⟩

/-! ### C7: no empty-FQN-set check in the parameter index build -/

/-- C7 counterexample: on a model whose flat parameter records no original
FQNs, a named parameter resolves to the empty FQN set, yet `_verify_options`
raises no error: it records the parameter with the empty set. (The claim
says index construction raises an error rather than recording such a
parameter.) -/
theorem paramIndex_empty_fqns_counterexample :
    getFqns (.fsdp true (some { pid := 9, flatFqns := [] }) (.plain [] []))
        (FSDP_WRAPPED_MODULE ++ "." ++ FLAT_PARAM) = .ok [] ∧
    ∃ info, verifyOptions
        (.fsdp true (some { pid := 9, flatFqns := [] }) (.plain [] []))
        [] false false {} = .ok info ∧
      info.lookupParamFqns { pid := 9, flatFqns := [] } = some [] :=
  ⟨rfl, _, rfl, rfl⟩

/-- C7 amended: the parameter index build performs no empty-set check. For
every model whose pre-verification phases pass and in which the named
parameter `(name, p)` (the only occurrence of `p`) resolves to the empty
FQN set, `_verify_options` succeeds and records `p` with the empty set
instead of raising. -/
theorem paramIndex_records_empty_fqns (t : Module) (name : String) (p : Param)
    (opts : DistributedStateDictOptions)
    (hpre : verifyOptionsPreOk t opts = true)
    (huniq : t.namedParameters.filter (fun sp => sp.2 == p) = [(name, p)])
    (hres : getFqns t name = .ok []) :
    ∃ info, verifyOptions t [] false false opts = .ok info ∧
      info.lookupParamFqns p = some [] := by
  simp only [verifyOptionsPreOk, Bool.and_eq_true, Bool.or_eq_true] at hpre
  obtain ⟨hb, hty⟩ := hpre
  obtain ⟨pr, hbm⟩ := isOkB_ok hb
  obtain ⟨pf, fp⟩ := pr
  have hty2 : ¬ (t.fsdpModules.isEmpty = false ∧
      opts.fsdp_state_dict_type = .localStateDict) := by
    rintro ⟨h1, h2⟩
    rcases hty with h3 | h3
    · rw [h1] at h3; exact Bool.false_ne_true h3
    · rw [h2] at h3; simp at h3
  have hok : ∃ info, verifyOptions t [] false false opts = .ok info ∧
      info.paramFqns = pf := by
    simp only [verifyOptions, hbm]
    rw [if_neg hty2, if_neg (by simp), if_neg (by simp), if_neg (by simp)]
    exact ⟨_, rfl, rfl⟩
  obtain ⟨info, hinfo, hpf⟩ := hok
  refine ⟨info, hinfo, ?_⟩
  simp only [StateDictInfo.lookupParamFqns, hpf]
  exact buildMapping_pf_lookup t opts.use_dtensor t.namedParameters [] [] pf fp hbm
    name p [] huniq hres

/-- Witness for the amended C7 theorem, at the concrete empty-`_fqns` flat
parameter model. -/
theorem paramIndex_records_empty_fqns_witness :
    ∃ info, verifyOptions
        (.fsdp true (some { pid := 9, flatFqns := [] }) (.plain [] []))
        [] false false {} = .ok info ∧
      info.lookupParamFqns { pid := 9, flatFqns := [] } = some [] :=
  paramIndex_records_empty_fqns
    (.fsdp true (some { pid := 9, flatFqns := [] }) (.plain [] []))
    (FSDP_WRAPPED_MODULE ++ "." ++ FLAT_PARAM) { pid := 9, flatFqns := [] } {}
    (by decide) (by decide) (by decide)

/-! ### C3: flat-parameter fan-out -/

/-- Canonical navigation: walk `segs` from `curr` exactly as the
`_get_fqns` loop walks child edges, accumulating the canonical path (DDP's
`module` segment and FSDP's wrapped-module marker contribute nothing). -/
def navCanon : List String → Module → List String → Option (List String × Module)
  | [], curr, acc => some (acc, curr)
  | seg :: rest, curr, acc =>
    match curr with
    | .ddp child => if seg = "module" then navCanon rest child acc else none
    | .fsdp _ _ child =>
      if seg = FSDP_WRAPPED_MODULE then navCanon rest child acc
      else
        match child.findChild seg with
        | some mm => navCanon rest mm (acc ++ [seg])
        | none => none
    | .plain cs _ =>
      match cs.lookup seg with
      | some mm => navCanon rest mm (acc ++ [seg])
      | none => none

theorem getFqnsLoop_flat (segs : List String) (curr : Module) (acc : List String)
    (accF : List String) (r : Bool) (fp : Param) (child : Module)
    (hnav : navCanon segs curr acc = some (accF, .fsdp r (some fp) child))
    (hflat : FLAT_PARAM ∉ segs) :
    getFqnsLoop true (segs ++ [FSDP_WRAPPED_MODULE, FLAT_PARAM]) curr acc =
      .ok (fp.flatFqns.map (fun f => joinDots (accF ++ [f]))) := by
  induction segs generalizing curr acc with
  | nil =>
    simp only [navCanon, Option.some.injEq, Prod.mk.injEq] at hnav
    obtain ⟨hacc, hcurr⟩ := hnav
    subst hacc
    subst hcurr
    rfl
  | cons seg rest ih =>
    have hflat2 : FLAT_PARAM ∉ rest := fun hc => hflat (List.mem_cons.2 (Or.inr hc))
    have hsegne : seg ≠ FLAT_PARAM := fun hc => hflat (hc ▸ List.mem_cons_self _ _)
    cases curr with
    | plain cs ps =>
      simp only [navCanon] at hnav
      cases hlk : cs.lookup seg with
      | none => rw [hlk] at hnav; exact absurd hnav (by simp)
      | some mm =>
        rw [hlk] at hnav
        show getFqnsLoop true (seg :: (rest ++ [FSDP_WRAPPED_MODULE, FLAT_PARAM])) _ acc = _
        simp only [getFqnsLoop, hlk]
        exact ih mm (acc ++ [seg]) hnav hflat2
    | ddp child2 =>
      simp only [navCanon] at hnav
      by_cases hm : seg = "module"
      · rw [if_pos hm] at hnav
        show getFqnsLoop true (seg :: (rest ++ [FSDP_WRAPPED_MODULE, FLAT_PARAM])) _ acc = _
        simp only [getFqnsLoop]
        rw [if_pos hm]
        exact ih child2 acc hnav hflat2
      · rw [if_neg hm] at hnav
        exact absurd hnav (by simp)
    | fsdp r2 fp2 child2 =>
      simp only [navCanon] at hnav
      cases rest with
      | nil =>
        by_cases hm : seg = FSDP_WRAPPED_MODULE
        · rw [if_pos hm] at hnav
          show getFqnsLoop true (seg :: ([] ++ [FSDP_WRAPPED_MODULE, FLAT_PARAM])) _ acc = _
          simp only [List.nil_append, getFqnsLoop]
          rw [if_neg (show ¬ FSDP_WRAPPED_MODULE = FLAT_PARAM by decide), if_pos hm]
          exact ih child2 acc hnav (by simp)
        · rw [if_neg hm] at hnav
          cases hlk : child2.findChild seg with
          | none => rw [hlk] at hnav; exact absurd hnav (by simp)
          | some mm =>
            rw [hlk] at hnav
            show getFqnsLoop true (seg :: ([] ++ [FSDP_WRAPPED_MODULE, FLAT_PARAM])) _ acc = _
            simp only [List.nil_append, getFqnsLoop]
            rw [if_neg (show ¬ FSDP_WRAPPED_MODULE = FLAT_PARAM by decide), if_neg hm, hlk]
            exact ih mm (acc ++ [seg]) hnav (by simp)
      | cons x xs =>
        have hx : ¬ x = FLAT_PARAM := fun hc =>
          hflat2 (List.mem_cons.2 (Or.inl hc.symm)) |>.elim
        have hxs : FLAT_PARAM ∉ xs := fun hc => hflat2 (List.mem_cons.2 (Or.inr hc))
        by_cases hm : seg = FSDP_WRAPPED_MODULE
        · rw [if_pos hm] at hnav
          show getFqnsLoop true
            (seg :: ((x :: xs) ++ [FSDP_WRAPPED_MODULE, FLAT_PARAM])) _ acc = _
          simp only [List.cons_append, getFqnsLoop]
          rw [if_neg hx, if_pos hm]
          exact ih child2 acc hnav hflat2
        · rw [if_neg hm] at hnav
          cases hlk : child2.findChild seg with
          | none => rw [hlk] at hnav; exact absurd hnav (by simp)
          | some mm =>
            rw [hlk] at hnav
            show getFqnsLoop true
              (seg :: ((x :: xs) ++ [FSDP_WRAPPED_MODULE, FLAT_PARAM])) _ acc = _
            simp only [List.cons_append, getFqnsLoop]
            rw [if_neg hx, if_neg hm, hlk]
            exact ih mm (acc ++ [seg]) hnav hflat2

/-- Inversion of a successful `_verify_options`: the info's two mapping
directions are exactly what the index build produced. -/
theorem verifyOptions_ok_inv (t : Module) (optims : List Optim) (mo oo : Bool)
    (opts : DistributedStateDictOptions) (info : StateDictInfo)
    (h : verifyOptions t optims mo oo opts = .ok info) :
    buildMapping t opts.use_dtensor t.namedParameters [] [] =
      .ok (info.paramFqns, info.fqnParam) := by
  simp only [verifyOptions] at h
  split at h
  · exact absurd h (by simp)
  all_goals
    rename_i hbm
    split at h
    · exact absurd h (by simp)
    · split at h
      · exact absurd h (by simp)
      · split at h
        · exact absurd h (by simp)
        · split at h
          · exact absurd h (by simp)
          · rw [← Except.ok.inj h]
            exact hbm

/-- C3: for every tree with a Shard wrapper reached by canonical path
`accF` whose flat parameter records original names `flatFqns`, resolving
the path to the flat-parameter slot returns exactly the `accF`-prefixed
original names; and whenever the Parameter Index is built on a tree where
those FQNs resolve only from this flat parameter, each of them maps back to
the same flat parameter object through the reverse mapping. -/
theorem flatParam_fanout (t : Module) (segs : List String) (accF : List String)
    (r : Bool) (fp : Param) (child : Module)
    (optims : List Optim) (mo oo : Bool) (opts : DistributedStateDictOptions)
    (hnav : navCanon segs t [] = some (accF, .fsdp r (some fp) child))
    (hflat : FLAT_PARAM ∉ segs)
    (hgood : ∀ s ∈ segs, '.' ∉ s.data)
    (huniq : ∀ sp ∈ t.namedParameters, ∀ fs, getFqns t sp.1 = .ok fs →
      ∀ f ∈ fp.flatFqns.map (fun f => joinDots (accF ++ [f])), f ∈ fs → sp.2 = fp)
    (hwriter : ∃ nm, (nm, fp) ∈ t.namedParameters ∧
      getFqns t nm = .ok (fp.flatFqns.map (fun f => joinDots (accF ++ [f])))) :
    getFqns t (joinDots (segs ++ [FSDP_WRAPPED_MODULE, FLAT_PARAM])) =
      .ok (fp.flatFqns.map (fun f => joinDots (accF ++ [f]))) ∧
    (∀ info, verifyOptions t optims mo oo opts = .ok info →
      ∀ f ∈ fp.flatFqns.map (fun f => joinDots (accF ++ [f])),
        info.lookupFqnParam f = some fp) := by
  constructor
  · have hgood2 : ∀ s ∈ segs ++ [FSDP_WRAPPED_MODULE, FLAT_PARAM], '.' ∉ s.data := by
      intro s hs
      rcases List.mem_append.1 hs with h1 | h1
      · exact hgood s h1
      · rcases List.mem_cons.1 h1 with h2 | h2
        · subst h2; decide
        · rcases List.mem_cons.1 h2 with h3 | h3
          · subst h3; decide
          · exact absurd h3 (List.not_mem_nil s)
    have hne : segs ++ [FSDP_WRAPPED_MODULE, FLAT_PARAM] ≠ [] := by simp
    have hdot : hasDot (joinDots (segs ++ [FSDP_WRAPPED_MODULE, FLAT_PARAM])) = true := by
      cases segs with
      | nil => decide
      | cons x xs =>
        exact hasDot_joinDots_cons x (xs ++ [FSDP_WRAPPED_MODULE, FLAT_PARAM]) (by simp)
    simp only [getFqns, hdot, if_true]
    rw [splitDots_joinDots _ hgood2 hne]
    exact getFqnsLoop_flat segs t [] accF r fp child hnav hflat
  · intro info hinfo f hf
    have hbm := verifyOptions_ok_inv t optims mo oo opts info hinfo
    simp only [StateDictInfo.lookupFqnParam]
    apply buildMapping_fp_invariant t opts.use_dtensor t.namedParameters [] []
      info.paramFqns info.fqnParam hbm f fp
    · intro sp hsp fs hres hfin
      exact huniq sp hsp fs hres f hf hfin
    · right
      obtain ⟨nm, hmem, hres⟩ := hwriter
      exact ⟨(nm, fp), hmem, _, hres, hf⟩

/-- Witness for C3: the concrete tree `block` wrapping a Shard node whose
flat parameter records `a`, `b`, `c`. -/
theorem flatParam_fanout_witness :
    getFqns (.plain [("block", .fsdp true
        (some { pid := 9, flatFqns := ["a", "b", "c"] }) (.plain [] []))] [])
      (joinDots (["block"] ++ [FSDP_WRAPPED_MODULE, FLAT_PARAM])) =
      .ok ["block.a", "block.b", "block.c"] ∧
    (∀ info, verifyOptions (.plain [("block", .fsdp true
        (some { pid := 9, flatFqns := ["a", "b", "c"] }) (.plain [] []))] [])
        [] false false {} = .ok info →
      ∀ f ∈ ["block.a", "block.b", "block.c"],
        info.lookupFqnParam f = some { pid := 9, flatFqns := ["a", "b", "c"] }) := by
  have h := flatParam_fanout
    (.plain [("block", .fsdp true
      (some { pid := 9, flatFqns := ["a", "b", "c"] }) (.plain [] []))] [])
    ["block"] ["block"] true { pid := 9, flatFqns := ["a", "b", "c"] } (.plain [] [])
    [] false false {}
    rfl (by decide) (by decide)
    (by
      intro sp hsp fs hres f hf hfin
      have : sp = ("block." ++ (FSDP_WRAPPED_MODULE ++ "." ++ FLAT_PARAM),
          ({ pid := 9, flatFqns := ["a", "b", "c"] } : Param)) := by
        simpa [Module.namedParameters, namedParametersList] using hsp
      rw [this])
    ⟨"block." ++ (FSDP_WRAPPED_MODULE ++ "." ++ FLAT_PARAM), by decide, by decide⟩
  exact ⟨h.1, h.2⟩

/-! ### C9: the per-optimizer split -/

/-- The canonical FQNs of the trainable parameters of an optimizer,
according to the Parameter Index. -/
def trainableFqns (info : StateDictInfo) (o : Optim) : List String :=
  ((o.allParams.filter (·.requiresGrad)).map
    (fun p => (info.lookupParamFqns p).getD [])).flatten

theorem mem_insertId (ids : List Nat) (i j : Nat) :
    j ∈ insertId ids i ↔ j ∈ ids ∨ j = i := by
  simp only [insertId]
  by_cases h : i ∈ ids
  · rw [if_pos h]
    constructor
    · exact Or.inl
    · rintro (hj | hj)
      · exact hj
      · exact hj ▸ h
  · rw [if_neg h]
    simp [List.mem_append]

theorem mem_foldl_insertId (xs : List (Nat × OsdGroup String)) (ids0 : List Nat) (i : Nat) :
    i ∈ xs.foldl (fun a ig => insertId a ig.1) ids0 ↔ i ∈ ids0 ∨ ∃ g, (i, g) ∈ xs := by
  induction xs generalizing ids0 with
  | nil => simp
  | cons x rest ih =>
    obtain ⟨n, g⟩ := x
    show i ∈ rest.foldl (fun a ig => insertId a ig.1) (insertId ids0 n) ↔ _
    rw [ih (insertId ids0 n)]
    rw [mem_insertId]
    constructor
    · rintro ((h | h) | ⟨g2, h⟩)
      · exact Or.inl h
      · exact Or.inr ⟨g, by rw [h]; exact List.mem_cons_self _ _⟩
      · exact Or.inr ⟨g2, List.mem_cons.2 (Or.inr h)⟩
    · rintro (h | ⟨g2, h⟩)
      · exact Or.inl (Or.inl h)
      · rcases List.mem_cons.1 h with h1 | h1
        · exact Or.inl (Or.inr (congrArg Prod.fst h1))
        · exact Or.inr ⟨g2, h1⟩

theorem pullFqns_spec (osd : OSD String) (fs : List String)
    (st0 : SDict.Dict String Val) (ids0 : List Nat)
    (hstate : ∀ f ∈ fs, (SDict.lookup osd.state f).isSome) :
    ∃ st ids, pullFqns osd fs st0 ids0 = .ok (st, ids) ∧
      (∀ q, SDict.lookup st q =
        if q ∈ fs then SDict.lookup osd.state q else SDict.lookup st0 q) ∧
      (∀ i, i ∈ ids ↔ i ∈ ids0 ∨
        ∃ g, osd.pg.get? i = some g ∧ ∃ f ∈ fs, f ∈ g.params) := by
  induction fs generalizing st0 ids0 with
  | nil => exact ⟨st0, ids0, rfl, fun q => by simp, fun i => by simp⟩
  | cons f rest ih =>
    have hf : (SDict.lookup osd.state f).isSome :=
      hstate f (List.mem_cons_self f rest)
    cases hv : SDict.lookup osd.state f with
    | none => rw [hv] at hf; exact absurd hf (by simp)
    | some v =>
      have hrest : ∀ f2 ∈ rest, (SDict.lookup osd.state f2).isSome :=
        fun f2 h2 => hstate f2 (List.mem_cons.2 (Or.inr h2))
      obtain ⟨st, ids, hok, hst, hids⟩ := ih (SDict.insertD st0 f v)
        ((osd.pg.enum.filter (fun ig => f ∈ ig.2.params)).foldl
          (fun a ig => insertId a ig.1) ids0) hrest
      refine ⟨st, ids, ?_, ?_, ?_⟩
      · simp only [pullFqns, hv]
        exact hok
      · intro q
        rw [hst q]
        by_cases hq : q ∈ rest
        · rw [if_pos hq, if_pos (List.mem_cons.2 (Or.inr hq))]
        · rw [if_neg hq]
          by_cases hq2 : q = f
          · subst hq2
            rw [if_pos (List.mem_cons_self q rest), SDict.lookup_insertD_self, hv]
          · rw [SDict.lookup_insertD_ne _ _ _ _ hq2,
              if_neg (by
                intro hc
                rcases List.mem_cons.1 hc with h1 | h1
                · exact hq2 h1
                · exact hq h1)]
      · intro i
        rw [hids i, mem_foldl_insertId]
        constructor
        · rintro ((h | ⟨g, hg⟩) | ⟨g, hget, f2, hf2, hfg⟩)
          · exact Or.inl h
          · refine Or.inr ⟨g, ?_, f, List.mem_cons_self f rest, ?_⟩
            · have := List.mem_filter.1 hg
              have h2 := List.mk_mem_enum_iff_getElem?.1 this.1
              simpa using h2
            · have := (List.mem_filter.1 hg).2
              simpa using this
          · exact Or.inr ⟨g, hget, f2, List.mem_cons.2 (Or.inr hf2), hfg⟩
        · rintro (h | ⟨g, hget, f2, hf2, hfg⟩)
          · exact Or.inl (Or.inl h)
          · rcases List.mem_cons.1 hf2 with h1 | h1
            · subst h1
              refine Or.inl (Or.inr ⟨g, List.mem_filter.2 ⟨?_, by simpa using hfg⟩⟩)
              exact List.mk_mem_enum_iff_getElem?.2 (by simpa using hget)
            · exact Or.inr ⟨g, hget, f2, h1, hfg⟩

theorem splitFold_spec (info : StateDictInfo) (osd : OSD String) (l : List Param)
    (st0 : SDict.Dict String Val) (ids0 : List Nat)
    (hmap : ∀ p ∈ l, p.requiresGrad = true →
      info.lookupParamFqns p = some ((info.lookupParamFqns p).getD []))
    (hstate : ∀ p ∈ l, p.requiresGrad = true →
      ∀ f ∈ (info.lookupParamFqns p).getD [], (SDict.lookup osd.state f).isSome) :
    ∃ st ids, splitFold info osd l st0 ids0 = .ok (st, ids) ∧
      (∀ q, SDict.lookup st q =
        if q ∈ ((l.filter (·.requiresGrad)).map
            (fun p => (info.lookupParamFqns p).getD [])).flatten
        then SDict.lookup osd.state q else SDict.lookup st0 q) ∧
      (∀ i, i ∈ ids ↔ i ∈ ids0 ∨
        ∃ g, osd.pg.get? i = some g ∧
          ∃ f ∈ ((l.filter (·.requiresGrad)).map
            (fun p => (info.lookupParamFqns p).getD [])).flatten, f ∈ g.params) := by
  induction l generalizing st0 ids0 with
  | nil => exact ⟨st0, ids0, rfl, fun q => by simp, fun i => by simp⟩
  | cons p rest ih =>
    have hmap2 : ∀ q ∈ rest, q.requiresGrad = true →
        info.lookupParamFqns q = some ((info.lookupParamFqns q).getD []) :=
      fun q hq => hmap q (List.mem_cons.2 (Or.inr hq))
    have hstate2 : ∀ q ∈ rest, q.requiresGrad = true →
        ∀ f ∈ (info.lookupParamFqns q).getD [], (SDict.lookup osd.state f).isSome :=
      fun q hq => hstate q (List.mem_cons.2 (Or.inr hq))
    by_cases hr : p.requiresGrad = true
    · have hfilter : (p :: rest).filter (·.requiresGrad) =
          p :: rest.filter (·.requiresGrad) := by simp [List.filter_cons, hr]
      obtain ⟨st1, ids1, hok1, hst1, hids1⟩ := pullFqns_spec osd
        ((info.lookupParamFqns p).getD []) st0 ids0
        (hstate p (List.mem_cons_self p rest) hr)
      obtain ⟨st, ids, hok, hst, hids⟩ := ih st1 ids1 hmap2 hstate2
      refine ⟨st, ids, ?_, ?_, ?_⟩
      · simp only [splitFold]
        rw [if_neg (by rw [hr]; simp)]
        rw [hmap p (List.mem_cons_self p rest) hr]
        have hcomp : (match pullFqns osd ((info.lookupParamFqns p).getD []) st0 ids0 with
            | Except.error e => Except.error e
            | Except.ok (st2, ids2) => splitFold info osd rest st2 ids2) =
              Except.ok (st, ids) := by
          rw [hok1]
          exact hok
        exact hcomp
      · intro q
        rw [hst q, hfilter]
        simp only [List.map_cons, List.flatten_cons, List.mem_append]
        by_cases h1 : q ∈ ((rest.filter (·.requiresGrad)).map
            (fun p2 => (info.lookupParamFqns p2).getD [])).flatten
        · rw [if_pos h1, if_pos (Or.inr h1)]
        · rw [if_neg h1, hst1 q]
          by_cases h2 : q ∈ (info.lookupParamFqns p).getD []
          · rw [if_pos h2, if_pos (Or.inl h2)]
          · rw [if_neg h2, if_neg (by rintro (h | h) <;> [exact h2 h; exact h1 h])]
      · intro i
        rw [hids i, hfilter]
        simp only [List.map_cons, List.flatten_cons, List.mem_append]
        rw [hids1 i]
        constructor
        · rintro ((h | ⟨g, hget, f, hf, hfg⟩) | ⟨g, hget, f, hf, hfg⟩)
          · exact Or.inl h
          · exact Or.inr ⟨g, hget, f, Or.inl hf, hfg⟩
          · exact Or.inr ⟨g, hget, f, Or.inr hf, hfg⟩
        · rintro (h | ⟨g, hget, f, hf | hf, hfg⟩)
          · exact Or.inl (Or.inl h)
          · exact Or.inl (Or.inr ⟨g, hget, f, hf, hfg⟩)
          · exact Or.inr ⟨g, hget, f, hf, hfg⟩
    · have hfilter : (p :: rest).filter (·.requiresGrad) =
          rest.filter (·.requiresGrad) := by
        simp only [List.filter_cons]
        rw [if_neg (by rw [show p.requiresGrad = false from by
          cases hx : p.requiresGrad with
          | true => exact absurd hx hr
          | false => rfl]; simp)]
      obtain ⟨st, ids, hok, hst, hids⟩ := ih st0 ids0 hmap2 hstate2
      refine ⟨st, ids, ?_, ?_, ?_⟩
      · simp only [splitFold]
        rw [if_pos (by
          cases hx : p.requiresGrad with
          | true => exact absurd hx hr
          | false => rfl)]
        exact hok
      · intro q
        rw [hst q, hfilter]
      · intro i
        rw [hids i, hfilter]

theorem enumFrom_filter_map {α : Type} (l : List α) (n : Nat) (ids : List Nat)
    (P : α → Bool)
    (h : ∀ i g, l.get? i = some g → ((n + i) ∈ ids ↔ P g = true)) :
    ((List.enumFrom n l).filter (fun ig => decide (ig.1 ∈ ids))).map (·.2) =
      l.filter P := by
  induction l generalizing n with
  | nil => rfl
  | cons x rest ih =>
    have hx := h 0 x rfl
    rw [Nat.add_zero] at hx
    have hrest : ∀ i g, rest.get? i = some g → ((n + 1 + i) ∈ ids ↔ P g = true) := by
      intro i g hg
      have := h (i + 1) g (by simpa using hg)
      rwa [show n + (i + 1) = n + 1 + i by omega] at this
    show ((((n, x) :: List.enumFrom (n + 1) rest).filter
      (fun ig => decide (ig.1 ∈ ids))).map (·.2)) = _
    rw [List.filter_cons, List.filter_cons]
    by_cases hmem : n ∈ ids
    · rw [if_pos (by simpa using hmem), if_pos (by rw [← hx]; exact hmem)]
      rw [List.map_cons]
      rw [ih (n + 1) hrest]
    · rw [if_neg (by simpa using hmem), if_neg (by rw [← hx]; exact hmem)]
      exact ih (n + 1) hrest

/-- C9: `_split_optim_state_dict` hands an optimizer exactly its trainable
share. Under a Parameter Index that resolves every trainable group
parameter and a merged state dict covering all their FQNs: the split
succeeds; its `state` holds exactly the trainable group parameters'
canonical FQNs, carrying the merged values (so no frozen parameter's entry
is ever pulled); and its `param_groups` are exactly the merged groups that
mention at least one trainable FQN, in merged order. -/
theorem splitOptimStateDict_spec (o : Optim) (osd : OSD String)
    (info : StateDictInfo)
    (hmap : ∀ p ∈ o.allParams, p.requiresGrad = true →
      info.lookupParamFqns p = some ((info.lookupParamFqns p).getD []))
    (hstate : ∀ p ∈ o.allParams, p.requiresGrad = true →
      ∀ f ∈ (info.lookupParamFqns p).getD [], (SDict.lookup osd.state f).isSome) :
    ∃ r, splitOptimStateDict o osd info = .ok r ∧
      (∀ q, SDict.lookup r.state q =
        if q ∈ trainableFqns info o then SDict.lookup osd.state q else none) ∧
      r.pg = osd.pg.filter
        (fun g => g.params.any (fun f => decide (f ∈ trainableFqns info o))) := by
  obtain ⟨st, ids, hok, hst, hids⟩ := splitFold_spec info osd o.allParams [] []
    hmap hstate
  refine ⟨{ state := st,
            pg := (osd.pg.enum.filter (fun ig => ig.1 ∈ ids)).map (·.2) }, ?_, ?_, ?_⟩
  · simp only [splitOptimStateDict, hok]
  · intro q
    rw [hst q]
    rfl
  · show ((List.enumFrom 0 osd.pg).filter (fun ig => decide (ig.1 ∈ ids))).map (·.2) = _
    apply enumFrom_filter_map
    intro i g hg
    rw [Nat.zero_add]
    rw [hids i]
    constructor
    · rintro (h | ⟨g2, hget2, f, hf, hfg⟩)
      · exact absurd h (List.not_mem_nil i)
      · have : g2 = g := by
          rw [hg] at hget2
          exact (Option.some.inj hget2).symm
        subst this
        exact List.any_eq_true.2 ⟨f, hfg, decide_eq_true hf⟩
    · intro hany
      obtain ⟨f, hfg, hf⟩ := List.any_eq_true.1 hany
      exact Or.inr ⟨g, hg, f, of_decide_eq_true hf, hfg⟩

/-- Witness for C9: a two-parameter optimizer (one frozen), a merged dict
with both entries and two groups; the split keeps only the trainable FQN
and the group mentioning it. -/
theorem splitOptimStateDict_spec_witness :
    ∃ r, splitOptimStateDict
        { paramGroups := [{ params := [{ pid := 1 }], lr := 3 },
                          { params := [{ pid := 2, requiresGrad := false }], lr := 4 }] }
        { state := [("a", 10), ("b", 20)],
          pg := [{ params := ["a"], lr := 3 }, { params := ["b"], lr := 4 }] }
        { paramFqns := [({ pid := 1 }, ["a"]),
                        ({ pid := 2, requiresGrad := false }, ["b"])] } = .ok r ∧
      (∀ q, SDict.lookup r.state q =
        if q ∈ trainableFqns
            { paramFqns := [({ pid := 1 }, ["a"]),
                            ({ pid := 2, requiresGrad := false }, ["b"])] }
            { paramGroups := [{ params := [{ pid := 1 }], lr := 3 },
                              { params := [{ pid := 2, requiresGrad := false }], lr := 4 }] }
        then SDict.lookup [("a", 10), ("b", 20)] q else none) ∧
      r.pg = [{ params := ["a"], lr := 3 }] := by
  obtain ⟨r, hok, hst, hpg⟩ := splitOptimStateDict_spec
    { paramGroups := [{ params := [{ pid := 1 }], lr := 3 },
                      { params := [{ pid := 2, requiresGrad := false }], lr := 4 }] }
    { state := [("a", 10), ("b", 20)],
      pg := [{ params := ["a"], lr := 3 }, { params := ["b"], lr := 4 }] }
    { paramFqns := [({ pid := 1 }, ["a"]),
                    ({ pid := 2, requiresGrad := false }, ["b"])] }
    (by decide) (by decide)
  refine ⟨r, hok, hst, ?_⟩
  rw [hpg]
  decide

/-! ### Key-move machinery (shared by the load-side rekey results) -/

namespace SDict

theorem pop_nodup {α : Type} {κ : Type} [DecidableEq κ] {d : Dict κ α} {k : κ}
    {v : α} {rest : Dict κ α} (hnd : (keys d).Nodup)
    (h : pop d k = some (v, rest)) :
    (keys rest).Nodup ∧ k ∉ keys rest := by
  induction d generalizing rest with
  | nil => simp [pop] at h
  | cons p tail ih =>
    obtain ⟨k2, v2⟩ := p
    rw [keys_cons] at hnd
    have hnd2 := (List.nodup_cons.1 hnd).2
    have hk2 := (List.nodup_cons.1 hnd).1
    by_cases h2 : k2 = k
    · simp only [pop, h2, if_true, Option.some.injEq, Prod.mk.injEq] at h
      subst h2
      rw [← h.2]
      exact ⟨hnd2, hk2⟩
    · simp only [pop, h2, if_false] at h
      cases hp : pop tail k with
      | none => rw [hp] at h; exact absurd h (by simp)
      | some pr =>
        rw [hp] at h
        obtain ⟨v3, rest3⟩ := pr
        simp only [Option.some.injEq, Prod.mk.injEq] at h
        obtain ⟨hv, hrest⟩ := h
        subst hv
        subst hrest
        obtain ⟨hnd3, hk3⟩ := ih hnd2 hp
        refine ⟨?_, ?_⟩
        · rw [keys_cons]
          refine List.nodup_cons.2 ⟨?_, hnd3⟩
          intro hc
          exact hk2 (pop_keys_subset hp k2 hc)
        · rw [keys_cons]
          intro hc
          rcases List.mem_cons.1 hc with h4 | h4
          · exact h2 h4.symm
          · exact hk3 h4

theorem lookup_pop_self {α : Type} {κ : Type} [DecidableEq κ] {d : Dict κ α} {k : κ}
    {v : α} {rest : Dict κ α} (hnd : (keys d).Nodup)
    (h : pop d k = some (v, rest)) : lookup rest k = none :=
  lookup_eq_none_of_not_mem (pop_nodup hnd h).2

theorem keys_nodup_insertD {α : Type} {κ : Type} [DecidableEq κ] {d : Dict κ α}
    (k : κ) (v : α) (hnd : (keys d).Nodup) : (keys (insertD d k v)).Nodup := by
  rw [keys_insertD]
  by_cases h : k ∈ keys d
  · rw [if_pos h]; exact hnd
  · rw [if_neg h]
    rw [List.nodup_append]
    exact ⟨hnd, List.nodup_singleton k, by simpa using h⟩

end SDict

/-- The flattened `(fqn, fqn_with_ddp_prefix)` pairs of
`_load_model_state_dict`, over a list of named parameters. -/
def rekeyPairs (t : Module) : List (String × Param) →
    Except PyErr (List (String × String))
  | [] => .ok []
  | (key, _) :: rest =>
    match getFqns t key with
    | .error e => .error e
    | .ok fqns =>
      match getFqns t key false with
      | .error e => .error e
      | .ok fqnsD =>
        match rekeyPairs t rest with
        | .error e => .error e
        | .ok r => .ok (fqns.zip fqnsD ++ r)

theorem movePairs_append (a b : List (String × String)) (sd : SDict.Dict String Val) :
    movePairs (a ++ b) sd =
      match movePairs a sd with
      | .error e => .error e
      | .ok sd2 => movePairs b sd2 := by
  induction a generalizing sd with
  | nil => rfl
  | cons pr rest ih =>
    obtain ⟨f, fd⟩ := pr
    by_cases hf : f = fd
    · have lhs : movePairs (((f, fd) :: rest) ++ b) sd = movePairs (rest ++ b) sd := by
        show movePairs ((f, fd) :: (rest ++ b)) sd = _
        simp only [movePairs]
        rw [if_pos hf]
      have rhs : movePairs ((f, fd) :: rest) sd = movePairs rest sd := by
        simp only [movePairs]
        rw [if_pos hf]
      rw [lhs, ih sd, rhs]
    · cases hp : SDict.pop sd f with
      | none =>
        have lhs : movePairs (((f, fd) :: rest) ++ b) sd = .error .keyError := by
          show movePairs ((f, fd) :: (rest ++ b)) sd = _
          simp only [movePairs]
          rw [if_neg hf, hp]
        have rhs : movePairs ((f, fd) :: rest) sd = .error .keyError := by
          simp only [movePairs]
          rw [if_neg hf, hp]
        rw [lhs, rhs]
      | some pr2 =>
        obtain ⟨v, sd2⟩ := pr2
        have lhs : movePairs (((f, fd) :: rest) ++ b) sd =
            movePairs (rest ++ b) (SDict.insertD sd2 fd v) := by
          show movePairs ((f, fd) :: (rest ++ b)) sd = _
          simp only [movePairs]
          rw [if_neg hf, hp]
        have rhs : movePairs ((f, fd) :: rest) sd =
            movePairs rest (SDict.insertD sd2 fd v) := by
          simp only [movePairs]
          rw [if_neg hf, hp]
        rw [lhs, ih (SDict.insertD sd2 fd v), rhs]

theorem loadRekeyFold_eq_movePairs (t : Module) (l : List (String × Param))
    (sd : SDict.Dict String Val) (prs : List (String × String))
    (h : rekeyPairs t l = .ok prs) :
    loadRekeyFold t l sd = movePairs prs sd := by
  induction l generalizing sd prs with
  | nil =>
    simp only [rekeyPairs, Except.ok.injEq] at h
    rw [← h]
    rfl
  | cons sp rest ih =>
    obtain ⟨key, p⟩ := sp
    cases hres : getFqns t key with
    | error e =>
      simp only [rekeyPairs, hres] at h
      exact absurd h (by simp)
    | ok fqns =>
      cases hresD : getFqns t key false with
      | error e =>
        simp only [rekeyPairs, hres, hresD] at h
        exact absurd h (by simp)
      | ok fqnsD =>
        cases hrp : rekeyPairs t rest with
        | error e =>
          simp only [rekeyPairs, hres, hresD, hrp] at h
          exact absurd h (by simp)
        | ok r =>
          simp only [rekeyPairs, hres, hresD, hrp, Except.ok.injEq] at h
          rw [← h]
          simp only [loadRekeyFold, hres, hresD]
          rw [movePairs_append]
          cases hmv : movePairs (fqns.zip fqnsD) sd with
          | error e => rfl
          | ok sd2 => exact ih sd2 r hrp

/-- The pairs that actually move an entry. -/
def movers (prs : List (String × String)) : List (String × String) :=
  prs.filter (fun pr => pr.1 ≠ pr.2)

/-- The master characterization of the `state_dict.pop`/reinsert loop: with
distinct sources all present, distinct targets all fresh, and no target
colliding with a source, the final dict holds each moved entry under its
target key, drops the source keys, and leaves everything else alone. -/
theorem movePairs_spec (prs : List (String × String)) (sd : SDict.Dict String Val)
    (hnd : (SDict.keys sd).Nodup)
    (hsrc_nodup : ((movers prs).map (·.1)).Nodup)
    (htgt_nodup : ((movers prs).map (·.2)).Nodup)
    (hsrc_mem : ∀ pr ∈ movers prs, pr.1 ∈ SDict.keys sd)
    (htgt_fresh : ∀ pr ∈ movers prs, pr.2 ∉ SDict.keys sd)
    (hdisj : ∀ pr ∈ movers prs, ∀ pr2 ∈ movers prs, pr.2 ≠ pr2.1) :
    ∃ sd2, movePairs prs sd = .ok sd2 ∧ (SDict.keys sd2).Nodup ∧
      (∀ pr ∈ movers prs, SDict.lookup sd2 pr.2 = SDict.lookup sd pr.1) ∧
      (∀ pr ∈ movers prs, SDict.lookup sd2 pr.1 = none) ∧
      (∀ q, q ∉ (movers prs).map (·.1) → q ∉ (movers prs).map (·.2) →
        SDict.lookup sd2 q = SDict.lookup sd q) := by
  induction prs generalizing sd with
  | nil => exact ⟨sd, rfl, hnd, by simp [movers], by simp [movers], fun q _ _ => rfl⟩
  | cons pr rest ih =>
    obtain ⟨f, fd⟩ := pr
    by_cases hf : f = fd
    · have hm : movers ((f, fd) :: rest) = movers rest := by
        simp only [movers, List.filter_cons]
        rw [if_neg (by simpa using hf)]
      rw [hm] at hsrc_nodup htgt_nodup hsrc_mem htgt_fresh hdisj
      obtain ⟨sd2, hok, hnd2, h1, h2, h3⟩ := ih sd hnd hsrc_nodup htgt_nodup
        hsrc_mem htgt_fresh hdisj
      refine ⟨sd2, ?_, hnd2, ?_, ?_, ?_⟩
      · simp only [movePairs]
        rw [if_pos hf]
        exact hok
      · rw [hm]; exact h1
      · rw [hm]; exact h2
      · rw [hm]; exact h3
    · have hm : movers ((f, fd) :: rest) = (f, fd) :: movers rest := by
        simp only [movers, List.filter_cons]
        rw [if_pos (by simpa using hf)]
      rw [hm] at hsrc_nodup htgt_nodup hsrc_mem htgt_fresh hdisj
      have hfmem : f ∈ SDict.keys sd :=
        hsrc_mem (f, fd) (List.mem_cons_self _ _)
      have hpop : ∃ v sd1, SDict.pop sd f = some (v, sd1) := by
        cases hp : SDict.pop sd f with
        | none => exact absurd ((SDict.pop_eq_none_iff sd f).1 hp) (by simpa using hfmem)
        | some pr2 => exact ⟨pr2.1, pr2.2, rfl⟩
      obtain ⟨v, sd1, hp⟩ := hpop
      obtain ⟨hnd1, hf1⟩ := SDict.pop_nodup hnd hp
      have hfdne : fd ≠ f := fun hc => hf hc.symm
      have hfd_fresh : fd ∉ SDict.keys sd :=
        htgt_fresh (f, fd) (List.mem_cons_self _ _)
      have hfd_fresh1 : fd ∉ SDict.keys sd1 :=
        fun hc => hfd_fresh (SDict.pop_keys_subset hp fd hc)
      set sdm := SDict.insertD sd1 fd v with hsdm
      have hndm : (SDict.keys sdm).Nodup := SDict.keys_nodup_insertD fd v hnd1
      -- hypotheses for the tail, over sdm
      have hsrc_nodup2 : ((movers rest).map (·.1)).Nodup :=
        (List.nodup_cons.1 hsrc_nodup).2
      have htgt_nodup2 : ((movers rest).map (·.2)).Nodup :=
        (List.nodup_cons.1 htgt_nodup).2
      have hfsrc : f ∉ (movers rest).map (·.1) := (List.nodup_cons.1 hsrc_nodup).1
      have hfdtgt : fd ∉ (movers rest).map (·.2) := (List.nodup_cons.1 htgt_nodup).1
      have hdisj2 : ∀ pr2 ∈ movers rest, ∀ pr3 ∈ movers rest, pr2.2 ≠ pr3.1 :=
        fun pr2 h2 pr3 h3 => hdisj pr2 (List.mem_cons.2 (Or.inr h2)) pr3
          (List.mem_cons.2 (Or.inr h3))
      have htgt_ne_f : ∀ pr2 ∈ movers rest, pr2.2 ≠ f :=
        fun pr2 h2 => hdisj pr2 (List.mem_cons.2 (Or.inr h2)) (f, fd)
          (List.mem_cons_self _ _)
      have hfd_ne_src : ∀ pr2 ∈ movers rest, fd ≠ pr2.1 :=
        fun pr2 h2 => hdisj (f, fd) (List.mem_cons_self _ _) pr2
          (List.mem_cons.2 (Or.inr h2))
      have hsrc_mem2 : ∀ pr2 ∈ movers rest, pr2.1 ∈ SDict.keys sdm := by
        intro pr2 h2
        have hs : pr2.1 ∈ SDict.keys sd :=
          hsrc_mem pr2 (List.mem_cons.2 (Or.inr h2))
        have hne : pr2.1 ≠ f := by
          intro hc
          exact hfsrc (hc ▸ List.mem_map.2 ⟨pr2, h2, rfl⟩)
        have h4 : SDict.lookup sd1 pr2.1 = SDict.lookup sd pr2.1 :=
          SDict.pop_lookup_rest hp pr2.1 hne
        have h5 : SDict.lookup sdm pr2.1 = SDict.lookup sd1 pr2.1 :=
          SDict.lookup_insertD_ne sd1 fd pr2.1 v (fun hc => hfd_ne_src pr2 h2 hc.symm)
        apply SDict.mem_keys_of_lookup_isSome
        rw [h5, h4]
        exact (SDict.lookup_isSome_iff_mem_keys sd pr2.1).2 hs
      have htgt_fresh2 : ∀ pr2 ∈ movers rest, pr2.2 ∉ SDict.keys sdm := by
        intro pr2 h2 hc
        have hne_fd : pr2.2 ≠ fd := by
          intro hceq
          exact hfdtgt (hceq ▸ List.mem_map.2 ⟨pr2, h2, rfl⟩)
        have h4 : SDict.lookup sdm pr2.2 = SDict.lookup sd1 pr2.2 :=
          SDict.lookup_insertD_ne sd1 fd pr2.2 v hne_fd
        have h5 : SDict.lookup sd1 pr2.2 = SDict.lookup sd pr2.2 :=
          SDict.pop_lookup_rest hp pr2.2 (htgt_ne_f pr2 h2)
        have h6 : SDict.lookup sd pr2.2 = none :=
          SDict.lookup_eq_none_of_not_mem (htgt_fresh pr2 (List.mem_cons.2 (Or.inr h2)))
        have := (SDict.lookup_isSome_iff_mem_keys sdm pr2.2).2 hc
        rw [h4, h5, h6] at this
        exact absurd this (by simp)
      obtain ⟨sd2, hok, hnd2, h1, h2, h3⟩ := ih sdm hndm hsrc_nodup2 htgt_nodup2
        hsrc_mem2 htgt_fresh2 hdisj2
      have hstep : movePairs ((f, fd) :: rest) sd = movePairs rest sdm := by
        simp only [movePairs]
        rw [if_neg hf, hp]
      refine ⟨sd2, by rw [hstep]; exact hok, hnd2, ?_, ?_, ?_⟩
      · intro pr2 hpr2
        rw [hm] at hpr2
        rcases List.mem_cons.1 hpr2 with hc | hc
        · subst hc
          have hva : SDict.lookup sd2 fd = SDict.lookup sdm fd := by
            apply h3
            · intro hcc
              obtain ⟨pr3, h5, h6⟩ := List.mem_map.1 hcc
              exact hfd_ne_src pr3 h5 h6.symm
            · exact hfdtgt
          rw [hva, hsdm, SDict.lookup_insertD_self]
          exact (SDict.pop_lookup hp).symm
        · have := h1 pr2 hc
          rw [this]
          have h4 : SDict.lookup sdm pr2.1 = SDict.lookup sd1 pr2.1 :=
            SDict.lookup_insertD_ne sd1 fd pr2.1 v
              (fun hcc => hfd_ne_src pr2 hc hcc.symm)
          have hne : pr2.1 ≠ f := by
            intro hcc
            exact hfsrc (hcc ▸ List.mem_map.2 ⟨pr2, hc, rfl⟩)
          rw [h4, SDict.pop_lookup_rest hp pr2.1 hne]
      · intro pr2 hpr2
        rw [hm] at hpr2
        rcases List.mem_cons.1 hpr2 with hc | hc
        · subst hc
          have hva : SDict.lookup sd2 f = SDict.lookup sdm f := by
            apply h3
            · exact hfsrc
            · intro hcc
              obtain ⟨pr3, h5, h6⟩ := List.mem_map.1 hcc
              exact htgt_ne_f pr3 h5 h6
          rw [hva, hsdm, SDict.lookup_insertD_ne sd1 fd f v hfdne.symm]
          exact SDict.lookup_pop_self hnd hp
        · exact h2 pr2 hc
      · intro q hq1 hq2
        rw [hm] at hq1 hq2
        have hq1r : q ∉ (movers rest).map (·.1) := by
          intro hc
          exact hq1 (by
            simp only [List.map_cons, List.mem_cons]
            exact Or.inr hc)
        have hq2r : q ∉ (movers rest).map (·.2) := by
          intro hc
          exact hq2 (by
            simp only [List.map_cons, List.mem_cons]
            exact Or.inr hc)
        have hqf : q ≠ f := by
          intro hc
          exact hq1 (by simp [hc])
        have hqfd : q ≠ fd := by
          intro hc
          exact hq2 (by simp [hc])
        rw [h3 q hq1r hq2r, hsdm, SDict.lookup_insertD_ne sd1 fd q v hqfd,
          SDict.pop_lookup_rest hp q hqf]

/-! ### C10: `_load_model_state_dict` mutates the caller's dict -/

theorem hasDdpList_false (cs : List (String × Module)) (h : hasDdpList cs = false)
    (n : String) (m : Module) (hm : cs.lookup n = some m) : m.hasDdp = false := by
  induction cs with
  | nil => simp [List.lookup] at hm
  | cons c rest ih =>
    obtain ⟨n2, m2⟩ := c
    have h2 : Module.hasDdp m2 = false ∧ hasDdpList rest = false := by
      have : (Module.hasDdp m2 || hasDdpList rest) = false := h
      exact ⟨by
        cases hx : Module.hasDdp m2 with
        | false => rfl
        | true => rw [hx] at this; simp at this,
        by
        cases hx : hasDdpList rest with
        | false => rfl
        | true => rw [hx] at this; simp at this⟩
    by_cases hn : n = n2
    · subst hn
      simp only [List.lookup, beq_self_eq_true] at hm
      rw [← Option.some.inj hm]
      exact h2.1
    · have hb : (n == n2) = false := by simp [hn]
      simp only [List.lookup, hb] at hm
      exact ih h2.2 hm

theorem findChild_hasDdp (m : Module) (seg : String) (m2 : Module)
    (h : m.findChild seg = some m2) (hd : m.hasDdp = false) : m2.hasDdp = false := by
  cases m with
  | plain cs ps => exact hasDdpList_false cs hd seg m2 h
  | ddp c => exact absurd hd (by simp [Module.hasDdp])
  | fsdp r fp c =>
    simp only [Module.findChild] at h
    by_cases hs : seg = FSDP_WRAPPED_MODULE
    · rw [if_pos hs] at h
      rw [← Option.some.inj h]
      exact hd
    · rw [if_neg hs] at h
      exact absurd h (by simp)

theorem getFqnsLoop_skip_indep (segs : List String) (curr : Module) (acc : List String)
    (h : curr.hasDdp = false) (sk : Bool) :
    getFqnsLoop sk segs curr acc = getFqnsLoop true segs curr acc := by
  induction segs generalizing curr acc with
  | nil => rfl
  | cons seg rest ih =>
    cases curr with
    | ddp c => exact absurd h (by simp [Module.hasDdp])
    | plain cs ps =>
      simp only [getFqnsLoop]
      cases hlk : cs.lookup seg with
      | none => rfl
      | some mm =>
        exact ih mm (acc ++ [seg]) (hasDdpList_false cs h seg mm hlk)
    | fsdp r fp child =>
      have hchild : child.hasDdp = false := h
      cases rest with
      | nil => rfl
      | cons nx nrest =>
        simp only [getFqnsLoop]
        by_cases hnx : nx = FLAT_PARAM
        · rw [if_pos hnx, if_pos hnx]
        · rw [if_neg hnx, if_neg hnx]
          by_cases hm : seg = FSDP_WRAPPED_MODULE
          · rw [if_pos hm, if_pos hm]
            exact ih child acc hchild
          · rw [if_neg hm, if_neg hm]
            cases hlk : child.findChild seg with
            | none => rfl
            | some mm =>
              exact ih mm (acc ++ [seg]) (findChild_hasDdp child seg mm hlk hchild)

theorem getFqns_skip_indep (t : Module) (name : String) (h : t.hasDdp = false)
    (sk : Bool) : getFqns t name sk = getFqns t name := by
  simp only [getFqns]
  by_cases hd : hasDot name
  · rw [if_pos hd, if_pos hd]
    exact getFqnsLoop_skip_indep (splitDots name) t [] h sk
  · rw [if_neg hd, if_neg hd]

theorem mem_zip_self {α : Type} (l : List α) (pr : α × α) (h : pr ∈ l.zip l) :
    pr.1 = pr.2 := by
  induction l with
  | nil => simp at h
  | cons x rest ih =>
    rcases List.mem_cons.1 h with h1 | h1
    · rw [h1]
    · exact ih h1

theorem movePairs_skip_all (prs : List (String × String)) (sd : SDict.Dict String Val)
    (h : ∀ pr ∈ prs, pr.1 = pr.2) : movePairs prs sd = .ok sd := by
  induction prs with
  | nil => rfl
  | cons pr rest ih =>
    obtain ⟨f, fd⟩ := pr
    have hf : f = fd := h (f, fd) (List.mem_cons_self _ _)
    simp only [movePairs]
    rw [if_pos hf]
    exact ih (fun pr2 h2 => h pr2 (List.mem_cons.2 (Or.inr h2)))

theorem rekeyPairs_noDdp (t : Module) (l : List (String × Param))
    (prs : List (String × String)) (h : t.hasDdp = false)
    (hok : rekeyPairs t l = .ok prs) : ∀ pr ∈ prs, pr.1 = pr.2 := by
  induction l generalizing prs with
  | nil =>
    simp only [rekeyPairs, Except.ok.injEq] at hok
    rw [← hok]
    intro pr hpr
    exact absurd hpr (List.not_mem_nil pr)
  | cons sp rest ih =>
    obtain ⟨key, p⟩ := sp
    cases hres : getFqns t key with
    | error e =>
      simp only [rekeyPairs, hres] at hok
      exact absurd hok (by simp)
    | ok fqns =>
      have hresD : getFqns t key false = .ok fqns := by
        rw [getFqns_skip_indep t key h false]
        exact hres
      cases hrp : rekeyPairs t rest with
      | error e =>
        simp only [rekeyPairs, hres, hresD, hrp] at hok
        exact absurd hok (by simp)
      | ok r =>
        simp only [rekeyPairs, hres, hresD, hrp, Except.ok.injEq] at hok
        rw [← hok]
        intro pr hpr
        rcases List.mem_append.1 hpr with h1 | h1
        · exact mem_zip_self fqns pr h1
        · exact ih r hrp pr h1

theorem loadModelStateDict_unfold (m : DistModel) (sd : SDict.Dict String Val)
    (info : StateDictInfo) (sd2 : SDict.Dict String Val)
    (h : loadRekeyFold m.tree m.tree.namedParameters sd = .ok sd2) :
    loadModelStateDict m sd info =
      (m.nativeLoadStateDict sd2).map (fun m2 => (sd2, m2)) := by
  simp only [loadModelStateDict, h]
  cases hn : m.nativeLoadStateDict sd2 with
  | error e => rfl
  | ok m2 => rfl

/-- C10: `_load_model_state_dict` rewrites the caller's model state dict in
place before invoking the native load primitive. With a replica wrapper
(moving pairs present, well-separated): every canonical key whose
DDP-prefix-preserving FQN differs is removed and its entry re-inserted
under the prefixed key, every other key is untouched, and exactly this
mutated dict is handed to the native load. With no replica wrapper in the
tree, the dict passes through unchanged. -/
theorem loadModelStateDict_mutates_dict (m : DistModel) (sd : SDict.Dict String Val)
    (info : StateDictInfo) (prs : List (String × String))
    (hprs : rekeyPairs m.tree m.tree.namedParameters = .ok prs) :
    ((SDict.keys sd).Nodup →
     ((movers prs).map (·.1)).Nodup →
     ((movers prs).map (·.2)).Nodup →
     (∀ pr ∈ movers prs, pr.1 ∈ SDict.keys sd) →
     (∀ pr ∈ movers prs, pr.2 ∉ SDict.keys sd) →
     (∀ pr ∈ movers prs, ∀ pr2 ∈ movers prs, pr.2 ≠ pr2.1) →
      ∃ sd2, loadRekeyFold m.tree m.tree.namedParameters sd = .ok sd2 ∧
        loadModelStateDict m sd info =
          (m.nativeLoadStateDict sd2).map (fun m2 => (sd2, m2)) ∧
        (∀ pr ∈ movers prs, SDict.lookup sd2 pr.2 = SDict.lookup sd pr.1) ∧
        (∀ pr ∈ movers prs, SDict.lookup sd2 pr.1 = none) ∧
        (∀ q, q ∉ (movers prs).map (·.1) → q ∉ (movers prs).map (·.2) →
          SDict.lookup sd2 q = SDict.lookup sd q)) ∧
    (m.tree.hasDdp = false →
      loadRekeyFold m.tree m.tree.namedParameters sd = .ok sd ∧
      loadModelStateDict m sd info =
        (m.nativeLoadStateDict sd).map (fun m2 => (sd, m2))) := by
  constructor
  · intro hnd h1 h2 h3 h4 h5
    obtain ⟨sd2, hok, _, hmv1, hmv2, hmv3⟩ := movePairs_spec prs sd hnd h1 h2 h3 h4 h5
    have hfold : loadRekeyFold m.tree m.tree.namedParameters sd = .ok sd2 := by
      rw [loadRekeyFold_eq_movePairs m.tree m.tree.namedParameters sd prs hprs]
      exact hok
    exact ⟨sd2, hfold, loadModelStateDict_unfold m sd info sd2 hfold, hmv1, hmv2, hmv3⟩
  · intro hddp
    have hall := rekeyPairs_noDdp m.tree m.tree.namedParameters prs hddp hprs
    have hfold : loadRekeyFold m.tree m.tree.namedParameters sd = .ok sd := by
      rw [loadRekeyFold_eq_movePairs m.tree m.tree.namedParameters sd prs hprs]
      exact movePairs_skip_all prs sd hall
    exact ⟨hfold, loadModelStateDict_unfold m sd info sd hfold⟩

/-- Witness for C10: a DDP-wrapped model moves `l.w` to `module.l.w` and a
plain model leaves the dict unchanged. -/
theorem loadModelStateDict_mutates_dict_witness :
    (∃ sd2, loadRekeyFold (.ddp (.plain [("l", .plain [] [("w", { pid := 1 })])] []))
        (Module.namedParameters (.ddp (.plain [("l", .plain [] [("w", { pid := 1 })])] [])))
        [("l.w", 5)] = .ok sd2 ∧
      SDict.lookup sd2 "module.l.w" = some 5 ∧ SDict.lookup sd2 "l.w" = none) ∧
    loadRekeyFold (.plain [("l", .plain [] [("w", { pid := 1 })])] [])
      (Module.namedParameters (.plain [("l", .plain [] [("w", { pid := 1 })])] []))
      [("l.w", 5)] = .ok [("l.w", 5)] := by
  constructor
  · obtain ⟨sd2, hok, _, hmv1, hmv2, _⟩ :=
      (loadModelStateDict_mutates_dict
        { tree := .ddp (.plain [("l", .plain [] [("w", { pid := 1 })])] []),
          store := [("module.l.w", 0)] }
        [("l.w", 5)] {} [("l.w", "module.l.w")] (by decide)).1
        (by decide) (by decide) (by decide) (by decide) (by decide) (by decide)
    refine ⟨sd2, hok, ?_, ?_⟩
    · have := hmv1 ("l.w", "module.l.w") (by decide)
      rw [this]
      rfl
    · exact hmv2 ("l.w", "module.l.w") (by decide)
  · exact ((loadModelStateDict_mutates_dict
      { tree := .plain [("l", .plain [] [("w", { pid := 1 })])] [],
        store := [("l.w", 0)] }
      [("l.w", 5)] {} [("l.w", "l.w")] (by decide)).2 (by decide)).1

/-! ### Extraction-side rekey machinery -/

/-- The single canonical FQN of a native key, when `_get_fqns` resolves it
to a singleton (the `assert len(fqns) == 1` of `_get_model_state_dict`). -/
def canonKey (t : Module) (k : String) : Option String :=
  match getFqns t k with
  | .ok [f] => some f
  | _ => none

/-- Whether the rekey step of `_get_model_state_dict` accepts native
key `k`: it resolves to a single FQN that either equals `k` or passes the
DDP-divergence `verify`. -/
def rekeyOkB (t : Module) (k : String) : Bool :=
  match canonKey t k with
  | some c => c = k || verifyKeyFqn k c
  | none => false

/-- The (native key, canonical key) pairs of a model's store. -/
def modelPairs (m : DistModel) : List (String × String) :=
  (SDict.keys m.store).map (fun k => (k, (canonKey m.tree k).getD k))

theorem canonKey_inv (t : Module) (k : String) (c : String)
    (h : canonKey t k = some c) : getFqns t k = .ok [c] := by
  simp only [canonKey] at h
  split at h
  · rename_i f heq
    rw [heq]
    rw [Option.some.inj h]
  · exact absurd h (by simp)

theorem rekeyModelKeys_eq_movePairs (t : Module) (ks : List String)
    (sd : SDict.Dict String Val)
    (h : ∀ k ∈ ks, rekeyOkB t k = true) :
    rekeyModelKeys t ks sd =
      movePairs (ks.map (fun k => (k, (canonKey t k).getD k))) sd := by
  induction ks generalizing sd with
  | nil => rfl
  | cons k rest ih =>
    have hk := h k (List.mem_cons_self k rest)
    have hrest : ∀ k2 ∈ rest, rekeyOkB t k2 = true :=
      fun k2 h2 => h k2 (List.mem_cons.2 (Or.inr h2))
    simp only [rekeyOkB] at hk
    cases hc : canonKey t k with
    | none => rw [hc] at hk; simp at hk
    | some c =>
      rw [hc] at hk
      have hres := canonKey_inv t k c hc
      have hcd : (canonKey t k).getD k = c := by rw [hc]; rfl
      rw [List.map_cons, hcd]
      by_cases hck : c = k
      · have lhs : rekeyModelKeys t (k :: rest) sd = rekeyModelKeys t rest sd := by
          simp only [rekeyModelKeys, hres]
          rw [if_pos hck]
        have rhs : movePairs ((k, c) :: rest.map (fun k2 => (k2, (canonKey t k2).getD k2))) sd =
            movePairs (rest.map (fun k2 => (k2, (canonKey t k2).getD k2))) sd := by
          simp only [movePairs]
          rw [if_pos hck.symm]
        rw [lhs, rhs]
        exact ih sd hrest
      · have hv : verifyKeyFqn k c = true := by
          rcases Bool.or_eq_true_iff.1 hk with h1 | h1
          · exact absurd (by simpa using h1) hck
          · exact h1
        have hkc : ¬ k = c := fun hc2 => hck hc2.symm
        cases hp : SDict.pop sd k with
        | none =>
          have lhs : rekeyModelKeys t (k :: rest) sd = .error .keyError := by
            simp only [rekeyModelKeys, hres]
            rw [if_neg hck, if_pos hv, hp]
          have rhs : movePairs ((k, c) :: rest.map (fun k2 => (k2, (canonKey t k2).getD k2))) sd =
              .error .keyError := by
            simp only [movePairs]
            rw [if_neg hkc, hp]
          rw [lhs, rhs]
        | some pr =>
          obtain ⟨v, sd2⟩ := pr
          have lhs : rekeyModelKeys t (k :: rest) sd =
              rekeyModelKeys t rest (SDict.insertD sd2 c v) := by
            simp only [rekeyModelKeys, hres]
            rw [if_neg hck, if_pos hv, hp]
          have rhs : movePairs ((k, c) :: rest.map (fun k2 => (k2, (canonKey t k2).getD k2))) sd =
              movePairs (rest.map (fun k2 => (k2, (canonKey t k2).getD k2)))
                (SDict.insertD sd2 c v) := by
            simp only [movePairs]
            rw [if_neg hkc, hp]
          rw [lhs, rhs]
          exact ih (SDict.insertD sd2 c v) hrest

theorem modelPairs_map_fst (m : DistModel) :
    (modelPairs m).map (·.1) = SDict.keys m.store := by
  simp only [modelPairs, List.map_map]
  have : ((fun (x : String × String) => x.1) ∘ fun k => (k, (canonKey m.tree k).getD k)) =
      fun k => k := rfl
  rw [this, List.map_id']

theorem movers_sublist (prs : List (String × String)) :
    (movers prs).Sublist prs := List.filter_sublist prs

/-- The full characterization of `_get_model_state_dict` (with
`save_frozen_params` left at its default): it succeeds and produces the
store rekeyed by `canonKey`. -/
theorem getModelStateDict_spec (m : DistModel) (info : StateDictInfo)
    (hsf : info.save_frozen_params = true)
    (hnd : (SDict.keys m.store).Nodup)
    (hok : ∀ k ∈ SDict.keys m.store, rekeyOkB m.tree k = true)
    (htgt_nodup : ((movers (modelPairs m)).map (·.2)).Nodup)
    (htgt_fresh : ∀ pr ∈ movers (modelPairs m), pr.2 ∉ SDict.keys m.store)
    (hdisj : ∀ pr ∈ movers (modelPairs m), ∀ pr2 ∈ movers (modelPairs m),
      pr.2 ≠ pr2.1) :
    ∃ msd, getModelStateDict m info = .ok msd ∧ (SDict.keys msd).Nodup ∧
      (∀ k ∈ SDict.keys m.store,
        SDict.lookup msd ((canonKey m.tree k).getD k) = SDict.lookup m.store k) ∧
      (∀ q, q ∉ (SDict.keys m.store).map (fun k => (canonKey m.tree k).getD k) →
        SDict.lookup msd q = none) := by
  have hsrc_nodup : ((movers (modelPairs m)).map (·.1)).Nodup := by
    have h1 : ((movers (modelPairs m)).map (·.1)).Sublist
        ((modelPairs m).map (·.1)) := (movers_sublist (modelPairs m)).map _
    rw [modelPairs_map_fst] at h1
    exact hnd.sublist h1
  have hsrc_mem : ∀ pr ∈ movers (modelPairs m), pr.1 ∈ SDict.keys m.store := by
    intro pr hpr
    have : pr ∈ modelPairs m := (movers_sublist (modelPairs m)).mem hpr
    obtain ⟨k, hk, hke⟩ := List.mem_map.1 this
    rw [← hke]
    exact hk
  obtain ⟨sd2, hok2, hnd2, h1, h2, h3⟩ := movePairs_spec (modelPairs m) m.store
    hnd hsrc_nodup htgt_nodup hsrc_mem htgt_fresh hdisj
  have hrekey : rekeyModelKeys m.tree (SDict.keys m.store) m.store = .ok sd2 := by
    rw [rekeyModelKeys_eq_movePairs m.tree (SDict.keys m.store) m.store hok]
    exact hok2
  refine ⟨sd2, ?_, hnd2, ?_, ?_⟩
  · simp only [getModelStateDict, DistModel.nativeStateDict, hrekey]
    rw [if_pos hsf]
  · intro k hk
    by_cases hck : (canonKey m.tree k).getD k = k
    · rw [hck]
      apply h3
      · intro hc
        obtain ⟨pr, hpr, hpre⟩ := List.mem_map.1 hc
        have hprm : pr ∈ modelPairs m := (movers_sublist (modelPairs m)).mem hpr
        obtain ⟨k2, hk2, hk2e⟩ := List.mem_map.1 hprm
        have hmv : ¬ pr.1 = pr.2 := by
          have := List.mem_filter.1 hpr
          simpa using this.2
        rw [← hk2e] at hmv hpre
        simp only at hmv hpre
        subst hpre
        exact hmv hck.symm
      · intro hc
        obtain ⟨pr, hpr, hpre⟩ := List.mem_map.1 hc
        exact htgt_fresh pr hpr (hpre ▸ hk)
    · have hmem : (k, (canonKey m.tree k).getD k) ∈ movers (modelPairs m) := by
        apply List.mem_filter.2
        refine ⟨List.mem_map.2 ⟨k, hk, rfl⟩, ?_⟩
        simp only [decide_eq_true_eq]
        exact fun hc => hck hc.symm
      exact h1 (k, (canonKey m.tree k).getD k) hmem
  · intro q hq
    by_cases hqs : q ∈ (movers (modelPairs m)).map (·.1)
    · obtain ⟨pr, hpr, hpre⟩ := List.mem_map.1 hqs
      rw [← hpre]
      exact h2 pr hpr
    · have hqt : q ∉ (movers (modelPairs m)).map (·.2) := by
        intro hc
        obtain ⟨pr, hpr, hpre⟩ := List.mem_map.1 hc
        have hprm : pr ∈ modelPairs m := (movers_sublist (modelPairs m)).mem hpr
        obtain ⟨k2, hk2, hk2e⟩ := List.mem_map.1 hprm
        apply hq
        rw [← hpre, ← hk2e]
        exact List.mem_map.2 ⟨k2, hk2, rfl⟩
      rw [h3 q hqs hqt]
      apply SDict.lookup_eq_none_of_not_mem
      intro hc
      apply hq
      have : (canonKey m.tree q).getD q = q := by
        by_contra hne
        apply hqs
        apply List.mem_map.2
        refine ⟨(q, (canonKey m.tree q).getD q), ?_, rfl⟩
        apply List.mem_filter.2
        refine ⟨List.mem_map.2 ⟨q, hc, rfl⟩, by
          simp only [decide_eq_true_eq]
          exact fun hc2 => hne hc2.symm⟩
      rw [← this]
      exact List.mem_map.2 ⟨q, hc, rfl⟩

/-! ### C5: empty optimizers -/

theorem findFlatKey_ok (msd : SDict.Dict String Val)
    (h : ∀ kv ∈ msd, containsFlat kv.1 = false) : findFlatKey msd = .ok () := by
  induction msd with
  | nil => rfl
  | cons kv rest ih =>
    obtain ⟨k, v⟩ := kv
    simp only [findFlatKey]
    rw [if_neg (by
      have := h (k, v) (List.mem_cons_self _ _)
      simp only at this
      rw [this]
      simp)]
    exact ih (fun kv2 h2 => h kv2 (List.mem_cons.2 (Or.inr h2)))

theorem verifyStateDict_pass (msd : SDict.Dict String Val) (osd : OSD String)
    (info : StateDictInfo)
    (hroot : info.fsdpModules.isEmpty = false →
      info.fsdpModules.any Module.isRootFsdp = true)
    (hm : info.handle_model = true → msd.isEmpty = false)
    (ho : info.handle_optim = true → osd.state.isEmpty = false)
    (hflat : ∀ kv ∈ msd, containsFlat kv.1 = false) :
    verifyStateDict msd osd info = .ok () := by
  simp only [verifyStateDict]
  rw [if_neg (by
    rintro ⟨h1, h2⟩
    rw [hroot h1] at h2
    exact absurd h2 (by simp))]
  rw [if_neg (by
    rintro ⟨h1, h2⟩
    rw [hm h1] at h2
    exact absurd h2 (by simp))]
  rw [if_neg (by
    rintro ⟨h1, h2⟩
    rw [ho h1] at h2
    exact absurd h2 (by simp))]
  exact findFlatKey_ok msd hflat

/-- C5: with at least one stored parameter value, calling
`distributed_state_dict` with no optimizers and default flags succeeds,
returning a non-empty model state dict together with an optimizer state
dict whose `state` and `param_groups` are both empty (and the gradient map
untouched). -/
theorem distributedStateDict_empty_optims (m : DistModel) (g : Grads)
    (opts : DistributedStateDictOptions)
    (hsf : opts.save_frozen_params = true)
    (hpre : verifyOptionsPreOk m.tree opts = true)
    (hroot : m.tree.fsdpModules.isEmpty = false →
      m.tree.fsdpModules.any Module.isRootFsdp = true)
    (hne : m.store ≠ [])
    (hnd : (SDict.keys m.store).Nodup)
    (hok : ∀ k ∈ SDict.keys m.store, rekeyOkB m.tree k = true)
    (htgt_nodup : ((movers (modelPairs m)).map (·.2)).Nodup)
    (htgt_fresh : ∀ pr ∈ movers (modelPairs m), pr.2 ∉ SDict.keys m.store)
    (hdisj : ∀ pr ∈ movers (modelPairs m), ∀ pr2 ∈ movers (modelPairs m),
      pr.2 ≠ pr2.1)
    (hmarker : ∀ k ∈ SDict.keys m.store,
      containsFlat ((canonKey m.tree k).getD k) = false) :
    ∃ r, distributedStateDict m [] g false false opts = .ok r ∧
      r.msd ≠ [] ∧ r.osd.state = [] ∧ r.osd.pg = [] := by
  simp only [verifyOptionsPreOk, Bool.and_eq_true, Bool.or_eq_true] at hpre
  obtain ⟨hb, hty⟩ := hpre
  obtain ⟨pr0, hbm⟩ := isOkB_ok hb
  obtain ⟨pf, fp⟩ := pr0
  have hty2 : ¬ (m.tree.fsdpModules.isEmpty = false ∧
      opts.fsdp_state_dict_type = .localStateDict) := by
    rintro ⟨h1, h2⟩
    rcases hty with h3 | h3
    · rw [h1] at h3; exact Bool.false_ne_true h3
    · rw [h2] at h3; simp at h3
  set info : StateDictInfo :=
    { toDistributedStateDictOptions := opts
      paramFqns := pf
      fqnParam := fp
      handle_model := false || !false
      handle_optim := false || (!false && decide (([] : List Optim) ≠ []))
      fsdpModules := m.tree.fsdpModules } with hinfodef
  have hinfo : verifyOptions m.tree [] false false opts = .ok info := by
    simp only [verifyOptions, hbm]
    rw [if_neg hty2, if_neg (by simp), if_neg (by simp), if_neg (by simp)]
  have hsf2 : info.save_frozen_params = true := hsf
  obtain ⟨msd, hmsd, hnd2, hlk, hcomplete⟩ := getModelStateDict_spec m info hsf2
    hnd hok htgt_nodup htgt_fresh hdisj
  have hosd : getOptimStateDict m [] g info = .ok ({ state := [], pg := [] }, [], g) := rfl
  have hmsdne : msd ≠ [] := by
    cases hstore : m.store with
    | nil => exact absurd hstore hne
    | cons kv rest =>
      intro hmsdnil
      have hk : kv.1 ∈ SDict.keys m.store := by rw [hstore]; exact List.mem_cons_self _ _
      have := hlk kv.1 hk
      rw [hmsdnil] at this
      have hsome : (SDict.lookup m.store kv.1).isSome :=
        (SDict.lookup_isSome_iff_mem_keys m.store kv.1).2 hk
      rw [← this] at hsome
      exact absurd hsome (by simp)
  have hflat : ∀ kv ∈ msd, containsFlat kv.1 = false := by
    intro kv hkv
    have hkmem : kv.1 ∈ SDict.keys msd := List.mem_map.2 ⟨kv, hkv, rfl⟩
    have hsome : (SDict.lookup msd kv.1).isSome :=
      (SDict.lookup_isSome_iff_mem_keys msd kv.1).2 hkmem
    by_cases himg : kv.1 ∈ (SDict.keys m.store).map
        (fun k => (canonKey m.tree k).getD k)
    · obtain ⟨k, hk, hke⟩ := List.mem_map.1 himg
      rw [← hke]
      exact hmarker k hk
    · rw [hcomplete kv.1 himg] at hsome
      exact absurd hsome (by simp)
  have hverify : verifyStateDict msd { state := [], pg := [] } info = .ok () := by
    apply verifyStateDict_pass
    · exact hroot
    · intro _
      cases hmsdc : msd with
      | nil => exact absurd hmsdc hmsdne
      | cons a b => rfl
    · intro hcontra
      have hfalse : info.handle_optim = false := rfl
      rw [hfalse] at hcontra
      exact absurd hcontra (by simp)
    · exact hflat
  refine ⟨{ msd := msd, osd := { state := [], pg := [] }, optims := [], grads := g },
    ?_, hmsdne, rfl, rfl⟩
  simp only [distributedStateDict, hinfo, hmsd, hosd, hverify]

/-- Witness for C5 at a concrete one-parameter plain model. -/
theorem distributedStateDict_empty_optims_witness :
    ∃ r, distributedStateDict
        { tree := .plain [] [("w", { pid := 1 })], store := [("w", 7)] }
        [] [] false false {} = .ok r ∧
      r.msd ≠ [] ∧ r.osd.state = [] ∧ r.osd.pg = [] :=
  distributedStateDict_empty_optims
    { tree := .plain [] [("w", { pid := 1 })], store := [("w", 7)] } [] {}
    (by decide) (by decide) (by decide) (by decide) (by decide) (by decide)
    (by decide) (by decide) (by decide) (by decide)


/-! ### Round-trip infrastructure: dictionary and list helpers -/

namespace SDict

theorem lookup_append_left {κ α : Type} [DecidableEq κ] {d1 : Dict κ α} (d2 : Dict κ α)
    {k : κ} {v : α} (h : lookup d1 k = some v) : lookup (d1 ++ d2) k = some v := by
  induction d1 with
  | nil => simp [lookup] at h
  | cons p rest ih =>
    obtain ⟨k2, v2⟩ := p
    rw [List.cons_append]
    rw [lookup_cons] at h ⊢
    by_cases hk : k2 = k
    · rw [if_pos hk] at h ⊢; exact h
    · rw [if_neg hk] at h ⊢; exact ih h

theorem lookup_append_right {κ α : Type} [DecidableEq κ] {d1 : Dict κ α} (d2 : Dict κ α)
    {k : κ} (h : lookup d1 k = none) : lookup (d1 ++ d2) k = lookup d2 k := by
  induction d1 with
  | nil => rfl
  | cons p rest ih =>
    obtain ⟨k2, v2⟩ := p
    rw [List.cons_append]
    rw [lookup_cons] at h ⊢
    by_cases hk : k2 = k
    · rw [if_pos hk] at h; exact absurd h (by simp)
    · rw [if_neg hk] at h ⊢; exact ih h

theorem lookup_eq_of_mem_nodup {κ α : Type} [DecidableEq κ] {d : Dict κ α}
    (hnd : (keys d).Nodup) {kv : κ × α} (h : kv ∈ d) : lookup d kv.1 = some kv.2 := by
  induction d with
  | nil => exact absurd h (List.not_mem_nil kv)
  | cons p rest ih =>
    obtain ⟨k2, v2⟩ := p
    rw [keys_cons, List.nodup_cons] at hnd
    rcases List.mem_cons.1 h with h1 | h1
    · rw [h1]; rw [lookup_cons, if_pos rfl]
    · rw [lookup_cons]
      by_cases hk : k2 = kv.1
      · exfalso
        exact hnd.1 (hk ▸ List.mem_map.2 ⟨kv, h1, rfl⟩)
      · rw [if_neg hk]
        exact ih hnd.2 h1

theorem equivb_of_lookup {κ α : Type} [DecidableEq κ] [DecidableEq α]
    {d1 d2 : Dict κ α} (h : ∀ q, lookup d1 q = lookup d2 q) : equivb d1 d2 = true := by
  rw [equivb, List.all_eq_true]
  intro k _
  exact decide_eq_true (h k)

theorem insertD_not_mem {κ α : Type} [DecidableEq κ] {d : Dict κ α} {k : κ} (v : α)
    (h : k ∉ keys d) : insertD d k v = d ++ [(k, v)] := by
  induction d with
  | nil => rfl
  | cons p rest ih =>
    obtain ⟨k2, v2⟩ := p
    rw [keys_cons, List.mem_cons] at h
    simp only [insertD]
    rw [if_neg (fun hc => h (Or.inl hc.symm)), List.cons_append,
      ih (fun hc => h (Or.inr hc))]

theorem insertD_fold_app {κ α : Type} [DecidableEq κ] (xs : List (κ × α))
    (acc : Dict κ α) (hnd : (keys xs).Nodup)
    (hdisj : ∀ kv ∈ xs, kv.1 ∉ keys acc) :
    xs.foldl (fun a kv => insertD a kv.1 kv.2) acc = acc ++ xs := by
  induction xs generalizing acc with
  | nil => simp
  | cons kv rest ih =>
    obtain ⟨k, v⟩ := kv
    rw [keys_cons, List.nodup_cons] at hnd
    have h1 : k ∉ keys acc := hdisj (k, v) (List.mem_cons_self _ _)
    show rest.foldl (fun a kv => insertD a kv.1 kv.2) (insertD acc k v) = _
    rw [insertD_not_mem v h1]
    have hkeys : keys (acc ++ [(k, v)]) = keys acc ++ [k] := by
      show (acc ++ [(k, v)]).map (·.1) = _
      rw [List.map_append]
      rfl
    rw [ih (acc ++ [(k, v)]) hnd.2 (by
      intro kv2 h2 hc
      rw [hkeys] at hc
      rcases List.mem_append.1 hc with h3 | h3
      · exact hdisj kv2 (List.mem_cons.2 (Or.inr h2)) h3
      · exact hnd.1 (by
          rw [← List.mem_singleton.1 h3]
          exact List.mem_map.2 ⟨kv2, h2, rfl⟩))]
    rw [List.append_assoc]
    rfl

end SDict

theorem mapM_ok {ε α β : Type} (l : List α) (f : α → Except ε β) (g : α → β)
    (h : ∀ x ∈ l, f x = .ok (g x)) : l.mapM f = .ok (l.map g) := by
  induction l with
  | nil => rfl
  | cons x rest ih =>
    rw [List.mapM_cons, h x (List.mem_cons_self x rest),
      ih (fun y hy => h y (List.mem_cons.2 (Or.inr hy)))]
    rfl

theorem filterMap_ite {α β : Type} (l : List α) (p : α → Bool) (g : α → β) :
    l.filterMap (fun x => if p x then some (g x) else none) = (l.filter p).map g := by
  induction l with
  | nil => rfl
  | cons x rest ih =>
    rw [List.filterMap_cons, List.filter_cons]
    by_cases hp : p x = true
    · rw [if_pos hp, hp, if_pos rfl, List.map_cons, ih]
    · have hp2 : p x = false := by
        cases hx : p x with
        | true => exact absurd hx hp
        | false => rfl
      rw [if_neg hp, hp2]
      simp only [Bool.false_eq_true, if_false]
      exact ih

theorem sublist_flatten_map {α β : Type} {l1 l2 : List α} (F : α → List β)
    (h : l1.Sublist l2) : ((l1.map F).flatten).Sublist ((l2.map F).flatten) := by
  induction h with
  | slnil => exact List.Sublist.refl _
  | cons x _ ih =>
    rw [List.map_cons, List.flatten_cons]
    exact ih.trans (List.sublist_append_right _ _)
  | cons₂ x _ ih =>
    rw [List.map_cons, List.map_cons, List.flatten_cons, List.flatten_cons]
    exact ih.append_left _

theorem reduceOption_map_eq {α β : Type} (l : List α) (f : α → Option β) :
    (l.map f).reduceOption = l.filterMap f := by
  induction l with
  | nil => rfl
  | cons x rest ih =>
    rw [List.map_cons]
    cases hx : f x with
    | none =>
      rw [List.reduceOption_cons_of_none, List.filterMap_cons, hx]
      exact ih
    | some b =>
      rw [List.reduceOption_cons_of_some, List.filterMap_cons, hx, ih]

/-! ### `freshState`: the optimizer state `_init_optim_state` materializes -/

/-- The lazily initialized optimizer state: one fresh entry per trainable
parameter, keyed by positional id. -/
def freshState (o : Optim) : List (Nat × Val) :=
  o.allParams.enum.filterMap (fun ip =>
    if ip.2.requiresGrad then some (ip.1, stepInitVal ip.1) else none)

theorem freshState_eq (o : Optim) :
    freshState o = (o.allParams.enum.filter (fun ip => ip.2.requiresGrad)).map
      (fun ip => (ip.1, stepInitVal ip.1)) := by
  rw [freshState, filterMap_ite]

theorem freshState_fst_sublist (o : Optim) :
    ((freshState o).map (·.1)).Sublist (List.range o.allParams.length) := by
  rw [freshState_eq, List.map_map]
  have h1 : ((o.allParams.enum.filter (fun ip => ip.2.requiresGrad)).map
      ((·.1) ∘ (fun ip : Nat × Param => (ip.1, stepInitVal ip.1)))).Sublist
      (o.allParams.enum.map (·.1)) := by
    have h2 : ((·.1) ∘ (fun ip : Nat × Param => (ip.1, stepInitVal ip.1))) =
        (fun ip : Nat × Param => ip.1) := rfl
    rw [h2]
    exact (List.filter_sublist _).map _
  rw [List.enum_map_fst] at h1
  exact h1

theorem fakeStep_fresh (o : Optim) (g2 : Grads)
    (h : ∀ p ∈ o.allParams, SDict.lookup g2 p.pid =
      if p.requiresGrad then some 0 else none) :
    o.fakeStep g2 = { o with state := freshState o } := by
  show Optim.mk o.paramGroups _ = Optim.mk o.paramGroups (freshState o)
  congr 1
  rw [freshState]
  apply List.filterMap_congr
  intro ip hip
  have hmem : ip.2 ∈ o.allParams := by
    have h2 := (List.mem_enumFrom hip).2.2
    rw [h2]
    exact List.getElem_mem _
  have hl := h ip.2 hmem
  cases hr : ip.2.requiresGrad with
  | true => rw [hl, if_pos hr]; rfl
  | false => rw [hl, if_neg (by rw [hr]; simp)]; rfl

theorem initOptimState_noop (o : Optim) (g : Grads) (h : o.state ≠ []) :
    initOptimState o g = .ok (o, g, []) := by
  have h2 : o.state.isEmpty = false := by
    cases hs : o.state with
    | nil => exact absurd hs h
    | cons a l => rfl
  simp only [initOptimState, h2]
  rfl

theorem initOptimState_fresh (o : Optim) (hst : o.state = [])
    (hnodup : (o.allParams.map (·.pid)).Nodup) :
    ∃ tr, initOptimState o [] = .ok ({ o with state := freshState o }, [], tr) := by
  obtain ⟨g2, hok, _, hin, hmem⟩ := checkAndZeroGrads_ok o.allParams []
    (fun p _ => rfl) hnodup
  have hempty : o.state.isEmpty = true := by rw [hst]; rfl
  have hin2 : ∀ p ∈ o.allParams, SDict.lookup g2 p.pid =
      if p.requiresGrad then some 0 else none :=
    fun p hp => hin p hp
  have hgz : (o.fakeStep g2).zeroGrad g2 = [] := by
    rw [Optim.zeroGrad]
    rw [List.filter_eq_nil_iff]
    intro kv hkv
    rcases hmem kv hkv with h1 | h1
    · obtain ⟨p, hp, hpe⟩ := List.mem_map.1 h1
      have : (o.fakeStep g2).allParams.any (fun q => q.pid == kv.1) = true := by
        apply List.any_eq_true.2
        exact ⟨p, hp, by rw [hpe]; simp⟩
      simp [this]
    · exact absurd h1 (List.not_mem_nil kv)
  refine ⟨(o.allParams.filter (·.requiresGrad)).map (fun p => Action.setZeroGrad p.pid)
    ++ [.stepAction, .clearGrads], ?_⟩
  simp only [initOptimState, hempty]
  rw [hok]
  show Except.ok (o.fakeStep g2, (o.fakeStep g2).zeroGrad g2,
    ((o.allParams.filter (·.requiresGrad)).map (fun p => Action.setZeroGrad p.pid))
      ++ [.stepAction, .clearGrads]) = _
  rw [fakeStep_fresh o g2 hin2] at hgz ⊢
  rw [hgz]

theorem initOptimState_uniform (o : Optim)
    (hst : o.state = [] ∨ o.state = freshState o)
    (hnodup : (o.allParams.map (·.pid)).Nodup) :
    ∃ tr, initOptimState o [] = .ok ({ o with state := freshState o }, [], tr) := by
  rcases hst with h | h
  · exact initOptimState_fresh o h hnodup
  · by_cases hne : o.state = []
    · exact initOptimState_fresh o hne hnodup
    · refine ⟨[], ?_⟩
      rw [initOptimState_noop o [] hne]
      have : { o with state := freshState o } = o := by
        show Optim.mk o.paramGroups (freshState o) = o
        rw [← h]
      rw [this]

/-! ### Canonical per-position FQNs and the canonical optimizer state dict -/

/-- The canonical FQN set of the parameter at positional id `i`, as a total
function (the error case is irrelevant wherever resolution succeeds). -/
def optimPosFqns (t : Module) (o : Optim) (i : Nat) : List String :=
  match posFqns t o i with
  | .ok fs => fs
  | .error _ => []

/-- The canonicalized state section produced for a freshly initialized
optimizer: each trainable position's entry fans out over its FQN set. -/
def canonState (t : Module) (o : Optim) : List (String × Val) :=
  ((freshState o).map (fun kv => (optimPosFqns t o kv.1).map (fun f => (f, kv.2)))).flatten

/-- The canonicalized `param_groups` section: each group's positional ids
fan out over their FQN sets, hyperparameters preserved. -/
def canonPg (t : Module) (o : Optim) : List (OsdGroup String) :=
  (assignPos 0 o.paramGroups).map (fun g =>
    { params := (g.params.map (optimPosFqns t o)).flatten, lr := g.lr })

/-- All canonical FQNs of the optimizer, position by position. -/
def canonFqnsAll (t : Module) (o : Optim) : List String :=
  ((List.range o.allParams.length).map (optimPosFqns t o)).flatten

/-- The merged canonical optimizer state over a list of optimizers. -/
def mergedState (t : Module) (optims : List Optim) : List (String × Val) :=
  (optims.map (fun o => canonState t o)).flatten

/-- The merged canonical `param_groups` over a list of optimizers. -/
def mergedPg (t : Module) (optims : List Optim) : List (OsdGroup String) :=
  (optims.map (fun o => canonPg t o)).flatten

/-- All canonical FQNs of all optimizers. -/
def allCanonFqns (t : Module) (optims : List Optim) : List String :=
  (optims.map (fun o => canonFqnsAll t o)).flatten

theorem posFqns_state (t : Module) (o : Optim) (s : List (Nat × Val)) (i : Nat) :
    posFqns t { o with state := s } i = posFqns t o i := rfl

theorem hpos_lt (t : Module) (o : Optim)
    (hpos : ∀ ip ∈ o.allParams.enum, posFqns t o ip.1 = .ok (optimPosFqns t o ip.1))
    (i : Nat) (hi : i < o.allParams.length) :
    posFqns t o i = .ok (optimPosFqns t o i) := by
  cases hg : o.allParams.get? i with
  | none =>
    rw [List.get?_eq_none] at hg
    omega
  | some p =>
    apply hpos (i, p)
    apply List.mk_mem_enum_iff_getElem?.2
    rw [← List.get?_eq_getElem?]
    exact hg

theorem freshState_mem_lt (o : Optim) (kv : Nat × Val) (hkv : kv ∈ freshState o) :
    kv.1 < o.allParams.length := by
  have h1 : kv.1 ∈ (freshState o).map (·.1) := List.mem_map_of_mem _ hkv
  have h2 := (freshState_fst_sublist o).mem h1
  exact List.mem_range.1 h2

theorem range'_append_one (s m n : Nat) :
    List.range' s m ++ List.range' (s + m) n = List.range' s (m + n) := by
  have h := List.range'_append s m n 1
  rw [Nat.one_mul] at h
  rw [h, Nat.add_comm n m]

theorem assignPos_flatten (pgs : List ParamGroup) (n : Nat) :
    ((assignPos n pgs).map (·.params)).flatten =
      List.range' n ((pgs.map (·.params.length)).sum) := by
  induction pgs generalizing n with
  | nil => rfl
  | cons gr rest ih =>
    show List.range' n gr.params.length ++
      ((assignPos (n + gr.params.length) rest).map (·.params)).flatten = _
    rw [ih (n + gr.params.length), List.map_cons, List.sum_cons]
    exact range'_append_one n gr.params.length ((rest.map (·.params.length)).sum)

theorem allParams_length (o : Optim) :
    o.allParams.length = (o.paramGroups.map (·.params.length)).sum := by
  rw [Optim.allParams, List.length_flatten, List.map_map]
  rfl

theorem assignPos_length (pgs : List ParamGroup) (n : Nat) :
    (assignPos n pgs).length = pgs.length := by
  induction pgs generalizing n with
  | nil => rfl
  | cons gr rest ih =>
    show (assignPos (n + gr.params.length) rest).length + 1 = _
    rw [ih]
    rfl

theorem assignPos_mem_lt (o : Optim) (g : OsdGroup Nat) (i : Nat)
    (hg : g ∈ assignPos 0 o.paramGroups) (hi : i ∈ g.params) :
    i < o.allParams.length := by
  have h1 : i ∈ ((assignPos 0 o.paramGroups).map (·.params)).flatten :=
    List.mem_flatten.2 ⟨g.params, List.mem_map_of_mem _ hg, hi⟩
  rw [assignPos_flatten] at h1
  have h2 := List.mem_range'_1.1 h1
  rw [allParams_length]
  omega

theorem canonState_keys (t : Module) (o : Optim) :
    SDict.keys (canonState t o) =
      (((freshState o).map (·.1)).map (optimPosFqns t o)).flatten := by
  show (canonState t o).map (·.1) = _
  rw [canonState, List.map_flatten, List.map_map, List.map_map]
  congr 1
  apply List.map_congr_left
  intro kv _
  show ((optimPosFqns t o kv.1).map (fun f => (f, kv.2))).map (·.1) = _
  rw [List.map_map]
  have h : ((·.1) ∘ (fun f : String => (f, kv.2))) = fun (f : String) => f := rfl
  rw [h, List.map_id']
  rfl

theorem canonState_keys_sublist (t : Module) (o : Optim) :
    (SDict.keys (canonState t o)).Sublist (canonFqnsAll t o) := by
  rw [canonState_keys, canonFqnsAll]
  exact sublist_flatten_map _ (freshState_fst_sublist o)

theorem mergedState_keys (t : Module) (optims : List Optim) :
    SDict.keys (mergedState t optims) =
      (optims.map (fun o => SDict.keys (canonState t o))).flatten := by
  show (mergedState t optims).map (·.1) = _
  rw [mergedState, List.map_flatten, List.map_map]
  rfl

theorem mergedState_keys_sublist (t : Module) (optims : List Optim) :
    (SDict.keys (mergedState t optims)).Sublist (allCanonFqns t optims) := by
  rw [mergedState_keys, allCanonFqns]
  induction optims with
  | nil => exact List.Sublist.refl _
  | cons o rest ih =>
    rw [List.map_cons, List.map_cons, List.flatten_cons, List.flatten_cons]
    exact (canonState_keys_sublist t o).append ih

/-- The dictionary-merge fold of `_get_optim_state_dict` appends when all
incoming keys are fresh. -/
theorem fsdpOptimStateDict_ok (t : Module) (o2 : Optim) (osd : OSD Nat)
    (F : Nat → List String)
    (hstate : ∀ kv ∈ osd.state, posFqns t o2 kv.1 = .ok (F kv.1))
    (hpg : ∀ g ∈ osd.pg, ∀ i ∈ g.params, posFqns t o2 i = .ok (F i)) :
    fsdpOptimStateDict t o2 osd = .ok
      { state := (osd.state.map (fun kv => (F kv.1).map (fun f => (f, kv.2)))).flatten,
        pg := osd.pg.map (fun g => { params := (g.params.map F).flatten, lr := g.lr }) } := by
  simp only [fsdpOptimStateDict]
  rw [mapM_ok osd.state _ (fun kv => (F kv.1).map (fun f => (f, kv.2))) (by
    intro kv hkv
    show (posFqns t o2 kv.1).bind _ = _
    rw [hstate kv hkv]
    rfl)]
  rw [mapM_ok osd.pg _ (fun g => ({ params := (g.params.map F).flatten, lr := g.lr } :
      OsdGroup String)) (by
    intro g hg
    show (g.params.mapM (posFqns t o2)).bind _ = _
    rw [mapM_ok g.params _ F (fun i hi => hpg g hg i hi)]
    rfl)]
  rfl

theorem fsdpOptimStateDict_canon (t : Module) (o : Optim)
    (hpos : ∀ ip ∈ o.allParams.enum, posFqns t o ip.1 = .ok (optimPosFqns t o ip.1)) :
    fsdpOptimStateDict t { o with state := freshState o }
      (Optim.nativeStateDict { o with state := freshState o }) =
      .ok { state := canonState t o, pg := canonPg t o } := by
  have hosd : Optim.nativeStateDict { o with state := freshState o } =
      { state := freshState o, pg := assignPos 0 o.paramGroups } := rfl
  rw [hosd]
  rw [fsdpOptimStateDict_ok t _ _ (optimPosFqns t o) (by
    intro kv hkv
    rw [posFqns_state]
    exact hpos_lt t o hpos kv.1 (freshState_mem_lt o kv hkv)) (by
    intro g hg i hi
    rw [posFqns_state]
    exact hpos_lt t o hpos i (assignPos_mem_lt o g i hg hi))]
  rfl

/-! ### The extraction fold over optimizers, in canonical form -/

theorem keys_append {κ α : Type} (d1 d2 : SDict.Dict κ α) :
    SDict.keys (d1 ++ d2) = SDict.keys d1 ++ SDict.keys d2 := by
  show (d1 ++ d2).map (·.1) = _
  rw [List.map_append]
  rfl

theorem mergedState_cons (t : Module) (o : Optim) (rest : List Optim) :
    mergedState t (o :: rest) = canonState t o ++ mergedState t rest := rfl

theorem mergedPg_cons (t : Module) (o : Optim) (rest : List Optim) :
    mergedPg t (o :: rest) = canonPg t o ++ mergedPg t rest := rfl

theorem getOptimFold_canon (m : DistModel) (info : StateDictInfo) (os : List Optim)
    (acc : OSD String) (done : List Optim)
    (hst : ∀ o ∈ os, o.state = [] ∨ o.state = freshState o)
    (hnd : ∀ o ∈ os, (o.allParams.map (·.pid)).Nodup)
    (hcanon : ∀ o ∈ os, (if info.fsdpModules.isEmpty = false
        then fsdpOptimStateDict m.tree { o with state := freshState o }
          (Optim.nativeStateDict { o with state := freshState o })
        else noFsdpConvert m.tree { o with state := freshState o }
          (Optim.nativeStateDict { o with state := freshState o }))
      = .ok { state := canonState m.tree o, pg := canonPg m.tree o })
    (hkeys : (SDict.keys (mergedState m.tree os)).Nodup)
    (hfresh : ∀ k ∈ SDict.keys (mergedState m.tree os), k ∉ SDict.keys acc.state) :
    getOptimFold m info os [] acc done = .ok
      ({ state := acc.state ++ mergedState m.tree os,
         pg := acc.pg ++ mergedPg m.tree os },
       done.reverse ++ os.map (fun o => { o with state := freshState o }), []) := by
  induction os generalizing acc done with
  | nil =>
    show Except.ok (acc, done.reverse, ([] : Grads)) = _
    rw [show mergedState m.tree [] = [] from rfl, show mergedPg m.tree [] = [] from rfl,
      List.append_nil, List.append_nil, List.map_nil, List.append_nil]
  | cons o rest ih =>
    have hmem : o ∈ o :: rest := List.mem_cons_self o rest
    obtain ⟨tr, hinit⟩ := initOptimState_uniform o (hst o hmem) (hnd o hmem)
    have hcanonEq := hcanon o hmem
    rw [mergedState_cons, keys_append] at hkeys hfresh
    have hknodup := List.nodup_append.1 hkeys
    have hfold : (canonState m.tree o).foldl
        (fun a kv => SDict.insertD a kv.1 kv.2) acc.state =
        acc.state ++ canonState m.tree o := by
      apply SDict.insertD_fold_app _ _ hknodup.1
      intro kv hkv
      exact hfresh kv.1 (List.mem_append.2 (Or.inl (List.mem_map_of_mem _ hkv)))
    have hrec := ih
      { state := acc.state ++ canonState m.tree o, pg := acc.pg ++ canonPg m.tree o }
      ({ o with state := freshState o } :: done)
      (fun o2 h2 => hst o2 (List.mem_cons.2 (Or.inr h2)))
      (fun o2 h2 => hnd o2 (List.mem_cons.2 (Or.inr h2)))
      (fun o2 h2 => hcanon o2 (List.mem_cons.2 (Or.inr h2)))
      hknodup.2.1
      (by
        intro k hk
        show k ∉ SDict.keys (acc.state ++ canonState m.tree o)
        rw [keys_append, List.mem_append]
        rintro (hc | hc)
        · exact hfresh k (List.mem_append.2 (Or.inr hk)) hc
        · exact hknodup.2.2 hc hk)
    have hrec2 : getOptimFold m info rest []
        { state := acc.state ++ canonState m.tree o, pg := acc.pg ++ canonPg m.tree o }
        ({ o with state := freshState o } :: done) = .ok
        ({ state := acc.state ++ (canonState m.tree o ++ mergedState m.tree rest),
           pg := acc.pg ++ (canonPg m.tree o ++ mergedPg m.tree rest) },
         done.reverse ++ ({ o with state := freshState o } :: rest.map
           (fun o2 => { o2 with state := freshState o2 })), []) := by
      rw [hrec]
      rw [List.append_assoc, List.append_assoc, List.reverse_cons, List.append_assoc]
      rfl
    rw [← mergedState_cons, ← mergedPg_cons] at hrec2
    simp only [getOptimFold, hinit, hcanonEq, hfold]
    exact hrec2

/-! ### The no-FSDP positional-id to FQN remapping, in canonical form -/

/-- The single FQN a native key resolves to when resolution yields a
singleton (the shape the no-FSDP optimizer path asserts). -/
def fqn1 (t : Module) (k : String) : String :=
  match getFqns t k with
  | .ok [f] => f
  | _ => ""

theorem find?_eq_head?_filter {α : Type} (l : List α) (p : α → Bool) :
    l.find? p = (l.filter p).head? := by
  induction l with
  | nil => rfl
  | cons x rest ih =>
    cases hp : p x with
    | true =>
      rw [List.find?_cons_of_pos _ hp, List.filter_cons_of_pos hp]
      rfl
    | false =>
      rw [List.find?_cons_of_neg _ (by simp [hp]), List.filter_cons_of_neg (by simp [hp])]
      exact ih

theorem enumFrom_filter_single {α : Type} [DecidableEq α] (l : List α) (n i : Nat)
    (p : α) (hnd : l.Nodup) (hg : l.get? i = some p) :
    (List.enumFrom n l).filter (fun ip => ip.2 == p) = [(n + i, p)] := by
  induction l generalizing n i with
  | nil => simp [List.get?] at hg
  | cons x rest ih =>
    rw [List.nodup_cons] at hnd
    cases i with
    | zero =>
      have hx : x = p := by simpa [List.get?] using hg
      subst hx
      show ((n, x) :: List.enumFrom (n + 1) rest).filter (fun ip => ip.2 == x) = [(n + 0, x)]
      rw [List.filter_cons_of_pos (by simp)]
      have hrest : (List.enumFrom (n + 1) rest).filter (fun ip => ip.2 == x) = [] := by
        rw [List.filter_eq_nil_iff]
        intro ip hip hc
        have h2 := (List.mem_enumFrom hip).2.2
        have h3 : ip.2 ∈ rest := by
          rw [h2]
          exact List.getElem_mem _
        rw [show ip.2 = x from by simpa using hc] at h3
        exact hnd.1 h3
      rw [hrest, Nat.add_zero]
    | succ j =>
      have hgj : rest.get? j = some p := by simpa [List.get?] using hg
      have hpmem : p ∈ rest := List.get?_mem hgj
      show ((n, x) :: List.enumFrom (n + 1) rest).filter (fun ip => ip.2 == p) = [(n + (j + 1), p)]
      rw [List.filter_cons_of_neg (by
        simp only [beq_iff_eq]
        intro hc
        exact hnd.1 (hc ▸ hpmem))]
      rw [ih (n + 1) j hnd.2 hgj]
      rw [show n + 1 + j = n + (j + 1) from by omega]

theorem paramPid_of_get (params : List Param) (i : Nat) (p : Param)
    (hnd : params.Nodup) (hg : params.get? i = some p) :
    paramPid params p = some i := by
  rw [paramPid]
  rw [show params.enum = List.enumFrom 0 params from rfl]
  rw [enumFrom_filter_single params 0 i p hnd hg]
  rw [show (0 : Nat) + i = i from by omega]
  rfl

theorem paramPid_mem (params : List Param) (q : Param) (i : Nat)
    (h : paramPid params q = some i) : params.get? i = some q := by
  rw [paramPid] at h
  have h2 := List.mem_of_getLast?_eq_some h
  obtain ⟨ip, hip, hfst⟩ := List.mem_map.1 h2
  have hfilter := List.mem_filter.1 hip
  have hq : ip.2 = q := by simpa using hfilter.2
  have hget : params[ip.1]? = some ip.2 := List.mk_mem_enum_iff_getElem?.1 hfilter.1
  rw [hfst, hq] at hget
  rw [List.get?_eq_getElem?]
  exact hget

theorem buildFqnPid_ok (t : Module) (params : List Param) (l : List (String × Param))
    (pf0 : SDict.Dict Nat String) (fp0 : SDict.Dict String Nat)
    (h1 : ∀ kp ∈ l, getFqns t kp.1 = .ok [fqn1 t kp.1]) :
    ∃ p2f f2p, buildFqnPid t params l pf0 fp0 = .ok (p2f, f2p) ∧
      ∀ pid, SDict.lookup p2f pid =
        (match l.reverse.find? (fun kp => paramPid params kp.2 == some pid) with
         | some kp => some (fqn1 t kp.1)
         | none => SDict.lookup pf0 pid) := by
  induction l generalizing pf0 fp0 with
  | nil => exact ⟨pf0, fp0, rfl, fun pid => rfl⟩
  | cons kp rest ih =>
    obtain ⟨key, p⟩ := kp
    have hk := h1 (key, p) (List.mem_cons_self _ _)
    have hrest : ∀ kp2 ∈ rest, getFqns t kp2.1 = .ok [fqn1 t kp2.1] :=
      fun kp2 h2 => h1 kp2 (List.mem_cons.2 (Or.inr h2))
    cases hpp : paramPid params p with
    | none =>
      obtain ⟨p2f, f2p, hok, hlk⟩ := ih pf0 fp0 hrest
      refine ⟨p2f, f2p, ?_, ?_⟩
      · simp only [buildFqnPid, hk, hpp]
        exact hok
      · intro pid
        rw [hlk pid, List.reverse_cons, List.find?_append]
        cases hf : rest.reverse.find? (fun kp2 => paramPid params kp2.2 == some pid) with
        | some kp2 => rfl
        | none =>
          rw [List.find?_cons_of_neg _ (by simp [hpp]), List.find?_nil]
          rfl
    | some j =>
      obtain ⟨p2f, f2p, hok, hlk⟩ := ih (SDict.insertD pf0 j (fqn1 t key))
        (SDict.insertD fp0 (fqn1 t key) j) hrest
      refine ⟨p2f, f2p, ?_, ?_⟩
      · simp only [buildFqnPid, hk, hpp]
        exact hok
      · intro pid
        rw [hlk pid, List.reverse_cons, List.find?_append]
        cases hf : rest.reverse.find? (fun kp2 => paramPid params kp2.2 == some pid) with
        | some kp2 => rfl
        | none =>
          by_cases hpj : pid = j
          · subst hpj
            rw [List.find?_cons_of_pos _ (by
              simp only [hpp]
              simp)]
            rw [SDict.lookup_insertD_self]
            rfl
          · rw [List.find?_cons_of_neg _ (by
              simp only [hpp]
              simp
              exact fun hc => hpj hc.symm), List.find?_nil]
            rw [SDict.lookup_insertD_ne _ _ _ _ hpj]
            rfl

theorem flatten_singletons {α β : Type} (l : List α) (g : α → β) :
    (l.map (fun x => [g x])).flatten = l.map g := by
  induction l with
  | nil => rfl
  | cons x rest ih =>
    rw [List.map_cons, List.flatten_cons, ih]
    rfl

theorem mapLookupAll_ok (p2f : SDict.Dict Nat String) (pids : List Nat) (h : Nat → String)
    (hl : ∀ i ∈ pids, SDict.lookup p2f i = some (h i)) :
    mapLookupAll p2f pids = .ok (pids.map h) := by
  induction pids with
  | nil => rfl
  | cons i rest ih =>
    simp only [mapLookupAll, hl i (List.mem_cons_self _ _),
      ih (fun j hj => hl j (List.mem_cons.2 (Or.inr hj)))]
    rfl

theorem convertStateKeys_lit (p2f : SDict.Dict Nat String) (st : List (Nat × Val))
    (acc : SDict.Dict String Val) (h : Nat → String)
    (hl : ∀ kv ∈ st, SDict.lookup p2f kv.1 = some (h kv.1))
    (hnd : (st.map (fun kv => h kv.1)).Nodup)
    (hfr : ∀ kv ∈ st, h kv.1 ∉ SDict.keys acc) :
    convertStateKeys p2f st acc = .ok (acc ++ st.map (fun kv => (h kv.1, kv.2))) := by
  induction st generalizing acc with
  | nil =>
    rw [List.map_nil, List.append_nil]
    rfl
  | cons kv rest ih =>
    obtain ⟨i, v⟩ := kv
    rw [List.map_cons, List.nodup_cons] at hnd
    have hacc : SDict.insertD acc (h i) v = acc ++ [(h i, v)] :=
      SDict.insertD_not_mem v (hfr (i, v) (List.mem_cons_self _ _))
    simp only [convertStateKeys, hl (i, v) (List.mem_cons_self _ _)]
    rw [hacc]
    rw [ih (acc ++ [(h i, v)])
      (fun kv2 h2 => hl kv2 (List.mem_cons.2 (Or.inr h2))) hnd.2 (by
        intro kv2 h2 hc
        rw [keys_append] at hc
        rcases List.mem_append.1 hc with h3 | h3
        · exact hfr kv2 (List.mem_cons.2 (Or.inr h2)) h3
        · have h4 : h kv2.1 = h i := by simpa using h3
          exact hnd.1 (h4 ▸ List.mem_map.2 ⟨kv2, h2, rfl⟩))]
    rw [List.append_assoc]
    rfl

theorem noFsdpConvert_canon (t : Module) (o : Optim)
    (hnodup : (o.allParams.map (·.pid)).Nodup)
    (hpos : ∀ ip ∈ o.allParams.enum, posFqns t o ip.1 = .ok (optimPosFqns t o ip.1))
    (hnamed : ∀ kp ∈ t.namedParameters, getFqns t kp.1 = .ok [fqn1 t kp.1])
    (hcount : ∀ p ∈ o.allParams,
      (t.namedParameters.filter (fun kp => kp.2 == p)).length = 1)
    (hdisj : (canonFqnsAll t o).Nodup) :
    noFsdpConvert t { o with state := freshState o }
      (Optim.nativeStateDict { o with state := freshState o }) =
      .ok { state := canonState t o, pg := canonPg t o } := by
  have hparamsnd : o.allParams.Nodup := List.Nodup.of_map _ hnodup
  obtain ⟨p2f, f2p, hbuild, hlk⟩ :=
    buildFqnPid_ok t o.allParams t.namedParameters [] [] hnamed
  have hsingle : ∀ i, i < o.allParams.length → ∃ f0,
      optimPosFqns t o i = [f0] ∧ SDict.lookup p2f i = some f0 := by
    intro i hi
    cases hg : o.allParams.get? i with
    | none =>
      rw [List.get?_eq_none] at hg
      omega
    | some p =>
      have hpmem : p ∈ o.allParams := List.get?_mem hg
      obtain ⟨kp0, hkp0⟩ := List.length_eq_one.1 (hcount p hpmem)
      have hkmem : kp0 ∈ t.namedParameters.filter (fun kp => kp.2 == p) := by
        rw [hkp0]
        exact List.mem_cons_self _ _
      have hkf := List.mem_filter.1 hkmem
      have hsnd : kp0.2 = p := by simpa using hkf.2
      have hname : paramNameIn t p = some kp0.1 := by
        rw [paramNameIn, find?_eq_head?_filter, hkp0]
        rfl
      have hposFq : posFqns t o i = .ok [fqn1 t kp0.1] := by
        simp only [posFqns, hg, hname]
        exact hnamed kp0 hkf.1
      have hpos2 := hpos_lt t o hpos i hi
      rw [hpos2] at hposFq
      refine ⟨fqn1 t kp0.1, Except.ok.inj hposFq, ?_⟩
      rw [hlk i]
      have hfeq : t.namedParameters.filter
          (fun kp => paramPid o.allParams kp.2 == some i) = [kp0] := by
        rw [← hkp0]
        apply List.filter_congr
        intro kp hkp
        by_cases hcase : kp.2 = p
        · rw [hcase, paramPid_of_get o.allParams i p hparamsnd hg]
          simp
        · have h1 : (kp.2 == p) = false := by
            simpa using hcase
          rw [h1]
          cases hpp : paramPid o.allParams kp.2 with
          | none => rfl
          | some j =>
            by_cases hj : j = i
            · subst hj
              have h2 := paramPid_mem o.allParams kp.2 j hpp
              rw [hg] at h2
              exact absurd (Option.some.inj h2).symm hcase
            · simp [hj]
      have hfind : t.namedParameters.reverse.find?
          (fun kp => paramPid o.allParams kp.2 == some i) = some kp0 := by
        rw [find?_eq_head?_filter, List.filter_reverse, hfeq]
        rfl
      rw [hfind]
  have hsingleF : ∀ kv ∈ freshState o,
      SDict.lookup p2f kv.1 = some ((optimPosFqns t o kv.1).headD "") := by
    intro kv hkv
    obtain ⟨f0, hf0, hl0⟩ := hsingle kv.1 (freshState_mem_lt o kv hkv)
    rw [hf0, hl0]
    rfl
  have hcanonEq : canonState t o =
      (freshState o).map (fun kv => ((optimPosFqns t o kv.1).headD "", kv.2)) := by
    rw [canonState, ← flatten_singletons (freshState o)
      (fun kv => ((optimPosFqns t o kv.1).headD "", kv.2))]
    congr 1
    apply List.map_congr_left
    intro kv hkv
    obtain ⟨f0, hf0, _⟩ := hsingle kv.1 (freshState_mem_lt o kv hkv)
    rw [hf0]
    rfl
  have hkeysc : (SDict.keys (canonState t o)).Nodup :=
    hdisj.sublist (canonState_keys_sublist t o)
  have hmapnd : ((freshState o).map
      (fun kv => (optimPosFqns t o kv.1).headD "")).Nodup := by
    have hk : SDict.keys (canonState t o) =
        (freshState o).map (fun kv => (optimPosFqns t o kv.1).headD "") := by
      rw [hcanonEq]
      show (List.map (fun kv : Nat × Val => ((optimPosFqns t o kv.1).headD "", kv.2))
        (freshState o)).map (·.1) = _
      rw [List.map_map]
      rfl
    rw [← hk]
    exact hkeysc
  have hstate : convertStateKeys p2f (freshState o) [] = .ok (canonState t o) := by
    rw [convertStateKeys_lit p2f (freshState o) []
      (fun i => (optimPosFqns t o i).headD "") hsingleF hmapnd
      (fun kv _ hc => absurd hc (List.not_mem_nil _))]
    rw [List.nil_append, ← hcanonEq]
  have hpg : (assignPos 0 o.paramGroups).mapM (convertGroup p2f) = .ok (canonPg t o) := by
    rw [canonPg]
    apply mapM_ok
    intro g hg
    have hml : mapLookupAll p2f g.params =
        .ok (g.params.map (fun i => (optimPosFqns t o i).headD "")) := by
      apply mapLookupAll_ok
      intro i hi
      obtain ⟨f0, hf0, hl0⟩ := hsingle i (assignPos_mem_lt o g i hg hi)
      rw [hf0, hl0]
      rfl
    simp only [convertGroup, hml]
    have hflat : (g.params.map (optimPosFqns t o)).flatten =
        g.params.map (fun i => (optimPosFqns t o i).headD "") := by
      rw [← flatten_singletons g.params (fun i => (optimPosFqns t o i).headD "")]
      congr 1
      apply List.map_congr_left
      intro i hi
      obtain ⟨f0, hf0, _⟩ := hsingle i (assignPos_mem_lt o g i hg hi)
      rw [hf0]
      rfl
    rw [hflat]
  show noFsdpConvert t o { state := freshState o, pg := assignPos 0 o.paramGroups } = _
  simp only [noFsdpConvert, hbuild, hstate, hpg]

/-! ### Literal characterizations for the split and native-load steps -/

theorem pullFqns_state_lit (osd : OSD String) (fs : List String)
    (st0 : SDict.Dict String Val) (ids0 : List Nat)
    (hsome : ∀ f ∈ fs, (SDict.lookup osd.state f).isSome)
    (hnd : fs.Nodup)
    (hfr : ∀ f ∈ fs, f ∉ SDict.keys st0) :
    ∃ ids, pullFqns osd fs st0 ids0 = .ok
      (st0 ++ fs.map (fun f => (f, (SDict.lookup osd.state f).getD 0)), ids) := by
  induction fs generalizing st0 ids0 with
  | nil => exact ⟨ids0, by rw [List.map_nil, List.append_nil]; rfl⟩
  | cons f rest ih =>
    rw [List.nodup_cons] at hnd
    have hf := hsome f (List.mem_cons_self f rest)
    cases hv : SDict.lookup osd.state f with
    | none =>
      rw [hv] at hf
      exact absurd hf (by simp)
    | some v =>
      have hins : SDict.insertD st0 f v = st0 ++ [(f, v)] :=
        SDict.insertD_not_mem v (hfr f (List.mem_cons_self f rest))
      obtain ⟨ids, hids⟩ := ih (st0 ++ [(f, v)])
        ((osd.pg.enum.filter (fun ig => f ∈ ig.2.params)).foldl
          (fun a ig => insertId a ig.1) ids0)
        (fun f2 h2 => hsome f2 (List.mem_cons.2 (Or.inr h2))) hnd.2 (by
          intro f2 h2 hc
          rw [keys_append] at hc
          rcases List.mem_append.1 hc with h3 | h3
          · exact hfr f2 (List.mem_cons.2 (Or.inr h2)) h3
          · have h4 : f2 = f := by simpa using h3
            exact hnd.1 (h4 ▸ h2))
      refine ⟨ids, ?_⟩
      simp only [pullFqns, hv]
      rw [hins, hids, List.append_assoc]
      rw [List.map_cons, hv]
      rfl

theorem splitFold_state_lit (info : StateDictInfo) (osd : OSD String) (l : List Param)
    (st0 : SDict.Dict String Val) (ids0 : List Nat)
    (hmap : ∀ p ∈ l, p.requiresGrad = true →
      info.lookupParamFqns p = some ((info.lookupParamFqns p).getD []))
    (hsome : ∀ p ∈ l, p.requiresGrad = true →
      ∀ f ∈ (info.lookupParamFqns p).getD [], (SDict.lookup osd.state f).isSome)
    (hnd : (((l.filter (·.requiresGrad)).map
      (fun p => (info.lookupParamFqns p).getD [])).flatten).Nodup)
    (hfr : ∀ f ∈ ((l.filter (·.requiresGrad)).map
      (fun p => (info.lookupParamFqns p).getD [])).flatten, f ∉ SDict.keys st0) :
    ∃ ids, splitFold info osd l st0 ids0 = .ok
      (st0 ++ ((l.filter (·.requiresGrad)).map (fun p =>
        ((info.lookupParamFqns p).getD []).map
          (fun f => (f, (SDict.lookup osd.state f).getD 0)))).flatten, ids) := by
  induction l generalizing st0 ids0 with
  | nil => exact ⟨ids0, by rw [show (([] : List Param).filter (·.requiresGrad)) = [] from rfl,
      List.map_nil, List.flatten_nil, List.append_nil]; rfl⟩
  | cons p rest ih =>
    by_cases hr : p.requiresGrad = true
    · have hfilter : (p :: rest).filter (·.requiresGrad) =
          p :: rest.filter (·.requiresGrad) := by
        simp [List.filter_cons, hr]
      rw [hfilter] at hnd hfr
      rw [List.map_cons, List.flatten_cons] at hnd hfr
      have hndp := List.nodup_append.1 hnd
      obtain ⟨ids1, hpull⟩ := pullFqns_state_lit osd ((info.lookupParamFqns p).getD [])
        st0 ids0 (hsome p (List.mem_cons_self p rest) hr) hndp.1
        (fun f hf => hfr f (List.mem_append.2 (Or.inl hf)))
      obtain ⟨ids, hids⟩ := ih
        (st0 ++ ((info.lookupParamFqns p).getD []).map
          (fun f => (f, (SDict.lookup osd.state f).getD 0))) ids1
        (fun q hq => hmap q (List.mem_cons.2 (Or.inr hq)))
        (fun q hq => hsome q (List.mem_cons.2 (Or.inr hq)))
        hndp.2.1 (by
          intro f hf hc
          rw [keys_append] at hc
          rcases List.mem_append.1 hc with h3 | h3
          · exact hfr f (List.mem_append.2 (Or.inr hf)) h3
          · have h3b : f ∈ (((info.lookupParamFqns p).getD []).map
                (fun f2 => (f2, (SDict.lookup osd.state f2).getD 0))).map (·.1) := h3
            have h5 : f ∈ (info.lookupParamFqns p).getD [] := by
              obtain ⟨pr, h6, h7⟩ := List.mem_map.1 h3b
              obtain ⟨f3, h8, h9⟩ := List.mem_map.1 h6
              rw [← h7, ← h9]
              exact h8
            exact hndp.2.2 h5 hf)
      refine ⟨ids, ?_⟩
      simp only [splitFold]
      rw [if_neg (by rw [hr]; simp), hmap p (List.mem_cons_self p rest) hr]
      have hcomp : (match pullFqns osd ((info.lookupParamFqns p).getD []) st0 ids0 with
          | Except.error e => Except.error e
          | Except.ok (st2, ids2) => splitFold info osd rest st2 ids2) =
            Except.ok (st0 ++ (((p :: rest).filter (·.requiresGrad)).map (fun q =>
              ((info.lookupParamFqns q).getD []).map
                (fun f => (f, (SDict.lookup osd.state f).getD 0)))).flatten, ids) := by
        rw [hpull]
        show splitFold info osd rest
          (st0 ++ ((info.lookupParamFqns p).getD []).map
            (fun f => (f, (SDict.lookup osd.state f).getD 0))) ids1 = _
        rw [hids, hfilter, List.map_cons, List.flatten_cons, List.append_assoc]
      exact hcomp
    · have hrf : p.requiresGrad = false := by
        cases hx : p.requiresGrad with
        | true => exact absurd hx hr
        | false => rfl
      have hfilter : (p :: rest).filter (·.requiresGrad) =
          rest.filter (·.requiresGrad) := by
        simp only [List.filter_cons]
        rw [if_neg (by rw [hrf]; simp)]
      rw [hfilter] at hnd hfr
      obtain ⟨ids, hids⟩ := ih st0 ids0
        (fun q hq => hmap q (List.mem_cons.2 (Or.inr hq)))
        (fun q hq => hsome q (List.mem_cons.2 (Or.inr hq))) hnd hfr
      refine ⟨ids, ?_⟩
      simp only [splitFold]
      rw [if_pos hrf, hids, hfilter]

theorem flatten_nodup_disjoint {α β : Type} (l : List α) (F : α → List β)
    (hnd : ((l.map F).flatten).Nodup) (i j : Nat) (a b : α)
    (hi : l.get? i = some a) (hj : l.get? j = some b) (hij : i ≠ j)
    (x : β) (hxi : x ∈ F a) (hxj : x ∈ F b) : False := by
  induction l generalizing i j with
  | nil => simp [List.get?] at hi
  | cons c rest ih =>
    rw [List.map_cons, List.flatten_cons] at hnd
    have hndp := List.nodup_append.1 hnd
    cases i with
    | zero =>
      have hac : c = a := by simpa [List.get?] using hi
      cases j with
      | zero => exact hij rfl
      | succ j2 =>
        have hjr : rest.get? j2 = some b := by simpa [List.get?] using hj
        have hbmem : x ∈ (rest.map F).flatten :=
          List.mem_flatten.2 ⟨F b, List.mem_map_of_mem _ (List.get?_mem hjr), hxj⟩
        exact hndp.2.2 (hac ▸ hxi) hbmem
    | succ i2 =>
      have hir : rest.get? i2 = some a := by simpa [List.get?] using hi
      cases j with
      | zero =>
        have hbc : c = b := by simpa [List.get?] using hj
        have hamem : x ∈ (rest.map F).flatten :=
          List.mem_flatten.2 ⟨F a, List.mem_map_of_mem _ (List.get?_mem hir), hxi⟩
        exact hndp.2.2 (hbc ▸ hxj) hamem
      | succ j2 =>
        have hjr : rest.get? j2 = some b := by simpa [List.get?] using hj
        exact ih hndp.2.1 i2 j2 hir hjr (fun hc => hij (by omega))

theorem zip_self_eq_map {α : Type} (l : List α) :
    l.zip l = l.map (fun a => (a, a)) := by
  induction l with
  | nil => rfl
  | cons a rest ih =>
    rw [List.map_cons]
    show (a, a) :: rest.zip rest = _
    rw [ih]

theorem lookup_diag {κ : Type} [DecidableEq κ] (l : List κ) (k : κ) (h : k ∈ l) :
    SDict.lookup (l.map (fun a => (a, a))) k = some k := by
  induction l with
  | nil => exact absurd h (List.not_mem_nil k)
  | cons a rest ih =>
    rw [List.map_cons, SDict.lookup_cons]
    by_cases ha : a = k
    · rw [if_pos ha, ha]
    · rw [if_neg ha]
      exact ih (by
        rcases List.mem_cons.1 h with h1 | h1
        · exact absurd h1.symm ha
        · exact h1)

theorem lookup_map_inj {κ : Type} [DecidableEq κ] (l : List Nat) (h : Nat → κ)
    (hnd : (l.map h).Nodup) (i : Nat) (hi : i ∈ l) :
    SDict.lookup (l.map (fun j => (h j, j))) (h i) = some i := by
  induction l with
  | nil => exact absurd hi (List.not_mem_nil i)
  | cons a rest ih =>
    rw [List.map_cons] at hnd
    rw [List.nodup_cons] at hnd
    rw [List.map_cons, SDict.lookup_cons]
    rcases List.mem_cons.1 hi with h1 | h1
    · subst h1
      rw [if_pos rfl]
    · by_cases ha : h a = h i
      · exact absurd (ha ▸ List.mem_map_of_mem h h1) hnd.1
      · rw [if_neg ha]
        exact ih hnd.2 h1

theorem mapStateKeys_map {κ : Type} [DecidableEq κ] (k2p : SDict.Dict κ Nat)
    (st : List (κ × Val)) (h : κ → Nat)
    (hl : ∀ kv ∈ st, SDict.lookup k2p kv.1 = some (h kv.1)) :
    mapStateKeys k2p st = .ok (st.map (fun kv => (h kv.1, kv.2))) := by
  induction st with
  | nil => rfl
  | cons kv rest ih =>
    obtain ⟨k, v⟩ := kv
    simp only [mapStateKeys, hl (k, v) (List.mem_cons_self _ _),
      ih (fun kv2 h2 => hl kv2 (List.mem_cons.2 (Or.inr h2)))]
    rfl

theorem mapStateKeys_of_pairs {κ : Type} [DecidableEq κ] (k2p : SDict.Dict κ Nat)
    (src : List (Nat × Val)) (hkey : Nat → κ)
    (hl : ∀ kv ∈ src, SDict.lookup k2p (hkey kv.1) = some kv.1) :
    mapStateKeys k2p (src.map (fun kv => (hkey kv.1, kv.2))) = .ok src := by
  induction src with
  | nil => rfl
  | cons kv rest ih =>
    obtain ⟨i, v⟩ := kv
    rw [List.map_cons]
    simp only [mapStateKeys, hl (i, v) (List.mem_cons_self _ _),
      ih (fun kv2 h2 => hl kv2 (List.mem_cons.2 (Or.inr h2)))]

theorem zip_assignPos_lr (pgs : List ParamGroup) (n : Nat) :
    (pgs.zip (assignPos n pgs)).map (fun cg => { cg.1 with lr := cg.2.lr }) = pgs := by
  induction pgs generalizing n with
  | nil => rfl
  | cons gr rest ih =>
    show (gr :: (rest.zip (assignPos (n + gr.params.length) rest)).map
      (fun cg => { cg.1 with lr := cg.2.lr })) = gr :: rest
    rw [ih (n + gr.params.length)]

theorem zip_assignPos_map_lr {κ2 : Type} (pgs : List ParamGroup) (n : Nat)
    (f : OsdGroup Nat → OsdGroup κ2) (hf : ∀ g, (f g).lr = g.lr) :
    (pgs.zip ((assignPos n pgs).map f)).map
      (fun cg => { cg.1 with lr := cg.2.lr }) = pgs := by
  induction pgs generalizing n with
  | nil => rfl
  | cons gr rest ih =>
    show ({ gr with lr := (f ⟨List.range' n gr.params.length, gr.lr⟩).lr } ::
      (rest.zip ((assignPos (n + gr.params.length) rest).map f)).map
        (fun cg => { cg.1 with lr := cg.2.lr })) = gr :: rest
    rw [hf ⟨List.range' n gr.params.length, gr.lr⟩, ih (n + gr.params.length)]

theorem zip_map_lr {κ κ2 : Type} (l : List (OsdGroup κ)) (f : OsdGroup κ → OsdGroup κ2)
    (hf : ∀ g, (f g).lr = g.lr) :
    (l.zip (l.map f)).map (fun gg => { gg.1 with lr := gg.2.lr }) = l := by
  induction l with
  | nil => rfl
  | cons g rest ih =>
    rw [List.map_cons]
    show ({ g with lr := (f g).lr } ::
      (rest.zip (rest.map f)).map (fun gg => { gg.1 with lr := gg.2.lr })) = g :: rest
    rw [hf g, ih]

/-! ### Membership in the canonical state -/

theorem freshState_mem_of_trainable (o : Optim) (i : Nat) (p : Param)
    (hg : o.allParams.get? i = some p) (hr : p.requiresGrad = true) :
    (i, stepInitVal i) ∈ freshState o := by
  rw [freshState_eq]
  have henum : (i, p) ∈ o.allParams.enum := by
    apply List.mk_mem_enum_iff_getElem?.2
    rw [← List.get?_eq_getElem?]
    exact hg
  have hmemf : (i, p) ∈ o.allParams.enum.filter (fun ip => ip.2.requiresGrad) :=
    List.mem_filter.2 ⟨henum, by simpa using hr⟩
  exact List.mem_map_of_mem (fun ip : Nat × Param => (ip.1, stepInitVal ip.1)) hmemf

theorem canonState_mem (t : Module) (o : Optim) (i : Nat) (p : Param) (f : String)
    (hg : o.allParams.get? i = some p) (hr : p.requiresGrad = true)
    (hf : f ∈ optimPosFqns t o i) :
    (f, stepInitVal i) ∈ canonState t o := by
  rw [canonState]
  apply List.mem_flatten.2
  refine ⟨(optimPosFqns t o i).map (fun f2 => (f2, stepInitVal i)), ?_, ?_⟩
  · exact List.mem_map_of_mem
      (fun kv : Nat × Val => (optimPosFqns t o kv.1).map (fun f2 => (f2, kv.2)))
      (freshState_mem_of_trainable o i p hg hr)
  · exact List.mem_map_of_mem _ hf

theorem lookup_mergedState (t : Module) (optims : List Optim) (o : Optim)
    (hmem : o ∈ optims) (hall : (allCanonFqns t optims).Nodup)
    (kv : String × Val) (hkv : kv ∈ canonState t o) :
    SDict.lookup (mergedState t optims) kv.1 = some kv.2 := by
  have hnd : (SDict.keys (mergedState t optims)).Nodup :=
    hall.sublist (mergedState_keys_sublist t optims)
  apply SDict.lookup_eq_of_mem_nodup hnd
  exact List.mem_flatten.2 ⟨canonState t o, List.mem_map_of_mem _ hmem, hkv⟩

theorem mem_keys_canonState (t : Module) (o : Optim) (f : String) :
    f ∈ SDict.keys (canonState t o) ↔
      ∃ kv ∈ freshState o, f ∈ optimPosFqns t o kv.1 := by
  rw [canonState_keys]
  constructor
  · intro h
    obtain ⟨blk, hblk, hfb⟩ := List.mem_flatten.1 h
    obtain ⟨i, hi, hie⟩ := List.mem_map.1 hblk
    obtain ⟨kv, hkv, hkve⟩ := List.mem_map.1 hi
    exact ⟨kv, hkv, by rw [hkve, hie]; exact hfb⟩
  · rintro ⟨kv, hkv, hf⟩
    apply List.mem_flatten.2
    refine ⟨optimPosFqns t o kv.1, ?_, hf⟩
    exact List.mem_map_of_mem _ (List.mem_map_of_mem _ hkv)

theorem enumFrom_filter_snd {α : Type} (l : List α) (n : Nat) (q : α → Bool) :
    ((List.enumFrom n l).filter (fun ip => q ip.2)).map (·.2) = l.filter q := by
  induction l generalizing n with
  | nil => rfl
  | cons x rest ih =>
    show (((n, x) :: List.enumFrom (n + 1) rest).filter (fun ip => q ip.2)).map (·.2) = _
    rw [List.filter_cons, List.filter_cons]
    cases hq : q x with
    | true =>
      rw [if_pos (by simp [hq]), if_pos (by simp [hq]), List.map_cons, ih (n + 1)]
    | false =>
      rw [if_neg (by simp [hq]), if_neg (by simp [hq])]
      exact ih (n + 1)

theorem filter_eq_enum_map {α : Type} (l : List α) (q : α → Bool) :
    l.filter q = (l.enum.filter (fun ip => q ip.2)).map (·.2) :=
  (enumFrom_filter_snd l 0 q).symm

theorem canonPg_params_sub (t : Module) (oo : Optim) (g : OsdGroup String)
    (hg : g ∈ canonPg t oo) (f : String) (hf : f ∈ g.params) :
    f ∈ canonFqnsAll t oo := by
  rw [canonPg] at hg
  obtain ⟨gN, hgN, hge⟩ := List.mem_map.1 hg
  rw [← hge] at hf
  obtain ⟨blk, hblk, hfb⟩ := List.mem_flatten.1 hf
  obtain ⟨i, hi, hie⟩ := List.mem_map.1 hblk
  apply List.mem_flatten.2
  refine ⟨optimPosFqns t oo i, ?_, hie ▸ hfb⟩
  exact List.mem_map_of_mem _ (List.mem_range.2 (assignPos_mem_lt oo gN i hgN hi))

/-! ### `_split_optim_state_dict` recovers each optimizer's canonical block -/

theorem split_canon (t : Module) (optims : List Optim) (o : Optim) (info : StateDictInfo)
    (hmem : o ∈ optims)
    (hIDX : ∀ oo ∈ optims, ∀ ip ∈ oo.allParams.enum,
      info.lookupParamFqns ip.2 = some (optimPosFqns t oo ip.1))
    (hne : ∀ oo ∈ optims, ∀ ip ∈ oo.allParams.enum, optimPosFqns t oo ip.1 ≠ [])
    (hall : (allCanonFqns t optims).Nodup)
    (hgr : ∀ oo ∈ optims, ∀ gN ∈ assignPos 0 oo.paramGroups,
      gN.params.any
        (fun i => ((oo.allParams.get? i).map (·.requiresGrad)).getD false) = true) :
    splitOptimStateDict o { state := mergedState t optims, pg := mergedPg t optims } info =
      .ok { state := canonState t o, pg := canonPg t o } := by
  have henum_of : ∀ p ∈ o.allParams, ∃ i, o.allParams.get? i = some p ∧
      (i, p) ∈ o.allParams.enum := by
    intro p hp
    obtain ⟨i, hgi⟩ := List.mem_iff_get?.1 hp
    refine ⟨i, hgi, ?_⟩
    apply List.mk_mem_enum_iff_getElem?.2
    rw [← List.get?_eq_getElem?]
    exact hgi
  have hmap : ∀ p ∈ o.allParams, p.requiresGrad = true →
      info.lookupParamFqns p = some ((info.lookupParamFqns p).getD []) := by
    intro p hp _
    obtain ⟨i, _, henum⟩ := henum_of p hp
    rw [hIDX o hmem (i, p) henum]
    rfl
  have hsome : ∀ p ∈ o.allParams, p.requiresGrad = true →
      ∀ f ∈ (info.lookupParamFqns p).getD [],
        (SDict.lookup (mergedState t optims) f).isSome = true := by
    intro p hp hr f hf
    obtain ⟨i, hgi, henum⟩ := henum_of p hp
    rw [hIDX o hmem (i, p) henum] at hf
    have hf2 : f ∈ optimPosFqns t o i := hf
    rw [lookup_mergedState t optims o hmem hall (f, stepInitVal i)
      (canonState_mem t o i p f hgi hr hf2)]
    rfl
  -- the pulled FQN list is exactly the canonical state's key list
  have hmapped : (o.allParams.enum.filter (fun ip => ip.2.requiresGrad)).map
      ((fun p => (info.lookupParamFqns p).getD []) ∘ (·.2)) =
      (o.allParams.enum.filter (fun ip => ip.2.requiresGrad)).map
        (fun ip => optimPosFqns t o ip.1) := by
    apply List.map_congr_left
    intro ip hip
    have henum : ip ∈ o.allParams.enum := (List.mem_filter.1 hip).1
    show (info.lookupParamFqns ip.2).getD [] = _
    rw [hIDX o hmem ip henum]
    rfl
  have htrain_eq : ((o.allParams.filter (·.requiresGrad)).map
      (fun p => (info.lookupParamFqns p).getD [])).flatten =
      SDict.keys (canonState t o) := by
    rw [filter_eq_enum_map o.allParams (·.requiresGrad), List.map_map, hmapped,
      canonState_keys, freshState_eq, List.map_map, List.map_map]
    rfl
  have hnd2 : (((o.allParams.filter (·.requiresGrad)).map
      (fun p => (info.lookupParamFqns p).getD [])).flatten).Nodup := by
    rw [htrain_eq]
    exact (hall.sublist (mergedState_keys_sublist t optims)).sublist (by
      rw [mergedState_keys]
      have h1 : [SDict.keys (canonState t o)].Sublist
          (optims.map (fun oo => SDict.keys (canonState t oo))) := by
        have := List.mem_map_of_mem (fun oo => SDict.keys (canonState t oo)) hmem
        exact (List.singleton_sublist).2 this
      have h2 := sublist_flatten_map (fun x => x) h1
      rw [List.map_id', List.map_id'] at h2
      simpa using h2)
  obtain ⟨ids, hlit⟩ := splitFold_state_lit info
    { state := mergedState t optims, pg := mergedPg t optims } o.allParams [] []
    hmap hsome hnd2 (fun f _ hc => absurd hc (List.not_mem_nil f))
  obtain ⟨st', ids', hspec, _, hids'⟩ := splitFold_spec info
    { state := mergedState t optims, pg := mergedPg t optims } o.allParams [] []
    hmap hsome
  rw [hlit] at hspec
  have hpair := Except.ok.inj hspec
  have hst'_eq : st' = [] ++ ((o.allParams.filter (·.requiresGrad)).map (fun p =>
      ((info.lookupParamFqns p).getD []).map (fun f =>
        (f, (SDict.lookup (mergedState t optims) f).getD 0)))).flatten :=
    (congrArg Prod.fst hpair).symm
  have hids_eq : ids = ids' := congrArg Prod.snd hpair
  -- state equals the canonical state
  have hstate_eq : ([] : SDict.Dict String Val) ++
      ((o.allParams.filter (·.requiresGrad)).map (fun p =>
        ((info.lookupParamFqns p).getD []).map (fun f =>
          (f, (SDict.lookup (mergedState t optims) f).getD 0)))).flatten =
      canonState t o := by
    rw [List.nil_append, filter_eq_enum_map o.allParams (·.requiresGrad), List.map_map]
    rw [show ((fun p => ((info.lookupParamFqns p).getD []).map (fun f =>
        (f, (SDict.lookup (mergedState t optims) f).getD 0))) ∘
        ((·.2) : Nat × Param → Param)) = (fun ip : Nat × Param =>
          ((info.lookupParamFqns ip.2).getD []).map (fun f =>
            (f, (SDict.lookup (mergedState t optims) f).getD 0))) from rfl]
    rw [canonState, freshState_eq, List.map_map]
    congr 1
    apply List.map_congr_left
    intro ip hip
    have hfil := List.mem_filter.1 hip
    have henum : ip ∈ o.allParams.enum := hfil.1
    have hr : ip.2.requiresGrad = true := by simpa using hfil.2
    have hget : o.allParams.get? ip.1 = some ip.2 := by
      rw [List.get?_eq_getElem?]
      exact List.mk_mem_enum_iff_getElem?.1 henum
    rw [hIDX o hmem ip henum]
    show (optimPosFqns t o ip.1).map _ = (optimPosFqns t o ip.1).map _
    apply List.map_congr_left
    intro f hf
    rw [lookup_mergedState t optims o hmem hall (f, stepInitVal ip.1)
      (canonState_mem t o ip.1 ip.2 f hget hr hf)]
    rfl

  -- the param-group filter keeps exactly this optimizer's canonical block
  obtain ⟨l1, l2, hopt⟩ := List.mem_iff_append.1 hmem
  have hmPg : mergedPg t optims = mergedPg t l1 ++ (canonPg t o ++ mergedPg t l2) := by
    rw [hopt, mergedPg, List.map_append, List.flatten_append, List.map_cons,
      List.flatten_cons]
    rfl
  have hallsplit : allCanonFqns t optims =
      allCanonFqns t l1 ++ (canonFqnsAll t o ++ allCanonFqns t l2) := by
    rw [hopt, allCanonFqns, List.map_append, List.flatten_append, List.map_cons,
      List.flatten_cons]
    rfl
  have hA := List.nodup_append.1 (hallsplit ▸ hall)
  have hB := List.nodup_append.1 hA.2.1
  have hsubK : ∀ f ∈ SDict.keys (canonState t o), f ∈ canonFqnsAll t o :=
    fun f hf => (canonState_keys_sublist t o).mem hf
  have hPtrue : ∀ g ∈ canonPg t o,
      g.params.any (fun f => decide (f ∈ SDict.keys (canonState t o))) = true := by
    intro g hg
    obtain ⟨gN, hgN, hge⟩ := List.mem_map.1 hg
    have hany := hgr o hmem gN hgN
    obtain ⟨i, hiN, hitr⟩ := List.any_eq_true.1 hany
    cases hgi : o.allParams.get? i with
    | none =>
      rw [hgi] at hitr
      simp at hitr
    | some p =>
      have hr : p.requiresGrad = true := by
        rw [hgi] at hitr
        simpa using hitr
      have henum : (i, p) ∈ o.allParams.enum := by
        apply List.mk_mem_enum_iff_getElem?.2
        rw [← List.get?_eq_getElem?]
        exact hgi
      have hFne := hne o hmem (i, p) henum
      obtain ⟨f, hf⟩ := List.exists_mem_of_ne_nil _ hFne
      apply List.any_eq_true.2
      refine ⟨f, ?_, decide_eq_true ?_⟩
      · rw [← hge]
        show f ∈ ((gN.params.map (optimPosFqns t o)).flatten)
        exact List.mem_flatten.2 ⟨optimPosFqns t o i, List.mem_map_of_mem _ hiN, hf⟩
      · exact (mem_keys_canonState t o f).2
          ⟨(i, stepInitVal i), freshState_mem_of_trainable o i p hgi hr, hf⟩
  have hPfalse : ∀ (ll : List Optim), (∀ f ∈ canonFqnsAll t o,
      f ∉ allCanonFqns t ll) → ∀ g ∈ mergedPg t ll,
      g.params.any (fun f => decide (f ∈ SDict.keys (canonState t o))) = false := by
    intro ll hdisjl g hg
    cases hP : g.params.any (fun f => decide (f ∈ SDict.keys (canonState t o))) with
    | false => rfl
    | true =>
      exfalso
      obtain ⟨f, hfp, hfd⟩ := List.any_eq_true.1 hP
      have hfk := of_decide_eq_true hfd
      obtain ⟨blk, hbm, hgb⟩ := List.mem_flatten.1 hg
      obtain ⟨oo, hoo, hooe⟩ := List.mem_map.1 hbm
      have hfoo : f ∈ canonFqnsAll t oo :=
        canonPg_params_sub t oo g (hooe ▸ hgb) f hfp
      have hfll : f ∈ allCanonFqns t ll :=
        List.mem_flatten.2 ⟨canonFqnsAll t oo, List.mem_map_of_mem _ hoo, hfoo⟩
      exact hdisjl f (hsubK f hfk) hfll
  have hfilter_split : (mergedPg t optims).filter
      (fun g => g.params.any (fun f => decide (f ∈ SDict.keys (canonState t o)))) =
      canonPg t o := by
    rw [hmPg, List.filter_append, List.filter_append]
    have h1 : (mergedPg t l1).filter
        (fun g => g.params.any (fun f => decide (f ∈ SDict.keys (canonState t o)))) = [] := by
      rw [List.filter_eq_nil_iff]
      intro g hg hc
      rw [hPfalse l1 (fun f hf hfl1 =>
        hA.2.2 hfl1 (List.mem_append.2 (Or.inl hf))) g hg] at hc
      exact absurd hc (by simp)
    have h2 : (canonPg t o).filter
        (fun g => g.params.any (fun f => decide (f ∈ SDict.keys (canonState t o)))) =
        canonPg t o := by
      apply List.filter_eq_self.2
      intro g hg
      rw [hPtrue g hg]
    have h3 : (mergedPg t l2).filter
        (fun g => g.params.any (fun f => decide (f ∈ SDict.keys (canonState t o)))) = [] := by
      rw [List.filter_eq_nil_iff]
      intro g hg hc
      rw [hPfalse l2 (fun f hf hfl2 => hB.2.2 hf hfl2) g hg] at hc
      exact absurd hc (by simp)
    rw [h1, h2, h3, List.nil_append, List.append_nil]
  have hcombined := hlit
  rw [hstate_eq] at hcombined
  have hiff : ∀ i g, (mergedPg t optims).get? i = some g →
      ((0 + i) ∈ ids ↔ (g.params.any
        (fun f => decide (f ∈ SDict.keys (canonState t o)))) = true) := by
    intro i g hg
    rw [Nat.zero_add, hids_eq, hids' i]
    constructor
    · rintro (h | ⟨g2, hg2, f, hfin, hfp⟩)
      · exact absurd h (List.not_mem_nil i)
      · have hg2b : (mergedPg t optims).get? i = some g2 := hg2
        rw [hg] at hg2b
        have hgg : g2 = g := (Option.some.inj hg2b).symm
        subst hgg
        apply List.any_eq_true.2
        refine ⟨f, hfp, decide_eq_true ?_⟩
        rw [← htrain_eq]
        exact hfin
    · intro hP
      obtain ⟨f, hfp, hfd⟩ := List.any_eq_true.1 hP
      refine Or.inr ⟨g, hg, f, ?_, hfp⟩
      rw [htrain_eq]
      exact of_decide_eq_true hfd
  have hpg_final : (((mergedPg t optims).enum.filter
      (fun ig => decide (ig.1 ∈ ids))).map (·.2)) = canonPg t o := by
    rw [show (mergedPg t optims).enum = List.enumFrom 0 (mergedPg t optims) from rfl]
    rw [enumFrom_filter_map (mergedPg t optims) 0 ids _ hiff]
    exact hfilter_split
  simp only [splitOptimStateDict, hcombined]
  rw [hpg_final]

/-! ### The decanonicalize-and-load steps reproduce the initialized optimizer -/

theorem freshState_mem_inv (o : Optim) (kv : Nat × Val) (hkv : kv ∈ freshState o) :
    ∃ p, o.allParams.get? kv.1 = some p ∧ p.requiresGrad = true := by
  rw [freshState_eq] at hkv
  obtain ⟨ip, hip, hipe⟩ := List.mem_map.1 hkv
  have hfil := List.mem_filter.1 hip
  refine ⟨ip.2, ?_, by simpa using hfil.2⟩
  rw [show kv.1 = ip.1 from by rw [← hipe]]
  rw [List.get?_eq_getElem?]
  exact List.mk_mem_enum_iff_getElem?.1 hfil.1

theorem get?_range (n i : Nat) (h : i < n) : (List.range n).get? i = some i := by
  rw [List.get?_eq_getElem?]
  rw [List.getElem?_range h]

theorem fsdpToLoad_canon (t : Module) (o : Optim)
    (hpos : ∀ ip ∈ o.allParams.enum, posFqns t o ip.1 = .ok (optimPosFqns t o ip.1))
    (hne : ∀ ip ∈ o.allParams.enum, optimPosFqns t o ip.1 ≠ [])
    (hdisj : (canonFqnsAll t o).Nodup) :
    fsdpOptimStateDictToLoad t o { state := canonState t o, pg := canonPg t o } =
      .ok { state := freshState o, pg := assignPos 0 o.paramGroups } := by
  have hkeynd : (SDict.keys (canonState t o)).Nodup :=
    hdisj.sublist (canonState_keys_sublist t o)
  have hmapM : o.allParams.enum.mapM (fun ip => do
      let fqns ← posFqns t o ip.1
      match fqns.head? with
      | none => pure (none : Option (Nat × Val))
      | some f => pure ((SDict.lookup (canonState t o) f).map (fun v => (ip.1, v)))) =
      .ok (o.allParams.enum.map (fun ip =>
        if ip.2.requiresGrad then some (ip.1, stepInitVal ip.1) else none)) := by
    apply mapM_ok
    intro ip hip
    have hget : o.allParams.get? ip.1 = some ip.2 := by
      rw [List.get?_eq_getElem?]
      exact List.mk_mem_enum_iff_getElem?.1 hip
    have hlt : ip.1 < o.allParams.length := by
      by_contra hc
      rw [show o.allParams.get? ip.1 = none from List.get?_eq_none.2 (by omega)] at hget
      exact absurd hget (by simp)
    obtain ⟨f0, fs, hf0⟩ := List.exists_cons_of_ne_nil (hne ip hip)
    have hf0mem : f0 ∈ optimPosFqns t o ip.1 := by
      rw [hf0]
      exact List.mem_cons_self _ _
    show (posFqns t o ip.1).bind _ = _
    rw [hpos ip hip]
    show (match (optimPosFqns t o ip.1).head? with
      | none => pure (none : Option (Nat × Val))
      | some f => pure ((SDict.lookup (canonState t o) f).map (fun v => (ip.1, v)))) = _
    rw [hf0]
    show Except.ok ((SDict.lookup (canonState t o) f0).map (fun v => (ip.1, v))) = _
    cases hr : ip.2.requiresGrad with
    | true =>
      rw [SDict.lookup_eq_of_mem_nodup hkeynd
        (canonState_mem t o ip.1 ip.2 f0 hget hr hf0mem)]
      rfl
    | false =>
      have hnone : SDict.lookup (canonState t o) f0 = none := by
        apply SDict.lookup_eq_none_of_not_mem
        intro hc
        obtain ⟨kv, hkv, hfkv⟩ := (mem_keys_canonState t o f0).1 hc
        obtain ⟨p2, hget2, hr2⟩ := freshState_mem_inv o kv hkv
        by_cases hik : kv.1 = ip.1
        · rw [hik, hget] at hget2
          rw [← Option.some.inj hget2] at hr2
          rw [hr] at hr2
          exact absurd hr2 (by simp)
        · have hlt2 := freshState_mem_lt o kv hkv
          exact flatten_nodup_disjoint (List.range o.allParams.length)
            (optimPosFqns t o) hdisj kv.1 ip.1 kv.1 ip.1
            (get?_range _ _ hlt2) (get?_range _ _ hlt) hik f0 hfkv hf0mem
      rw [hnone]
      rfl
  simp only [fsdpOptimStateDictToLoad]
  rw [hmapM]
  show (if (canonPg t o).length = o.paramGroups.length then _ else _) = _
  rw [if_pos (by rw [canonPg, List.length_map, assignPos_length])]
  show Except.ok (⟨(o.allParams.enum.map (fun ip =>
      if ip.2.requiresGrad then some (ip.1, stepInitVal ip.1) else none)).reduceOption,
    ((assignPos 0 o.paramGroups).zip (canonPg t o)).map
      (fun gg => { gg.1 with lr := gg.2.lr })⟩ : OSD Nat) = _
  rw [reduceOption_map_eq]
  rw [canonPg, zip_map_lr (assignPos 0 o.paramGroups)
    (fun g => { params := (g.params.map (optimPosFqns t o)).flatten, lr := g.lr })
    (fun g => rfl)]
  rfl

theorem zip_map_left {α β : Type} (l : List α) (f : α → β) :
    (l.map f).zip l = l.map (fun a => (f a, a)) := by
  induction l with
  | nil => rfl
  | cons a rest ih =>
    rw [List.map_cons, List.map_cons]
    show (f a, a) :: (rest.map f).zip rest = _
    rw [ih]

theorem canonState_eq_map (t : Module) (o : Optim)
    (hsingle : ∀ i, i < o.allParams.length → ∃ f0, optimPosFqns t o i = [f0]) :
    canonState t o = (freshState o).map
      (fun kv => ((optimPosFqns t o kv.1).headD "", kv.2)) := by
  rw [canonState, ← flatten_singletons (freshState o)
    (fun kv => ((optimPosFqns t o kv.1).headD "", kv.2))]
  congr 1
  apply List.map_congr_left
  intro kv hkv
  obtain ⟨f0, hf0⟩ := hsingle kv.1 (freshState_mem_lt o kv hkv)
  rw [hf0]
  rfl

theorem canonFqnsAll_eq_map (t : Module) (o : Optim)
    (hsingle : ∀ i, i < o.allParams.length → ∃ f0, optimPosFqns t o i = [f0]) :
    canonFqnsAll t o = (List.range o.allParams.length).map
      (fun i => (optimPosFqns t o i).headD "") := by
  rw [canonFqnsAll, ← flatten_singletons (List.range o.allParams.length)
    (fun i => (optimPosFqns t o i).headD "")]
  congr 1
  apply List.map_congr_left
  intro i hi
  obtain ⟨f0, hf0⟩ := hsingle i (List.mem_range.1 hi)
  rw [hf0]
  rfl

theorem canonPg_group_params (t : Module) (o : Optim)
    (hsingle : ∀ i, i < o.allParams.length → ∃ f0, optimPosFqns t o i = [f0])
    (g : OsdGroup Nat) (hg : g ∈ assignPos 0 o.paramGroups) :
    (g.params.map (optimPosFqns t o)).flatten =
      g.params.map (fun i => (optimPosFqns t o i).headD "") := by
  rw [← flatten_singletons g.params (fun i => (optimPosFqns t o i).headD "")]
  congr 1
  apply List.map_congr_left
  intro i hi
  obtain ⟨f0, hf0⟩ := hsingle i (assignPos_mem_lt o g i hg hi)
  rw [hf0]
  rfl

theorem nativeOptimLoad_assign (o : Optim) :
    nativeOptimLoad { o with state := freshState o }
      { state := freshState o, pg := assignPos 0 o.paramGroups } =
      .ok { o with state := freshState o } := by
  have hmk : mapStateKeys (((List.range' 0 o.allParams.length).map
      (fun i => (i, i))) : SDict.Dict Nat Nat) (freshState o) = .ok (freshState o) := by
    have h1 := mapStateKeys_map ((List.range' 0 o.allParams.length).map (fun i => (i, i)))
      (freshState o) (fun i => i) (by
        intro kv hkv
        apply lookup_diag
        rw [List.mem_range'_1]
        exact ⟨Nat.zero_le _, by
          rw [Nat.zero_add]
          exact freshState_mem_lt o kv hkv⟩)
    rw [h1]
    show Except.ok ((freshState o).map (fun kv => kv)) = Except.ok (freshState o)
    rw [List.map_id']
  simp only [nativeOptimLoad]
  rw [if_pos (show (assignPos 0 o.paramGroups).length =
    ({ o with state := freshState o } : Optim).paramGroups.length from by
    rw [assignPos_length])]
  rw [zip_self_eq_map (assignPos 0 o.paramGroups)]
  rw [if_pos (show (((assignPos 0 o.paramGroups).map (fun g => (g, g))).all
      (fun gc => gc.1.params.length == gc.2.params.length)) = true from by
    apply List.all_eq_true.2
    intro gc hgc
    obtain ⟨g, _, hge⟩ := List.mem_map.1 hgc
    rw [← hge]
    simp)]
  have hk2p : (((assignPos 0 o.paramGroups).map (fun g => (g, g))).map
      (fun gc => gc.1.params.zip gc.2.params)).flatten =
      (List.range' 0 o.allParams.length).map (fun i => (i, i)) := by
    rw [List.map_map]
    have hcomp : ((fun gc : OsdGroup Nat × OsdGroup Nat => gc.1.params.zip gc.2.params) ∘
        (fun g => (g, g))) = fun g : OsdGroup Nat => g.params.zip g.params := rfl
    rw [hcomp]
    have hptws : (assignPos 0 o.paramGroups).map (fun g => g.params.zip g.params) =
        (assignPos 0 o.paramGroups).map (fun g => g.params.map (fun i => (i, i))) := by
      apply List.map_congr_left
      intro g _
      exact zip_self_eq_map g.params
    rw [hptws]
    rw [show (assignPos 0 o.paramGroups).map (fun g => g.params.map (fun i => (i, i))) =
        ((assignPos 0 o.paramGroups).map (·.params)).map (List.map (fun i => (i, i))) from by
      rw [List.map_map]
      rfl]
    rw [← List.map_flatten, assignPos_flatten, ← allParams_length]
  rw [hk2p, hmk]
  exact congrArg (fun l => (Except.ok ({ paramGroups := l, state := freshState o } : Optim) :
    Except PyErr Optim)) (zip_assignPos_lr o.paramGroups 0)

theorem nativeOptimLoad_canon (t : Module) (o : Optim)
    (hsingle : ∀ i, i < o.allParams.length → ∃ f0, optimPosFqns t o i = [f0])
    (hdisj : (canonFqnsAll t o).Nodup) :
    nativeOptimLoad { o with state := freshState o }
      { state := canonState t o, pg := canonPg t o } =
      .ok { o with state := freshState o } := by
  have hrngnd : ((List.range o.allParams.length).map
      (fun i => (optimPosFqns t o i).headD "")).Nodup := by
    rw [← canonFqnsAll_eq_map t o hsingle]
    exact hdisj
  have hk2p : (((canonPg t o).zip (assignPos 0 o.paramGroups)).map
      (fun gc => gc.1.params.zip gc.2.params)).flatten =
      (List.range' 0 o.allParams.length).map
        (fun i => ((optimPosFqns t o i).headD "", i)) := by
    rw [canonPg, zip_map_left]
    rw [List.map_map]
    have hptws : (assignPos 0 o.paramGroups).map
        ((fun gc : OsdGroup String × OsdGroup Nat => gc.1.params.zip gc.2.params) ∘
          (fun g => ({ params := (g.params.map (optimPosFqns t o)).flatten, lr := g.lr }, g))) =
        (assignPos 0 o.paramGroups).map
          (fun g => g.params.map (fun i => ((optimPosFqns t o i).headD "", i))) := by
      apply List.map_congr_left
      intro g hg
      show ((g.params.map (optimPosFqns t o)).flatten).zip g.params = _
      rw [canonPg_group_params t o hsingle g hg, zip_map_left]
    rw [hptws]
    rw [show (assignPos 0 o.paramGroups).map
        (fun g => g.params.map (fun i => ((optimPosFqns t o i).headD "", i))) =
        ((assignPos 0 o.paramGroups).map (·.params)).map
          (List.map (fun i => ((optimPosFqns t o i).headD "", i))) from by
      rw [List.map_map]
      rfl]
    rw [← List.map_flatten, assignPos_flatten, ← allParams_length]
  have hmk : mapStateKeys ((List.range' 0 o.allParams.length).map
      (fun i => ((optimPosFqns t o i).headD "", i))) (canonState t o) =
      .ok (freshState o) := by
    rw [canonState_eq_map t o hsingle]
    exact mapStateKeys_of_pairs _ (freshState o)
      (fun i => (optimPosFqns t o i).headD "") (fun kv hkv =>
        lookup_map_inj (List.range' 0 o.allParams.length)
          (fun i => (optimPosFqns t o i).headD "") (by
            rw [← List.range_eq_range']
            exact hrngnd) kv.1 (by
            rw [List.mem_range'_1]
            exact ⟨Nat.zero_le _, by
              rw [Nat.zero_add]
              exact freshState_mem_lt o kv hkv⟩))
  simp only [nativeOptimLoad]
  rw [if_pos (show (canonPg t o).length =
    ({ o with state := freshState o } : Optim).paramGroups.length from by
    rw [canonPg, List.length_map, assignPos_length])]
  rw [if_pos (show (((canonPg t o).zip (assignPos 0 o.paramGroups)).all
      (fun gc => gc.1.params.length == gc.2.params.length)) = true from by
    rw [canonPg, zip_map_left]
    apply List.all_eq_true.2
    intro gc hgc
    obtain ⟨g, hg, hge⟩ := List.mem_map.1 hgc
    rw [← hge]
    show (((g.params.map (optimPosFqns t o)).flatten).length == g.params.length) = true
    rw [canonPg_group_params t o hsingle g hg, List.length_map]
    simp)]
  rw [hk2p, hmk]
  exact congrArg (fun l => (Except.ok ({ paramGroups := l, state := freshState o } : Optim) :
    Except PyErr Optim)) (zip_assignPos_map_lr o.paramGroups 0
      (fun g => { params := (g.params.map (optimPosFqns t o)).flatten, lr := g.lr })
      (fun g => rfl))

/-! ### The load fold over optimizers -/

theorem loadOptimFold_canon (m : DistModel) (info : StateDictInfo) (osd : OSD String)
    (os : List Optim) (done : List Optim)
    (hst : ∀ o ∈ os, o.state = [])
    (hnd : ∀ o ∈ os, (o.allParams.map (·.pid)).Nodup)
    (hsplit : ∀ o ∈ os, splitOptimStateDict o osd info =
      .ok { state := canonState m.tree o, pg := canonPg m.tree o })
    (hF : info.fsdpModules.isEmpty = false → ∀ o ∈ os,
      fsdpOptimStateDictToLoad m.tree o
          { state := canonState m.tree o, pg := canonPg m.tree o } =
        .ok { state := freshState o, pg := assignPos 0 o.paramGroups } ∧
      nativeOptimLoad { o with state := freshState o }
          { state := freshState o, pg := assignPos 0 o.paramGroups } =
        .ok { o with state := freshState o })
    (hN : info.fsdpModules.isEmpty = true → ∀ o ∈ os,
      nativeOptimLoad { o with state := freshState o }
          { state := canonState m.tree o, pg := canonPg m.tree o } =
        .ok { o with state := freshState o }) :
    loadOptimFold m info osd os [] done = .ok
      (done.reverse ++ os.map (fun o => { o with state := freshState o }), []) := by
  induction os generalizing done with
  | nil =>
    show Except.ok (done.reverse, ([] : Grads)) = _
    rw [List.map_nil, List.append_nil]
  | cons o rest ih =>
    have hmem := List.mem_cons_self o rest
    obtain ⟨tr, hinit⟩ := initOptimState_fresh o (hst o hmem) (hnd o hmem)
    have hrec := ih ({ o with state := freshState o } :: done)
      (fun o2 h2 => hst o2 (List.mem_cons.2 (Or.inr h2)))
      (fun o2 h2 => hnd o2 (List.mem_cons.2 (Or.inr h2)))
      (fun o2 h2 => hsplit o2 (List.mem_cons.2 (Or.inr h2)))
      (fun hfl o2 h2 => hF hfl o2 (List.mem_cons.2 (Or.inr h2)))
      (fun hfl o2 h2 => hN hfl o2 (List.mem_cons.2 (Or.inr h2)))
    have hrec2 : loadOptimFold m info osd rest []
        ({ o with state := freshState o } :: done) = .ok
        (done.reverse ++ (o :: rest).map (fun o2 => { o2 with state := freshState o2 }),
          []) := by
      rw [hrec, List.reverse_cons, List.append_assoc]
      rfl
    cases hflag : info.fsdpModules.isEmpty with
    | false =>
      obtain ⟨hload1, hload2⟩ := hF hflag o hmem
      simp only [loadOptimFold, hsplit o hmem]
      rw [if_pos hflag]
      simp only [hload1, hinit, hload2]
      exact hrec2
    | true =>
      simp only [loadOptimFold, hsplit o hmem]
      rw [if_neg (by rw [hflag]; simp)]
      simp only [hinit, hN hflag o hmem]
      exact hrec2

/-! ### The validated option record and the native model load -/

/-- The Parameter Index as `_verify_options` builds it (empty on failure;
only consulted where the build is known to succeed). -/
def builtIndex (t : Module) (opts : DistributedStateDictOptions) :
    List (Param × List String) × List (String × Param) :=
  match buildMapping t opts.use_dtensor t.namedParameters [] [] with
  | .ok pr => pr
  | .error _ => ([], [])

/-- The `_StateDictInfo` produced by a successful `_verify_options` call
with both flags false. -/
def theInfo (t : Module) (optims : List Optim)
    (opts : DistributedStateDictOptions) : StateDictInfo :=
  { toDistributedStateDictOptions := opts
    paramFqns := (builtIndex t opts).1
    fqnParam := (builtIndex t opts).2
    handle_model := true
    handle_optim := decide (optims ≠ [])
    fsdpModules := t.fsdpModules }

theorem verifyOptions_theInfo (t : Module) (optims : List Optim)
    (opts : DistributedStateDictOptions) (hpre : verifyOptionsPreOk t opts = true) :
    verifyOptions t optims false false opts = .ok (theInfo t optims opts) := by
  simp only [verifyOptionsPreOk, Bool.and_eq_true, Bool.or_eq_true] at hpre
  obtain ⟨hb, hty⟩ := hpre
  obtain ⟨pr0, hbm⟩ := isOkB_ok hb
  obtain ⟨pf, fp⟩ := pr0
  have hty2 : ¬ (t.fsdpModules.isEmpty = false ∧
      opts.fsdp_state_dict_type = .localStateDict) := by
    rintro ⟨h1, h2⟩
    rcases hty with h3 | h3
    · rw [h1] at h3
      exact Bool.false_ne_true h3
    · rw [h2] at h3
      simp at h3
  have hbi : builtIndex t opts = (pf, fp) := by
    simp only [builtIndex, hbm]
  have hthe : theInfo t optims opts =
      { toDistributedStateDictOptions := opts
        paramFqns := pf
        fqnParam := fp
        handle_model := true
        handle_optim := decide (optims ≠ [])
        fsdpModules := t.fsdpModules } := by
    simp only [theInfo, hbi]
  simp only [verifyOptions, hbm]
  rw [if_neg hty2, if_neg (by simp), if_neg (by simp), if_neg (by simp), hthe]
  rfl

theorem theInfo_map_state (t : Module) (optims : List Optim)
    (opts : DistributedStateDictOptions) :
    theInfo t (optims.map (fun o => { o with state := freshState o })) opts =
      theInfo t optims opts := by
  simp only [theInfo]
  congr 1
  rw [decide_eq_decide]
  constructor
  · intro h hc
    rw [hc] at h
    exact h rfl
  · intro h hc
    exact h (List.map_eq_nil_iff.1 hc)

theorem lookup_map_store (store sd : SDict.Dict String Val) (k : String) :
    SDict.lookup (store.map (fun kv => (kv.1, (SDict.lookup sd kv.1).getD kv.2))) k =
      (SDict.lookup store k).map (fun v => (SDict.lookup sd k).getD v) := by
  induction store with
  | nil => rfl
  | cons kv rest ih =>
    obtain ⟨k2, v2⟩ := kv
    rw [List.map_cons, SDict.lookup_cons, SDict.lookup_cons]
    by_cases hk : k2 = k
    · subst hk
      rw [if_pos rfl, if_pos rfl]
      rfl
    · rw [if_neg hk, if_neg hk]
      exact ih

theorem keys_map_val {κ : Type} (d : SDict.Dict κ Val) (g : κ × Val → Val) :
    SDict.keys (d.map (fun kv => (kv.1, g kv))) = SDict.keys d := by
  show (d.map (fun kv => (kv.1, g kv))).map (·.1) = d.map (·.1)
  rw [List.map_map]
  rfl

theorem nativeLoadStateDict_ok (m : DistModel) (sd : SDict.Dict String Val)
    (h1 : ∀ k ∈ SDict.keys m.store, (SDict.lookup sd k).isSome = true)
    (h2 : ∀ k ∈ SDict.keys sd, (SDict.lookup m.store k).isSome = true) :
    m.nativeLoadStateDict sd = .ok
      { m with
        store := m.store.map (fun kv => (kv.1, (SDict.lookup sd kv.1).getD kv.2)) } := by
  rw [DistModel.nativeLoadStateDict]
  rw [if_pos (by
    rw [Bool.and_eq_true]
    exact ⟨List.all_eq_true.2 (fun k hk => h1 k hk),
      List.all_eq_true.2 (fun k hk => h2 k hk)⟩)]

theorem sublist_of_mem_flatten {α : Type} (L : List (List α)) (l : List α)
    (h : l ∈ L) : l.Sublist L.flatten := by
  induction L with
  | nil => exact absurd h (List.not_mem_nil l)
  | cons x rest ih =>
    rw [List.flatten_cons]
    rcases List.mem_cons.1 h with h1 | h1
    · rw [h1]
      exact List.sublist_append_left x rest.flatten
    · exact (ih h1).trans (List.sublist_append_right x rest.flatten)

theorem canonFqnsAll_sublist (t : Module) (optims : List Optim) (o : Optim)
    (hmem : o ∈ optims) :
    (canonFqnsAll t o).Sublist (allCanonFqns t optims) :=
  sublist_of_mem_flatten _ _ (List.mem_map_of_mem _ hmem)

/-- In the no-FSDP regime, each position's canonical FQN set is a
singleton. -/
theorem posFqns_singleton (t : Module) (o : Optim)
    (hpos : ∀ ip ∈ o.allParams.enum, posFqns t o ip.1 = .ok (optimPosFqns t o ip.1))
    (hnamed : ∀ kp ∈ t.namedParameters, getFqns t kp.1 = .ok [fqn1 t kp.1])
    (hcount : ∀ p ∈ o.allParams,
      (t.namedParameters.filter (fun kp => kp.2 == p)).length = 1) :
    ∀ i, i < o.allParams.length → ∃ f0, optimPosFqns t o i = [f0] := by
  intro i hi
  cases hg : o.allParams.get? i with
  | none =>
    rw [List.get?_eq_none] at hg
    omega
  | some p =>
    have hpmem : p ∈ o.allParams := List.get?_mem hg
    obtain ⟨kp0, hkp0⟩ := List.length_eq_one.1 (hcount p hpmem)
    have hkmem : kp0 ∈ t.namedParameters.filter (fun kp => kp.2 == p) := by
      rw [hkp0]
      exact List.mem_cons_self _ _
    have hkf := List.mem_filter.1 hkmem
    have hname : paramNameIn t p = some kp0.1 := by
      rw [paramNameIn, find?_eq_head?_filter, hkp0]
      rfl
    have hposFq : posFqns t o i = .ok [fqn1 t kp0.1] := by
      simp only [posFqns, hg, hname]
      exact hnamed kp0 hkf.1
    have hpos2 := hpos_lt t o hpos i hi
    rw [hpos2] at hposFq
    exact ⟨fqn1 t kp0.1, Except.ok.inj hposFq⟩

theorem canonState_ne_nil (t : Module) (o : Optim)
    (hgne : o.paramGroups ≠ [])
    (hfne : ∀ ip ∈ o.allParams.enum, optimPosFqns t o ip.1 ≠ [])
    (hgr : ∀ gN ∈ assignPos 0 o.paramGroups,
      gN.params.any
        (fun i => ((o.allParams.get? i).map (·.requiresGrad)).getD false) = true) :
    canonState t o ≠ [] := by
  obtain ⟨gr, rest, hpg⟩ := List.exists_cons_of_ne_nil hgne
  have hgN : (⟨List.range' 0 gr.params.length, gr.lr⟩ : OsdGroup Nat) ∈
      assignPos 0 o.paramGroups := by
    rw [hpg]
    exact List.mem_cons_self _ _
  obtain ⟨i, hiN, hitr⟩ := List.any_eq_true.1 (hgr _ hgN)
  cases hgi : o.allParams.get? i with
  | none =>
    rw [hgi] at hitr
    simp at hitr
  | some p =>
    have hr : p.requiresGrad = true := by
      rw [hgi] at hitr
      simpa using hitr
    have henum : (i, p) ∈ o.allParams.enum := by
      apply List.mk_mem_enum_iff_getElem?.2
      rw [← List.get?_eq_getElem?]
      exact hgi
    obtain ⟨f, hf⟩ := List.exists_mem_of_ne_nil _ (hfne (i, p) henum)
    exact List.ne_nil_of_mem (canonState_mem t o i p f hgi hr hf)

/-- The store produced by the native strict load: each native key keeps its
key and adopts the supplied value. -/
def loadedStore (store2 sdN : SDict.Dict String Val) : SDict.Dict String Val :=
  store2.map (fun kv => (kv.1, (SDict.lookup sdN kv.1).getD kv.2))

/-- C1: the save/load round trip is the identity on both state dicts. For
any model (tree plus native store) and optimizer tuple in a well-separated
configuration — canonical rekeying succeeds with fresh, pairwise distinct
targets on the model side; every optimizer starts uninitialized with
distinct parameter identities, nonempty groups each containing a trainable
parameter, resolvable positional FQN sets, globally distinct canonical
FQNs, a Parameter Index that resolves every position, and (without Shard
wrappers) singleton per-parameter resolution; and the load-side
DDP-prefix move pairs exactly invert extraction rekeying — loading the
produced state dicts into a structurally identical model (same tree, same
native key list) with identically structured fresh optimizers and
extracting again succeeds and returns a model state dict equal as a
dictionary to the first one and a literally equal optimizer state dict. -/
theorem distributed_round_trip
    (m : DistModel) (store2 : SDict.Dict String Val)
    (optims : List Optim) (opts : DistributedStateDictOptions)
    (prs : List (String × String))
    (hsf : opts.save_frozen_params = true)
    (hpre : verifyOptionsPreOk m.tree opts = true)
    (hroot : m.tree.fsdpModules.isEmpty = false →
      m.tree.fsdpModules.any Module.isRootFsdp = true)
    (hne : m.store ≠ [])
    (hnd : (SDict.keys m.store).Nodup)
    (hok : ∀ k ∈ SDict.keys m.store, rekeyOkB m.tree k = true)
    (htgt_nodup : ((movers (modelPairs m)).map (·.2)).Nodup)
    (htgt_fresh : ∀ pr ∈ movers (modelPairs m), pr.2 ∉ SDict.keys m.store)
    (hdisjm : ∀ pr ∈ movers (modelPairs m), ∀ pr2 ∈ movers (modelPairs m),
      pr.2 ≠ pr2.1)
    (hmarker : ∀ k ∈ SDict.keys m.store,
      containsFlat ((canonKey m.tree k).getD k) = false)
    (hkeys2 : SDict.keys store2 = SDict.keys m.store)
    (hprs : rekeyPairs m.tree m.tree.namedParameters = .ok prs)
    (hl1 : ((movers prs).map (·.1)).Nodup)
    (hl2 : ((movers prs).map (·.2)).Nodup)
    (hl3 : ∀ pr ∈ movers prs,
      pr.1 ∈ (SDict.keys m.store).map (fun k => (canonKey m.tree k).getD k))
    (hl5 : ∀ pr ∈ movers prs, ∀ pr2 ∈ movers prs, pr.2 ≠ pr2.1)
    (hc1 : ∀ pr ∈ movers prs,
      pr.2 ∈ SDict.keys m.store ∧ (canonKey m.tree pr.2).getD pr.2 = pr.1)
    (hc2 : ∀ k ∈ SDict.keys m.store,
      (canonKey m.tree k).getD k ≠ k → k ∈ (movers prs).map (·.2))
    (hc3 : ∀ k ∈ SDict.keys m.store,
      (canonKey m.tree k).getD k = k → k ∉ (movers prs).map (·.1))
    (hst : ∀ o ∈ optims, o.state = [])
    (hndo : ∀ o ∈ optims, (o.allParams.map (·.pid)).Nodup)
    (hgne : ∀ o ∈ optims, o.paramGroups ≠ [])
    (hpos : ∀ o ∈ optims, ∀ ip ∈ o.allParams.enum,
      posFqns m.tree o ip.1 = .ok (optimPosFqns m.tree o ip.1))
    (hfne : ∀ o ∈ optims, ∀ ip ∈ o.allParams.enum, optimPosFqns m.tree o ip.1 ≠ [])
    (hall : (allCanonFqns m.tree optims).Nodup)
    (hgr : ∀ o ∈ optims, ∀ gN ∈ assignPos 0 o.paramGroups,
      gN.params.any
        (fun i => ((o.allParams.get? i).map (·.requiresGrad)).getD false) = true)
    (hIDX : ∀ o ∈ optims, ∀ ip ∈ o.allParams.enum,
      StateDictInfo.lookupParamFqns (theInfo m.tree optims opts) ip.2 =
        some (optimPosFqns m.tree o ip.1))
    (hNbr : m.tree.fsdpModules.isEmpty = true →
      (∀ kp ∈ m.tree.namedParameters, getFqns m.tree kp.1 = .ok [fqn1 m.tree kp.1]) ∧
      ∀ o ∈ optims, ∀ p ∈ o.allParams,
        (m.tree.namedParameters.filter (fun kp => kp.2 == p)).length = 1) :
    ∃ r1 l r2,
      distributedStateDict m optims [] false false opts = .ok r1 ∧
      distributedLoadStateDict { tree := m.tree, store := store2 } optims []
        r1.msd r1.osd false false opts = .ok l ∧
      distributedStateDict l.model l.optims l.grads false false opts = .ok r2 ∧
      SDict.equivb r2.msd r1.msd = true ∧ r2.osd = r1.osd := by
  have hinfo1 : verifyOptions m.tree optims false false opts =
      .ok (theInfo m.tree optims opts) := verifyOptions_theInfo _ _ _ hpre
  obtain ⟨msd1, hmsd1, hnd1, hlk1, hcomp1⟩ := getModelStateDict_spec m
    (theInfo m.tree optims opts) hsf hnd hok htgt_nodup htgt_fresh hdisjm
  have hdisjPer : ∀ o ∈ optims, (canonFqnsAll m.tree o).Nodup :=
    fun o ho => hall.sublist (canonFqnsAll_sublist m.tree optims o ho)
  have hcanon : ∀ o ∈ optims,
      (if (theInfo m.tree optims opts).fsdpModules.isEmpty = false
        then fsdpOptimStateDict m.tree { o with state := freshState o }
          (Optim.nativeStateDict { o with state := freshState o })
        else noFsdpConvert m.tree { o with state := freshState o }
          (Optim.nativeStateDict { o with state := freshState o }))
      = .ok { state := canonState m.tree o, pg := canonPg m.tree o } := by
    intro o ho
    cases hflag : m.tree.fsdpModules.isEmpty with
    | false =>
      rw [if_pos (show (theInfo m.tree optims opts).fsdpModules.isEmpty = false from hflag)]
      exact fsdpOptimStateDict_canon m.tree o (hpos o ho)
    | true =>
      rw [if_neg (show ¬ (theInfo m.tree optims opts).fsdpModules.isEmpty = false from by
        show ¬ m.tree.fsdpModules.isEmpty = false
        rw [hflag]
        simp)]
      obtain ⟨hnamed, hcount⟩ := hNbr hflag
      exact noFsdpConvert_canon m.tree o (hndo o ho) (hpos o ho) hnamed
        (hcount o ho) (hdisjPer o ho)
  have hmergedNd : (SDict.keys (mergedState m.tree optims)).Nodup :=
    hall.sublist (mergedState_keys_sublist m.tree optims)
  have hfold1 : getOptimStateDict m optims [] (theInfo m.tree optims opts) = .ok
      ({ state := mergedState m.tree optims, pg := mergedPg m.tree optims },
        optims.map (fun o => { o with state := freshState o }), []) :=
    getOptimFold_canon m (theInfo m.tree optims opts) optims
      { state := [], pg := [] } []
      (fun o ho => Or.inl (hst o ho)) hndo hcanon hmergedNd
      (fun k _ hc => absurd hc (List.not_mem_nil k))
  have hmsd1ne : msd1 ≠ [] := by
    cases hstore : m.store with
    | nil => exact absurd hstore hne
    | cons kv rest =>
      intro hmsdnil
      have hk : kv.1 ∈ SDict.keys m.store := by
        rw [hstore]
        exact List.mem_cons_self _ _
      have h2 := hlk1 kv.1 hk
      rw [hmsdnil] at h2
      have hsome : (SDict.lookup m.store kv.1).isSome :=
        (SDict.lookup_isSome_iff_mem_keys m.store kv.1).2 hk
      rw [← h2] at hsome
      exact absurd hsome (by simp)
  have hflat1 : ∀ kv ∈ msd1, containsFlat kv.1 = false := by
    intro kv hkv
    have hkmem : kv.1 ∈ SDict.keys msd1 := List.mem_map.2 ⟨kv, hkv, rfl⟩
    have hsome : (SDict.lookup msd1 kv.1).isSome :=
      (SDict.lookup_isSome_iff_mem_keys msd1 kv.1).2 hkmem
    by_cases himg : kv.1 ∈ (SDict.keys m.store).map
        (fun k => (canonKey m.tree k).getD k)
    · obtain ⟨k, hk, hke⟩ := List.mem_map.1 himg
      rw [← hke]
      exact hmarker k hk
    · rw [hcomp1 kv.1 himg] at hsome
      exact absurd hsome (by simp)
  have hostate_ne : (theInfo m.tree optims opts).handle_optim = true →
      (mergedState m.tree optims).isEmpty = false := by
    intro hho
    have hone : optims ≠ [] := of_decide_eq_true hho
    obtain ⟨o0, rest, hoeq⟩ := List.exists_cons_of_ne_nil hone
    have ho0 : o0 ∈ optims := by
      rw [hoeq]
      exact List.mem_cons_self _ _
    have hcne : canonState m.tree o0 ≠ [] :=
      canonState_ne_nil m.tree o0 (hgne o0 ho0) (hfne o0 ho0) (hgr o0 ho0)
    rw [hoeq, mergedState_cons]
    obtain ⟨kv0, tl, hcs⟩ := List.exists_cons_of_ne_nil hcne
    rw [hcs]
    rfl
  have hverify1 : verifyStateDict msd1
      { state := mergedState m.tree optims, pg := mergedPg m.tree optims }
      (theInfo m.tree optims opts) = .ok () := by
    apply verifyStateDict_pass
    · exact hroot
    · intro _
      cases hmc : msd1 with
      | nil => exact absurd hmc hmsd1ne
      | cons a b => rfl
    · exact hostate_ne
    · exact hflat1
  have hr1 : distributedStateDict m optims [] false false opts = .ok
      { msd := msd1,
        osd := { state := mergedState m.tree optims, pg := mergedPg m.tree optims },
        optims := optims.map (fun o => { o with state := freshState o }),
        grads := [] } := by
    simp only [distributedStateDict, hinfo1, hmsd1, hfold1, hverify1]
  -- load phase
  have himage_some : ∀ q, q ∈ (SDict.keys m.store).map
      (fun k => (canonKey m.tree k).getD k) → (SDict.lookup msd1 q).isSome = true := by
    intro q hq
    obtain ⟨k, hk, hke⟩ := List.mem_map.1 hq
    rw [← hke, hlk1 k hk]
    exact (SDict.lookup_isSome_iff_mem_keys m.store k).2 hk
  have himage_inv : ∀ q, (SDict.lookup msd1 q).isSome = true →
      q ∈ (SDict.keys m.store).map (fun k => (canonKey m.tree k).getD k) := by
    intro q hq
    by_contra hc
    rw [hcomp1 q hc] at hq
    exact absurd hq (by simp)
  have hl3' : ∀ pr ∈ movers prs, pr.1 ∈ SDict.keys msd1 := fun pr hpr =>
    SDict.mem_keys_of_lookup_isSome (himage_some pr.1 (hl3 pr hpr))
  have hl4' : ∀ pr ∈ movers prs, pr.2 ∉ SDict.keys msd1 := by
    intro pr hpr hc
    have hq := himage_inv pr.2 ((SDict.lookup_isSome_iff_mem_keys msd1 pr.2).2 hc)
    obtain ⟨k, hk, hke⟩ := List.mem_map.1 hq
    obtain ⟨hpr2mem, hpr2c⟩ := hc1 pr hpr
    have hmovNe : ¬ pr.1 = pr.2 := by
      have := List.mem_filter.1 hpr
      simpa using this.2
    by_cases hck : (canonKey m.tree k).getD k = k
    · rw [hck] at hke
      rw [hke] at hck
      rw [hpr2c] at hck
      exact hmovNe hck
    · have hk2 := hc2 k hk hck
      obtain ⟨pr3, hpr3, hpr3e⟩ := List.mem_map.1 hk2
      obtain ⟨_, hpr3c⟩ := hc1 pr3 hpr3
      rw [hpr3e] at hpr3c
      rw [← hke] at hpr2c
      exact hl5 pr hpr pr3 hpr3 (by rw [← hpr3c, hke])
  obtain ⟨sdN, hmvok, hndN, hmvt, hmvs, hmvo⟩ :=
    movePairs_spec prs msd1 hnd1 hl1 hl2 hl3' hl4' hl5
  have hfoldload : loadRekeyFold m.tree m.tree.namedParameters msd1 = .ok sdN := by
    rw [loadRekeyFold_eq_movePairs m.tree m.tree.namedParameters msd1 prs hprs]
    exact hmvok
  have hsdN_val : ∀ k ∈ SDict.keys m.store,
      SDict.lookup sdN k = SDict.lookup m.store k := by
    intro k hk
    by_cases hck : (canonKey m.tree k).getD k = k
    · have hnotsrc : k ∉ (movers prs).map (·.1) := hc3 k hk hck
      have hnottgt : k ∉ (movers prs).map (·.2) := by
        intro hcm
        obtain ⟨pr, hpr, hpre⟩ := List.mem_map.1 hcm
        obtain ⟨_, hprc⟩ := hc1 pr hpr
        have hmovNe : ¬ pr.1 = pr.2 := by
          have := List.mem_filter.1 hpr
          simpa using this.2
        rw [hpre] at hprc
        rw [hck] at hprc
        exact hmovNe (by rw [← hprc, hpre])
      rw [hmvo k hnotsrc hnottgt]
      have h2 := hlk1 k hk
      rw [hck] at h2
      exact h2
    · have hktgt := hc2 k hk hck
      obtain ⟨pr, hpr, hpre⟩ := List.mem_map.1 hktgt
      obtain ⟨_, hprc⟩ := hc1 pr hpr
      rw [hpre] at hprc
      have h1 : SDict.lookup sdN k = SDict.lookup msd1 pr.1 := by
        rw [← hpre]
        exact hmvt pr hpr
      rw [h1]
      have h2 := hlk1 k hk
      rw [hprc] at h2
      exact h2
  have hsdN_keysub : ∀ q, (SDict.lookup sdN q).isSome = true →
      q ∈ SDict.keys m.store := by
    intro q hq
    by_cases hsrc : q ∈ (movers prs).map (·.1)
    · obtain ⟨pr, hpr, hpre⟩ := List.mem_map.1 hsrc
      rw [← hpre, hmvs pr hpr] at hq
      exact absurd hq (by simp)
    · by_cases htgt : q ∈ (movers prs).map (·.2)
      · obtain ⟨pr, hpr, hpre⟩ := List.mem_map.1 htgt
        rw [← hpre]
        exact (hc1 pr hpr).1
      · rw [hmvo q hsrc htgt] at hq
        have hqi := himage_inv q hq
        obtain ⟨k, hk, hke⟩ := List.mem_map.1 hqi
        by_cases hck : (canonKey m.tree k).getD k = k
        · rw [← hke, hck]
          exact hk
        · exfalso
          have hk2 := hc2 k hk hck
          obtain ⟨pr3, hpr3, hpr3e⟩ := List.mem_map.1 hk2
          obtain ⟨_, hpr3c⟩ := hc1 pr3 hpr3
          rw [hpr3e] at hpr3c
          apply hsrc
          rw [← hke, hpr3c]
          exact List.mem_map_of_mem _ hpr3
  have hm2_1 : ∀ k ∈ SDict.keys
      (({ tree := m.tree, store := store2 } : DistModel).store),
      (SDict.lookup sdN k).isSome = true := by
    intro k hk
    have hk2 : k ∈ SDict.keys m.store := by
      rw [← hkeys2]
      exact hk
    rw [hsdN_val k hk2]
    exact (SDict.lookup_isSome_iff_mem_keys m.store k).2 hk2
  have hm2_2 : ∀ k ∈ SDict.keys sdN,
      (SDict.lookup (({ tree := m.tree, store := store2 } : DistModel).store) k).isSome
        = true := by
    intro k hk
    have h3 := hsdN_keysub k ((SDict.lookup_isSome_iff_mem_keys sdN k).2 hk)
    apply (SDict.lookup_isSome_iff_mem_keys store2 k).2
    rw [hkeys2]
    exact h3
  have hnative2 : DistModel.nativeLoadStateDict { tree := m.tree, store := store2 } sdN =
      .ok { tree := m.tree, store := loadedStore store2 sdN } :=
    nativeLoadStateDict_ok { tree := m.tree, store := store2 } sdN hm2_1 hm2_2
  have hloadmodel : loadModelStateDict { tree := m.tree, store := store2 } msd1
      (theInfo m.tree optims opts) =
      .ok (sdN, { tree := m.tree, store := loadedStore store2 sdN }) := by
    rw [loadModelStateDict_unfold { tree := m.tree, store := store2 } msd1
      (theInfo m.tree optims opts) sdN hfoldload, hnative2]
    rfl
  have hls_keys : SDict.keys (loadedStore store2 sdN) = SDict.keys m.store := by
    rw [loadedStore, keys_map_val, hkeys2]
  have hls_val : ∀ k ∈ SDict.keys m.store,
      SDict.lookup (loadedStore store2 sdN) k = SDict.lookup m.store k := by
    intro k hk
    rw [loadedStore, lookup_map_store, hsdN_val k hk]
    have hk2 : k ∈ SDict.keys store2 := by
      rw [hkeys2]
      exact hk
    have hsome := (SDict.lookup_isSome_iff_mem_keys store2 k).2 hk2
    cases hv : SDict.lookup store2 k with
    | none =>
      rw [hv] at hsome
      exact absurd hsome (by simp)
    | some v =>
      have hsome1 := (SDict.lookup_isSome_iff_mem_keys m.store k).2 hk
      cases hv1 : SDict.lookup m.store k with
      | none =>
        rw [hv1] at hsome1
        exact absurd hsome1 (by simp)
      | some v1 => rfl
  have hsplitall : ∀ o ∈ optims, splitOptimStateDict o
      { state := mergedState m.tree optims, pg := mergedPg m.tree optims }
      (theInfo m.tree optims opts) =
      .ok { state := canonState m.tree o, pg := canonPg m.tree o } :=
    fun o ho => split_canon m.tree optims o (theInfo m.tree optims opts) ho
      hIDX hfne hall hgr
  have hloadoptim : loadOptimStateDict
      { tree := m.tree, store := loadedStore store2 sdN } optims
      { state := mergedState m.tree optims, pg := mergedPg m.tree optims } []
      (theInfo m.tree optims opts) = .ok
      (optims.map (fun o => { o with state := freshState o }), []) :=
    loadOptimFold_canon { tree := m.tree, store := loadedStore store2 sdN }
      (theInfo m.tree optims opts)
      { state := mergedState m.tree optims, pg := mergedPg m.tree optims }
      optims [] hst hndo hsplitall
      (fun _ o ho => ⟨fsdpToLoad_canon m.tree o (hpos o ho) (hfne o ho) (hdisjPer o ho),
        nativeOptimLoad_assign o⟩)
      (fun hflag o ho => by
        obtain ⟨hnamed, hcount⟩ := hNbr hflag
        exact nativeOptimLoad_canon m.tree o
          (posFqns_singleton m.tree o (hpos o ho) hnamed (hcount o ho))
          (hdisjPer o ho))
  have hload : distributedLoadStateDict { tree := m.tree, store := store2 } optims []
      msd1 { state := mergedState m.tree optims, pg := mergedPg m.tree optims }
      false false opts = .ok
      { model := { tree := m.tree, store := loadedStore store2 sdN },
        optims := optims.map (fun o => { o with state := freshState o }),
        grads := [], msd := sdN } := by
    simp only [distributedLoadStateDict, hinfo1, hverify1, hloadmodel, hloadoptim]
  -- second extraction
  have hinfo2 : verifyOptions m.tree
      (optims.map (fun o => { o with state := freshState o })) false false opts =
      .ok (theInfo m.tree optims opts) := by
    rw [verifyOptions_theInfo m.tree _ opts hpre, theInfo_map_state]
  have hnd2' : (SDict.keys (loadedStore store2 sdN)).Nodup := by
    rw [hls_keys]
    exact hnd
  have hok2 : ∀ k ∈ SDict.keys (loadedStore store2 sdN), rekeyOkB m.tree k = true := by
    intro k hk
    rw [hls_keys] at hk
    exact hok k hk
  have hmp2 : modelPairs { tree := m.tree, store := loadedStore store2 sdN } =
      modelPairs m := by
    simp only [modelPairs]
    rw [show SDict.keys (({ tree := m.tree, store := loadedStore store2 sdN } :
      DistModel).store) = SDict.keys m.store from by
      rw [hls_keys]]
  obtain ⟨msd2, hmsd2, hnd2, hlk2, hcomp2⟩ := getModelStateDict_spec
    { tree := m.tree, store := loadedStore store2 sdN } (theInfo m.tree optims opts)
    hsf hnd2' hok2
    (by rw [hmp2]; exact htgt_nodup)
    (by
      intro pr hpr
      rw [hmp2] at hpr
      show pr.2 ∉ SDict.keys (loadedStore store2 sdN)
      rw [hls_keys]
      exact htgt_fresh pr hpr)
    (by
      intro pr hpr pr2 hpr2
      rw [hmp2] at hpr hpr2
      exact hdisjm pr hpr pr2 hpr2)
  have hmsd_eq : ∀ q, SDict.lookup msd2 q = SDict.lookup msd1 q := by
    intro q
    by_cases hq : q ∈ (SDict.keys m.store).map (fun k => (canonKey m.tree k).getD k)
    · obtain ⟨k, hk, hke⟩ := List.mem_map.1 hq
      have hk2' : k ∈ SDict.keys (loadedStore store2 sdN) := by
        rw [hls_keys]
        exact hk
      have e2 : SDict.lookup msd2 ((canonKey m.tree k).getD k) =
          SDict.lookup (loadedStore store2 sdN) k := hlk2 k hk2'
      rw [← hke, e2, hls_val k hk, ← hlk1 k hk]
    · have hq2 : q ∉ (SDict.keys (loadedStore store2 sdN)).map
          (fun k => (canonKey m.tree k).getD k) := by
        rw [hls_keys]
        exact hq
      have e2 : SDict.lookup msd2 q = none := hcomp2 q hq2
      rw [e2, hcomp1 q hq]
  have hms2 : mergedState m.tree
      (optims.map (fun o => { o with state := freshState o })) =
      mergedState m.tree optims := by
    rw [mergedState, List.map_map]
    rfl
  have hmpg2 : mergedPg m.tree
      (optims.map (fun o => { o with state := freshState o })) =
      mergedPg m.tree optims := by
    rw [mergedPg, List.map_map]
    rfl
  have hst2 : ∀ o2 ∈ optims.map (fun o => { o with state := freshState o }),
      o2.state = [] ∨ o2.state = freshState o2 := by
    intro o2 h2
    obtain ⟨o, ho, rfl⟩ := List.mem_map.1 h2
    exact Or.inr rfl
  have hnd2o : ∀ o2 ∈ optims.map (fun o => { o with state := freshState o }),
      (o2.allParams.map (·.pid)).Nodup := by
    intro o2 h2
    obtain ⟨o, ho, rfl⟩ := List.mem_map.1 h2
    exact hndo o ho
  have hcanon2 : ∀ o2 ∈ optims.map (fun o => { o with state := freshState o }),
      (if (theInfo m.tree optims opts).fsdpModules.isEmpty = false
        then fsdpOptimStateDict m.tree { o2 with state := freshState o2 }
          (Optim.nativeStateDict { o2 with state := freshState o2 })
        else noFsdpConvert m.tree { o2 with state := freshState o2 }
          (Optim.nativeStateDict { o2 with state := freshState o2 }))
      = .ok { state := canonState m.tree o2, pg := canonPg m.tree o2 } := by
    intro o2 h2
    obtain ⟨o, ho, rfl⟩ := List.mem_map.1 h2
    exact hcanon o ho
  have h2fold := getOptimFold_canon { tree := m.tree, store := loadedStore store2 sdN }
    (theInfo m.tree optims opts)
    (optims.map (fun o => { o with state := freshState o }))
    { state := [], pg := [] } [] hst2 hnd2o hcanon2
    (by
      show (SDict.keys (mergedState m.tree
        (optims.map (fun o => { o with state := freshState o })))).Nodup
      rw [hms2]
      exact hmergedNd)
    (fun k _ hc => absurd hc (List.not_mem_nil k))
  have hfold2 : getOptimStateDict { tree := m.tree, store := loadedStore store2 sdN }
      (optims.map (fun o => { o with state := freshState o })) []
      (theInfo m.tree optims opts) = .ok
      (({ state := mergedState m.tree optims,
          pg := mergedPg m.tree optims } : OSD String),
        (optims.map (fun o => { o with state := freshState o })).map
          (fun o => { o with state := freshState o }), ([] : Grads)) := by
    rw [← hms2, ← hmpg2]
    exact h2fold
  have hls_ne : loadedStore store2 sdN ≠ [] := by
    intro hc
    have hkeq : SDict.keys m.store = [] := by
      rw [← hls_keys, hc]
      rfl
    cases hsm : m.store with
    | nil => exact hne hsm
    | cons kv tl =>
      rw [hsm] at hkeq
      exact absurd hkeq (by simp)
  have hmsd2ne : msd2 ≠ [] := by
    cases hstore : loadedStore store2 sdN with
    | nil => exact absurd hstore hls_ne
    | cons kv rest =>
      intro hmsdnil
      have hk : kv.1 ∈ SDict.keys (loadedStore store2 sdN) := by
        rw [hstore]
        exact List.mem_cons_self _ _
      have h2 : SDict.lookup msd2 ((canonKey m.tree kv.1).getD kv.1) =
          SDict.lookup (loadedStore store2 sdN) kv.1 := hlk2 kv.1 hk
      rw [hmsdnil] at h2
      have hsome : (SDict.lookup (loadedStore store2 sdN) kv.1).isSome :=
        (SDict.lookup_isSome_iff_mem_keys _ kv.1).2 hk
      rw [← h2] at hsome
      exact absurd hsome (by simp)
  have hflat2 : ∀ kv ∈ msd2, containsFlat kv.1 = false := by
    intro kv hkv
    have hkmem : kv.1 ∈ SDict.keys msd2 := List.mem_map.2 ⟨kv, hkv, rfl⟩
    have hsome : (SDict.lookup msd2 kv.1).isSome :=
      (SDict.lookup_isSome_iff_mem_keys msd2 kv.1).2 hkmem
    by_cases himg : kv.1 ∈ (SDict.keys (loadedStore store2 sdN)).map
        (fun k => (canonKey m.tree k).getD k)
    · obtain ⟨k, hk, hke⟩ := List.mem_map.1 himg
      rw [← hke]
      rw [hls_keys] at hk
      exact hmarker k hk
    · have e2 : SDict.lookup msd2 kv.1 = none := hcomp2 kv.1 himg
      rw [e2] at hsome
      exact absurd hsome (by simp)
  have hverify2 : verifyStateDict msd2
      { state := mergedState m.tree optims, pg := mergedPg m.tree optims }
      (theInfo m.tree optims opts) = .ok () := by
    apply verifyStateDict_pass
    · exact hroot
    · intro _
      cases hmc : msd2 with
      | nil => exact absurd hmc hmsd2ne
      | cons a b => rfl
    · exact hostate_ne
    · exact hflat2
  have hr2 : distributedStateDict { tree := m.tree, store := loadedStore store2 sdN }
      (optims.map (fun o => { o with state := freshState o })) [] false false opts =
      .ok
      { msd := msd2,
        osd := { state := mergedState m.tree optims, pg := mergedPg m.tree optims },
        optims := (optims.map (fun o => { o with state := freshState o })).map
          (fun o => { o with state := freshState o }),
        grads := [] } := by
    simp only [distributedStateDict, hinfo2, hmsd2, hfold2, hverify2]
  exact ⟨_, _, _, hr1, hload, hr2, SDict.equivb_of_lookup hmsd_eq, rfl⟩
/-- Witness for the round trip: a DDP-wrapped two-parameter model (one
frozen), a one-group optimizer, and the concrete move pairs computed by the
load-side rekey. -/
theorem distributed_round_trip_witness :
    ∃ r1 l r2,
      distributedStateDict
        { tree := .ddp (.plain [("l", .plain []
            [("w", { pid := 1 }), ("b", { pid := 2, requiresGrad := false })])] []),
          store := [("module.l.w", 11), ("module.l.b", 12)] }
        [{ paramGroups :=
            [{ params := [{ pid := 1 }, { pid := 2, requiresGrad := false }], lr := 5 }] }]
        [] false false {} = .ok r1 ∧
      distributedLoadStateDict
        { tree := .ddp (.plain [("l", .plain []
            [("w", { pid := 1 }), ("b", { pid := 2, requiresGrad := false })])] []),
          store := [("module.l.w", 0), ("module.l.b", 0)] }
        [{ paramGroups :=
            [{ params := [{ pid := 1 }, { pid := 2, requiresGrad := false }], lr := 5 }] }]
        [] r1.msd r1.osd false false {} = .ok l ∧
      distributedStateDict l.model l.optims l.grads false false {} = .ok r2 ∧
      SDict.equivb r2.msd r1.msd = true ∧ r2.osd = r1.osd :=
  distributed_round_trip
    { tree := .ddp (.plain [("l", .plain []
        [("w", { pid := 1 }), ("b", { pid := 2, requiresGrad := false })])] []),
      store := [("module.l.w", 11), ("module.l.b", 12)] }
    [("module.l.w", 0), ("module.l.b", 0)]
    [{ paramGroups :=
        [{ params := [{ pid := 1 }, { pid := 2, requiresGrad := false }], lr := 5 }] }]
    {} [("l.w", "module.l.w"), ("l.b", "module.l.b")]
    (by decide) (by decide) (by decide) (by decide) (by decide) (by decide)
    (by decide) (by decide) (by decide) (by decide) (by decide) (by decide)
    (by decide) (by decide) (by decide) (by decide) (by decide) (by decide)
    (by decide) (by decide) (by decide) (by decide) (by decide) (by decide)
    (by decide) (by decide) (by decide) (by decide)

end TorchSD
